import Mathlib

/-!
Verification development for the `json-parser-rs` repository: a shallow
embedding of its lexer (`src/lexer.rs`), parser (`src/parser.rs`), value tree
(`src/json.rs`) and error-position computation (`src/error.rs`), together with
theorems settling the specification claims.

Modelling conventions:
* Rust `&str` input is modelled as `List Char`; byte offsets are modelled
  exactly, each `Char` contributing its UTF-8 length (`Char.utf8Size`).
* Rust `f64` number payloads are modelled by `JNum`, an exact decimal rational
  `num / 10 ^ exp` kept in canonical form (no factor of 10 in `num` unless
  `exp = 0`).  This idealizes `f64` arithmetic as exact decimal arithmetic:
  `str::parse::<f64>` is modelled as exact decimal reading and `f64::to_string`
  as exact decimal printing.  The saturating `as i64` cast in
  `JsonValue::to_json_string` is modelled faithfully (clamping to the i64
  range).  The idealization diverges from real `f64` on literals that `f64`
  rounds or overflows; the one claim quantifying over number values restricts
  its class to integers of magnitude at most `2^53` (see `F64IntSafe`), on
  which `f64` is exact and the model and the program agree; the remaining
  claims exercise numbers only at small concrete literals (`123`, `-42.5`,
  `1`, `2`), where the same agreement holds.
* The Rust `while` loops inside the lexer and the recursive-descent parser are
  modelled with an explicit fuel argument so that every function is a
  computable structural recursion; the public wrappers supply fuel that
  provably suffices (the fuel-out branches are unreachable from them).
* Rust `char::is_whitespace` (Unicode `White_Space`) is modelled exactly by
  enumerating the property.  `char::is_alphabetic` / `char::is_alphanumeric`
  are modelled on their ASCII part (the Unicode tables are out of scope); all
  claims below exercise only ASCII inputs in those branches.
* Lexer and parser errors are modelled as an `ErrPos` (message and byte
  position).  The Rust code eagerly derives `line`/`column` via
  `ParseError::new`; that derivation is modelled separately by
  `ParseError.calculate_position` / `ParseError.new` (the subject of the
  position claims), which return `Option` because Rust string slicing panics
  on a non-boundary offset.
-/

/-- Exact decimal number `num / 10 ^ exp`, the model of an `f64` produced by
parsing a decimal literal.  Canonical form: if `exp > 0` then `10 ∤ num`. -/
structure JNum where
  num : Int
  exp : Nat
deriving DecidableEq, Repr

/-- Remove common factors of 10 from `num / 10 ^ exp` (value-preserving). -/
def JNum.normCore : Int → Nat → JNum
  | n, 0 => ⟨n, 0⟩
  | n, e + 1 => if n % 10 = 0 then JNum.normCore (n / 10) e else ⟨n, e + 1⟩

def JNum.mk' (n : Int) (e : Nat) : JNum := JNum.normCore n e

/-- Numeric value of a digit-character fold, as in accumulating `number_str`. -/
def digitsToNat (ds : List Char) : Nat :=
  ds.foldl (fun a c => 10 * a + (c.toNat - 48)) 0

/-- Decimal digit characters of `n` (most significant first), via fuel. -/
def natDigitsAux : Nat → Nat → List Char
  | 0, _ => []
  | _ + 1, 0 => []
  | fuel + 1, n => natDigitsAux fuel (n / 10) ++ [Char.ofNat (48 + n % 10)]

def natToDigitChars (n : Nat) : List Char :=
  if n = 0 then ['0'] else natDigitsAux (n + 1) n

def intToDigitChars (i : Int) : List Char :=
  if i < 0 then '-' :: natToDigitChars i.natAbs else natToDigitChars i.natAbs

/-- Rust `char::is_whitespace`: the Unicode `White_Space` property. -/
def rustIsWhitespace (c : Char) : Bool :=
  c = ' ' || c = '\t' || c = '\n' || c = '\r' ||
  c = '\x0b' || c = '\x0c' ||
  c.toNat = 0x85 || c.toNat = 0xA0 || c.toNat = 0x1680 ||
  (0x2000 ≤ c.toNat && c.toNat ≤ 0x200A) ||
  c.toNat = 0x2028 || c.toNat = 0x2029 || c.toNat = 0x202F ||
  c.toNat = 0x205F || c.toNat = 0x3000

/-- Rust `char::is_alphabetic`, modelled on its ASCII part. -/
def rustIsAlphabetic (c : Char) : Bool := c.isAlpha

/-- Rust `char::is_alphanumeric`, modelled on its ASCII part. -/
def rustIsAlphanumeric (c : Char) : Bool := c.isAlpha || c.isDigit

/-- `Token` from `src/lexer.rs`. -/
inductive Token where
  | leftBrace
  | rightBrace
  | leftBracket
  | rightBracket
  | comma
  | colon
  | tstring (s : List Char)
  | number (n : JNum)
  | boolean (b : Bool)
  | null
  | eof
deriving DecidableEq, Repr

/-- A lexer/parser error before line/column derivation: the `message` and
`position` passed to `ParseError::new` (line and column are derived from them
deterministically, see `ParseError.new`). -/
structure ErrPos where
  message : String
  position : Nat
deriving DecidableEq, Repr

/-- `Lexer` from `src/lexer.rs`. -/
structure Lexer where
  input : List Char
  position : Nat
  current_char : Option Char
deriving DecidableEq, Repr

/-- Total UTF-8 byte length of a character list (Rust `str::len`). -/
def utf8Len : List Char → Nat
  | [] => 0
  | c :: cs => c.utf8Size + utf8Len cs

/-- Decode the character starting at byte offset `k` (Rust
`self.input[k..].chars().next()`); `none` at end of input.  A `k` strictly
inside a character's encoding would make Rust panic at the slice; this total
model returns `none` there (unreachable from lexer-maintained offsets). -/
def decodeAt : List Char → Nat → Option Char
  | [], _ => none
  | c :: _, 0 => some c
  | c :: cs, k + 1 =>
    if c.utf8Size ≤ k + 1 then decodeAt cs (k + 1 - c.utf8Size) else none

/-- `Lexer::advance`. -/
def Lexer.advance (l : Lexer) : Lexer :=
  if l.position < utf8Len l.input then
    let c? := decodeAt l.input l.position
    { l with
      current_char := c?
      position := l.position + ((c?.map Char.utf8Size).getD 0) }
  else
    { l with current_char := none }

/-- `Lexer::new`. -/
def Lexer.new (input : List Char) : Lexer :=
  Lexer.advance { input := input, position := 0, current_char := none }

/-- Decreasing measure for the lexer's scanning loops. -/
def lexMeasure (l : Lexer) : Nat :=
  utf8Len l.input - l.position + (if l.current_char.isSome then 1 else 0)

/-- `Lexer::skip_whitespace` loop body, with fuel. -/
def skipWsF : Nat → Lexer → Lexer
  | 0, l => l
  | n + 1, l =>
    match l.current_char with
    | some c => if rustIsWhitespace c then skipWsF n l.advance else l
    | none => l

/-- `Lexer::skip_whitespace`; the supplied fuel provably suffices. -/
def Lexer.skip_whitespace (l : Lexer) : Lexer := skipWsF (lexMeasure l) l

/-- Escape decoding in `Lexer::read_string` (the recognized escapes). -/
def escDecode (c : Char) : Option Char :=
  if c = '"' then some '"'
  else if c = '\\' then some '\\'
  else if c = 'n' then some '\n'
  else if c = 'r' then some '\r'
  else if c = 't' then some '\t'
  else none

/-- `Lexer::read_string` main loop, with fuel.  `acc` is the accumulated
payload, `escaped` the escape flag, `start` the offset recorded at entry for
the unterminated-string error.  The fuel-out branch is unreachable from
`Lexer.read_string`. -/
def readStrF : Nat → Lexer → List Char → Bool → Nat → Except ErrPos Token × Lexer
  | 0, l, _, _, _ => (Except.error ⟨"out of fuel", l.position⟩, l)
  | n + 1, l, acc, escaped, start =>
    match l.current_char with
    | some ch =>
      if escaped then
        match escDecode ch with
        | some d => readStrF n l.advance (acc ++ [d]) false start
        | none =>
          (Except.error ⟨"Invalid escape sequence: \\" ++ ch.toString, l.position⟩, l)
      else if ch = '\\' then readStrF n l.advance acc true start
      else if ch = '"' then (Except.ok (Token.tstring acc), l.advance)
      else readStrF n l.advance (acc ++ [ch]) false start
    | none => (Except.error ⟨"Unterminated string", start⟩, l)

/-- `Lexer::read_string`. -/
def Lexer.read_string (l : Lexer) : Except ErrPos Token × Lexer :=
  readStrF (lexMeasure l) l.advance [] false l.position

/-- Unsigned part of the `str::parse::<f64>` model: digits, then an optional
single dot and more digits; at least one digit overall is required. -/
def rustParseF64Body (t : List Char) (neg : Bool) : Option JNum :=
  let ip := t.takeWhile Char.isDigit
  let r := t.drop ip.length
  match r with
  | [] =>
    if ip.isEmpty then none
    else
      some (JNum.mk'
        (if neg then -(digitsToNat ip : Int) else (digitsToNat ip : Int)) 0)
  | '.' :: fp =>
    if fp.all Char.isDigit && !(ip.isEmpty && fp.isEmpty) then
      some (JNum.mk'
        (if neg then -((digitsToNat ip * 10 ^ fp.length + digitsToNat fp : Nat) : Int)
         else ((digitsToNat ip * 10 ^ fp.length + digitsToNat fp : Nat) : Int))
        fp.length)
    else none
  | _ => none

/-- Model of `str::parse::<f64>` on the decimal strings `read_number`
accumulates, idealized to exact decimal arithmetic: an optional sign, digits,
an optional single dot; at least one digit overall is required. -/
def rustParseF64 (s : List Char) : Option JNum :=
  match s with
  | '-' :: t => rustParseF64Body t true
  | t => rustParseF64Body t false

/-- First loop of `Lexer::read_number`: digits, plus a single `.`; with fuel. -/
def readNumLoop1F : Nat → Lexer → List Char → Bool → List Char × Bool × Lexer
  | 0, l, acc, hasDot => (acc, hasDot, l)
  | n + 1, l, acc, hasDot =>
    match l.current_char with
    | some ch =>
      if ch.isDigit then readNumLoop1F n l.advance (acc ++ [ch]) hasDot
      else if ch = '.' && !hasDot then readNumLoop1F n l.advance (acc ++ ['.']) true
      else (acc, hasDot, l)
    | none => (acc, hasDot, l)

/-- Second loop of `Lexer::read_number` (digits after the decimal point); the
first loop already consumes them, so this loop never adds characters, but it
is modelled for fidelity. -/
def readNumLoop2F : Nat → Lexer → List Char → List Char × Lexer
  | 0, l, acc => (acc, l)
  | n + 1, l, acc =>
    match l.current_char with
    | some ch =>
      if ch.isDigit then readNumLoop2F n l.advance (acc ++ [ch]) else (acc, l)
    | none => (acc, l)

/-- `Lexer::read_number`. -/
def Lexer.read_number (l : Lexer) : Except ErrPos Token × Lexer :=
  let start := l.position
  let (acc₀, l₀) : List Char × Lexer :=
    if l.current_char = some '-' then (['-'], l.advance) else ([], l)
  let (acc₁, hasDot, l₁) := readNumLoop1F (lexMeasure l₀) l₀ acc₀ false
  let (acc₂, l₂) :=
    if hasDot then readNumLoop2F (lexMeasure l₁) l₁ acc₁ else (acc₁, l₁)
  match rustParseF64 acc₂ with
  | some q => (Except.ok (Token.number q), l₂)
  | none => (Except.error ⟨"Invalid number", start⟩, l₂)

/-- `Lexer::read_keyword` accumulation loop, with fuel. -/
def readKwF : Nat → Lexer → List Char → List Char × Lexer
  | 0, l, acc => (acc, l)
  | n + 1, l, acc =>
    match l.current_char with
    | some ch =>
      if rustIsAlphanumeric ch then readKwF n l.advance (acc ++ [ch]) else (acc, l)
    | none => (acc, l)

/-- `Lexer::read_keyword`. -/
def Lexer.read_keyword (l : Lexer) : Except ErrPos Token × Lexer :=
  let start := l.position
  let (kw, l') := readKwF (lexMeasure l) l []
  if kw = "true".data then (Except.ok (Token.boolean true), l')
  else if kw = "false".data then (Except.ok (Token.boolean false), l')
  else if kw = "null".data then (Except.ok (Token.null), l')
  else (Except.error ⟨"Unexpected keyword: " ++ String.mk kw, start⟩, l')

/-- `Lexer::next_token`. -/
def Lexer.next_token (l : Lexer) : Except ErrPos Token × Lexer :=
  let l := l.skip_whitespace
  let start_pos := l.position
  match l.current_char with
  | none => (Except.ok Token.eof, l)
  | some c =>
    if c = '\x7b' then (Except.ok Token.leftBrace, l.advance)
    else if c = '\x7d' then (Except.ok Token.rightBrace, l.advance)
    else if c = '[' then (Except.ok Token.leftBracket, l.advance)
    else if c = ']' then (Except.ok Token.rightBracket, l.advance)
    else if c = ',' then (Except.ok Token.comma, l.advance)
    else if c = ':' then (Except.ok Token.colon, l.advance)
    else if c = '"' then l.read_string
    else if c.isDigit || c = '-' then l.read_number
    else if rustIsAlphabetic c then l.read_keyword
    else
      (Except.error ⟨"Unexpected character: \x27" ++ c.toString ++ "\x27", start_pos⟩, l)

/-- `JsonValue` from `src/json.rs`.  Strings are `List Char`, numbers `JNum`.
Objects are ordered pair sequences, exactly as in the source. -/
inductive JsonValue where
  | null
  | boolean (b : Bool)
  | number (q : JNum)
  | string (s : List Char)
  | array (items : List JsonValue)
  | object (pairs : List (List Char × JsonValue))
deriving Repr

/-- `escape_string` from `src/json.rs`, per character. -/
def escChar (c : Char) : List Char :=
  if c = '"' then ['\\', '"']
  else if c = '\\' then ['\\', '\\']
  else if c = '\n' then ['\\', 'n']
  else if c = '\r' then ['\\', 'r']
  else if c = '\t' then ['\\', 't']
  else [c]

/-- `escape_string` from `src/json.rs`. -/
def escape_string : List Char → List Char
  | [] => []
  | c :: cs => escChar c ++ escape_string cs

/-- Saturating Rust `f64 as i64` cast on an integral value. -/
def i64clamp (n : Int) : Int :=
  max (-(2 ^ 63)) (min (2 ^ 63 - 1) n)

/-- Digits of `n` left-padded with zeros to `width` characters. -/
def padDigits (width : Nat) (n : Nat) : List Char :=
  let ds := natToDigitChars n
  List.replicate (width - ds.length) '0' ++ ds

/-- Model of `f64::to_string` on a non-integral `JNum` (exact decimal
printing: sign, integer part, dot, fraction digits padded to `exp` places). -/
def jnumFracChars (q : JNum) : List Char :=
  let m := q.num.natAbs
  (if q.num < 0 then ['-'] else []) ++
    natToDigitChars (m / 10 ^ q.exp) ++ '.' :: padDigits q.exp (m % 10 ^ q.exp)

/-- Number rendering in `JsonValue::to_json_string`: integral values print via
the saturating `as i64` cast, others via decimal printing. -/
def jnumToChars (q : JNum) : List Char :=
  if q.exp = 0 then intToDigitChars (i64clamp q.num) else jnumFracChars q

mutual

/-- `JsonValue::to_json_string` from `src/json.rs`. -/
def JsonValue.to_json_string : JsonValue → List Char
  | JsonValue.null => "null".data
  | JsonValue.boolean b => if b then "true".data else "false".data
  | JsonValue.number q => jnumToChars q
  | JsonValue.string s => '"' :: escape_string s ++ ['"']
  | JsonValue.array items =>
    '[' :: List.intercalate ", ".data (jsonArrStrings items) ++ [']']
  | JsonValue.object pairs =>
    '\x7b' :: List.intercalate ", ".data (jsonObjStrings pairs) ++ ['\x7d']

/-- Renderings of array elements. -/
def jsonArrStrings : List JsonValue → List (List Char)
  | [] => []
  | v :: vs => v.to_json_string :: jsonArrStrings vs

/-- Renderings of object pairs (`"k": v`). -/
def jsonObjStrings : List (List Char × JsonValue) → List (List Char)
  | [] => []
  | (k, v) :: ps =>
    ('"' :: escape_string k ++ "\": ".data ++ v.to_json_string) :: jsonObjStrings ps

end

/-- Rust `{:?}` debug rendering of a token (used only inside parser error
messages; the inner string payload is not re-escaped in this model). -/
def tokenDebug : Token → String
  | Token.leftBrace => "LeftBrace"
  | Token.rightBrace => "RightBrace"
  | Token.leftBracket => "LeftBracket"
  | Token.rightBracket => "RightBracket"
  | Token.comma => "Comma"
  | Token.colon => "Colon"
  | Token.tstring s => "String(\"" ++ String.mk s ++ "\")"
  | Token.number q =>
    "Number(" ++
      String.mk (if q.exp = 0 then intToDigitChars (i64clamp q.num) ++ ".0".data
                 else jnumFracChars q) ++ ")"
  | Token.boolean b => if b then "Boolean(true)" else "Boolean(false)"
  | Token.null => "Null"
  | Token.eof => "Eof"

/-- `Parser` from `src/parser.rs`.  The Rust `peek_token : Option<Token>` is
`Some(..)` at every rest point (it is `take`n and immediately refilled inside
`advance`), so it is modelled as a plain `Token`. -/
structure Parser where
  lexer : Lexer
  current_token : Token
  peek_token : Token
deriving DecidableEq, Repr

/-- `Parser::new`.  Note: an error while priming the lookahead is replaced by
`Token::Eof` (`unwrap_or`), only the first `next_token` call propagates. -/
def Parser.new (input : List Char) : Except ErrPos Parser :=
  let lx := Lexer.new input
  match lx.next_token with
  | (Except.error e, _) => Except.error e
  | (Except.ok cur, lx₁) =>
    if cur = Token.eof then Except.ok ⟨lx₁, cur, Token.eof⟩
    else
      match lx₁.next_token with
      | (Except.ok pk, lx₂) => Except.ok ⟨lx₂, cur, pk⟩
      | (Except.error _, lx₂) => Except.ok ⟨lx₂, cur, Token.eof⟩

/-- `Parser::advance`.  The Rust method returns `Result` but never errs; a
lexer error while refilling the lookahead is replaced by `Token::Eof`. -/
def Parser.advanceP (p : Parser) : Parser :=
  let cur := p.peek_token
  if cur = Token.eof then ⟨p.lexer, cur, Token.eof⟩
  else
    match p.lexer.next_token with
    | (Except.ok t, lx') => ⟨lx', cur, t⟩
    | (Except.error _, lx') => ⟨lx', cur, Token.eof⟩

/-- Discriminant comparison backing `Parser::expect_token`
(`std::mem::discriminant`): tags only, payloads ignored. -/
def Token.kindIdx : Token → Nat
  | Token.leftBrace => 0
  | Token.rightBrace => 1
  | Token.leftBracket => 2
  | Token.rightBracket => 3
  | Token.comma => 4
  | Token.colon => 5
  | Token.tstring _ => 6
  | Token.number _ => 7
  | Token.boolean _ => 8
  | Token.null => 9
  | Token.eof => 10

/-- `Parser::expect_token`. -/
def Parser.expect_token (p : Parser) (expected : Token) : Except ErrPos Parser :=
  if p.current_token.kindIdx = expected.kindIdx then Except.ok p.advanceP
  else
    Except.error
      ⟨"Expected " ++ tokenDebug expected ++ ", found " ++ tokenDebug p.current_token,
        p.lexer.position⟩

mutual

/-- `Parser::parse_value`, with fuel (the fuel-out branch is unreachable from
`parse_json`, whose fuel provably suffices). -/
def parseValueF : Nat → Parser → Except ErrPos (JsonValue × Parser)
  | 0, p => Except.error ⟨"out of fuel", p.lexer.position⟩
  | n + 1, p =>
    match p.current_token with
    | Token.tstring s => Except.ok (JsonValue.string s, p.advanceP)
    | Token.number q => Except.ok (JsonValue.number q, p.advanceP)
    | Token.boolean b => Except.ok (JsonValue.boolean b, p.advanceP)
    | Token.null => Except.ok (JsonValue.null, p.advanceP)
    | Token.leftBrace => parseObjectF n p
    | Token.leftBracket => parseArrayF n p
    | t =>
      Except.error ⟨"Unexpected token: " ++ tokenDebug t, p.lexer.position⟩

/-- `Parser::parse_object` (entry: expect `{`, empty-object shortcut). -/
def parseObjectF : Nat → Parser → Except ErrPos (JsonValue × Parser)
  | 0, p => Except.error ⟨"out of fuel", p.lexer.position⟩
  | n + 1, p =>
    match p.expect_token Token.leftBrace with
    | Except.error e => Except.error e
    | Except.ok p =>
      if p.current_token = Token.rightBrace then
        Except.ok (JsonValue.object [], p.advanceP)
      else parseObjLoopF n p []

/-- The `loop` of `Parser::parse_object`. -/
def parseObjLoopF : Nat → Parser → List (List Char × JsonValue) →
    Except ErrPos (JsonValue × Parser)
  | 0, p, _ => Except.error ⟨"out of fuel", p.lexer.position⟩
  | n + 1, p, pairs =>
    match p.current_token with
    | Token.tstring k =>
      let p := p.advanceP
      match p.expect_token Token.colon with
      | Except.error e => Except.error e
      | Except.ok p =>
        match parseValueF n p with
        | Except.error e => Except.error e
        | Except.ok (v, p) =>
          let pairs := pairs ++ [(k, v)]
          match p.current_token with
          | Token.comma =>
            let p := p.advanceP
            if p.current_token = Token.rightBrace then
              Except.error ⟨"Trailing comma not allowed", p.lexer.position⟩
            else parseObjLoopF n p pairs
          | Token.rightBrace => Except.ok (JsonValue.object pairs, p.advanceP)
          | t =>
            Except.error
              ⟨"Expected \x27,\x27 or \x27\x7d\x27, found " ++ tokenDebug t,
                p.lexer.position⟩
    | _ => Except.error ⟨"Object key must be a string", p.lexer.position⟩

/-- `Parser::parse_array` (entry: expect `[`, empty-array shortcut). -/
def parseArrayF : Nat → Parser → Except ErrPos (JsonValue × Parser)
  | 0, p => Except.error ⟨"out of fuel", p.lexer.position⟩
  | n + 1, p =>
    match p.expect_token Token.leftBracket with
    | Except.error e => Except.error e
    | Except.ok p =>
      if p.current_token = Token.rightBracket then
        Except.ok (JsonValue.array [], p.advanceP)
      else parseArrLoopF n p []

/-- The `loop` of `Parser::parse_array`. -/
def parseArrLoopF : Nat → Parser → List JsonValue →
    Except ErrPos (JsonValue × Parser)
  | 0, p, _ => Except.error ⟨"out of fuel", p.lexer.position⟩
  | n + 1, p, elements =>
    match parseValueF n p with
    | Except.error e => Except.error e
    | Except.ok (v, p) =>
      let elements := elements ++ [v]
      match p.current_token with
      | Token.comma =>
        let p := p.advanceP
        if p.current_token = Token.rightBracket then
          Except.error ⟨"Trailing comma not allowed", p.lexer.position⟩
        else parseArrLoopF n p elements
      | Token.rightBracket => Except.ok (JsonValue.array elements, p.advanceP)
      | t =>
        Except.error
          ⟨"Expected \x27,\x27 or \x27]\x27, found " ++ tokenDebug t,
            p.lexer.position⟩

end

/-- Fuel supplied to the recursive-descent entry point; provably sufficient
for every input. -/
def parseFuel (input : List Char) : Nat := 2 * utf8Len input + 8

/-- `Parser::parse`: one value, then the current token must be `Eof`. -/
def Parser.parse (p : Parser) : Except ErrPos JsonValue :=
  match parseValueF (parseFuel p.lexer.input) p with
  | Except.error e => Except.error e
  | Except.ok (v, p') =>
    if p'.current_token = Token.eof then Except.ok v
    else
      Except.error
        ⟨"Unexpected token after JSON value: " ++ tokenDebug p'.current_token,
          p'.lexer.position⟩

/-- `parse_json` from `src/lib.rs`. -/
def parse_json (input : List Char) : Except ErrPos JsonValue :=
  match Parser.new input with
  | Except.error e => Except.error e
  | Except.ok p => p.parse

/-- `ParseError` from `src/error.rs`. -/
structure ParseError where
  message : String
  position : Nat
  line : Nat
  column : Nat
deriving DecidableEq, Repr

/-- The characters fully contained in the first `n` bytes (Rust
`&input[..n]`); `none` when `n` is not a character boundary (Rust panics). -/
def takeBytes : List Char → Nat → Option (List Char)
  | _, 0 => some []
  | [], _ + 1 => none
  | c :: cs, n + 1 =>
    if c.utf8Size ≤ n + 1 then (takeBytes cs (n + 1 - c.utf8Size)).map (c :: ·)
    else none

/-- Byte index of the last `'\n'` in a character list (Rust `str::rfind`). -/
def rfindNl : List Char → Option Nat
  | [] => none
  | c :: cs =>
    match rfindNl cs with
    | some i => some (c.utf8Size + i)
    | none => if c = '\n' then some 0 else none

/-- `ParseError::calculate_position`.  Returns `none` when the clamped offset
is not a character boundary (where Rust's slice would panic). -/
def ParseError.calculate_position (pos : Nat) (input : List Char) :
    Option (Nat × Nat) :=
  match takeBytes input (min pos (utf8Len input)) with
  | none => none
  | some before =>
    let line := before.count '\n' + 1
    let column :=
      (match rfindNl before with
       | some i => pos - i - 1
       | none => pos) + 1
    some (line, column)

/-- `ParseError::new`. -/
def ParseError.new (message : String) (position : Nat) (input : List Char) :
    Option ParseError :=
  (ParseError.calculate_position position input).map fun lc =>
    ⟨message, position, lc.1, lc.2⟩

/-- Offset `k` lies on a character boundary of `input`. -/
def IsBoundary (input : List Char) (k : Nat) : Prop :=
  ∃ pre suf, input = pre ++ suf ∧ utf8Len pre = k

/-- Specification-side count of newline characters whose byte offset is
strictly below `k`. -/
def countNlBefore : List Char → Nat → Nat
  | [], _ => 0
  | _ :: _, 0 => 0
  | c :: cs, k + 1 =>
    (if c = '\n' then 1 else 0) + countNlBefore cs (k + 1 - c.utf8Size)

/-- Specification-side byte index of the last newline whose byte offset is
strictly below `k`. -/
def lastNlBefore : List Char → Nat → Option Nat
  | [], _ => none
  | _ :: _, 0 => none
  | c :: cs, k + 1 =>
    match lastNlBefore cs (k + 1 - c.utf8Size) with
    | some i => some (c.utf8Size + i)
    | none => if c = '\n' then some 0 else none

/-- The lexer state whose input splits as `done ++ rest`, where every
character of `done` has been decoded, the head of `rest` (if any) is held in
`current_char`, and `position` sits at the start of the first undecoded
character (i.e. just past the held one).  Every reachable lexer state has
this shape. -/
def alignedLexer (done rest : List Char) : Lexer :=
  match rest with
  | [] => ⟨done ++ rest, utf8Len done, none⟩
  | c :: _ => ⟨done ++ rest, utf8Len done + c.utf8Size, some c⟩

/-- A lexer state of the reachable shape. -/
def LexAligned (l : Lexer) : Prop := ∃ done rest, l = alignedLexer done rest

/-- The lexer after `n` calls to `next_token`. -/
def runLex (l : Lexer) : Nat → Lexer
  | 0 => l
  | n + 1 => ((runLex l n).next_token).2

/-- The head of `rest` (if any) is not whitespace, so `skip_whitespace`
stops there. -/
def WsStop (rest : List Char) : Prop :=
  match rest with
  | [] => True
  | c :: _ => rustIsWhitespace c = false

/-- A character at which `next_token` dispatches to no token class: not
whitespace, not structural, not a quote, not an ASCII digit or `-`, and not
alphabetic. -/
def NotTokenStart (c : Char) : Prop :=
  rustIsWhitespace c = false ∧ c ≠ '\x7b' ∧ c ≠ '\x7d' ∧ c ≠ '[' ∧ c ≠ ']' ∧
  c ≠ ',' ∧ c ≠ ':' ∧ c ≠ '"' ∧ c.isDigit = false ∧ c ≠ '-' ∧
  rustIsAlphabetic c = false

/-- Relation between a string-literal body as scanned by `read_string`
(`raw`, the characters between the quotes) and the payload it accumulates:
unescaped characters other than `"` and `\` pass verbatim, and the five
recognized escapes decode. -/
inductive ScanEsc : List Char → List Char → Prop where
  | nil : ScanEsc [] []
  | raw (c : Char) (p r : List Char) : c ≠ '"' → c ≠ '\\' → ScanEsc p r →
      ScanEsc (c :: p) (c :: r)
  | esc (e d : Char) (p r : List Char) : escDecode e = some d → ScanEsc p r →
      ScanEsc (d :: p) ('\\' :: e :: r)

/-- The structural-character table of `next_token` (proof-side helper). -/
def structTok (c : Char) : Option Token :=
  if c = '\x7b' then some Token.leftBrace
  else if c = '\x7d' then some Token.rightBrace
  else if c = '[' then some Token.leftBracket
  else if c = ']' then some Token.rightBracket
  else if c = ',' then some Token.comma
  else if c = ':' then some Token.colon
  else none

/-- The dispatch stage of `next_token`, after whitespace skipping
(proof-side restatement of the body of `Lexer.next_token`). -/
def nextTokenDispatch (l : Lexer) : Except ErrPos Token × Lexer :=
  match l.current_char with
  | none => (Except.ok Token.eof, l)
  | some c =>
    if c = '\x7b' then (Except.ok Token.leftBrace, l.advance)
    else if c = '\x7d' then (Except.ok Token.rightBrace, l.advance)
    else if c = '[' then (Except.ok Token.leftBracket, l.advance)
    else if c = ']' then (Except.ok Token.rightBracket, l.advance)
    else if c = ',' then (Except.ok Token.comma, l.advance)
    else if c = ':' then (Except.ok Token.colon, l.advance)
    else if c = '"' then l.read_string
    else if c.isDigit || c = '-' then l.read_number
    else if rustIsAlphabetic c then l.read_keyword
    else
      (Except.error ⟨"Unexpected character: \x27" ++ c.toString ++ "\x27",
        l.position⟩, l)

/-- JSON whitespace (the four characters the JSON grammar allows). -/
def JWs (l : List Char) : Prop :=
  ∀ c ∈ l, c = ' ' ∨ c = '\t' ∨ c = '\n' ∨ c = '\r'

/-- A context that may legally follow a number or keyword token in a JSON
text: end of input, or a character that stops the digit/keyword loops. -/
def TokFollow (rest : List Char) : Prop :=
  match rest with
  | [] => True
  | c :: _ => c.isDigit = false ∧ c ≠ '.' ∧ rustIsAlphanumeric c = false

/-- The keyword table of `read_keyword` (proof-side helper). -/
def keywordTok (ks : List Char) : Option Token :=
  if ks = "true".data then some (Token.boolean true)
  else if ks = "false".data then some (Token.boolean false)
  else if ks = "null".data then some Token.null
  else none

/-- The extra JSON escapes (`\/`, `\b`, `\f`) that standard JSON allows but
this lexer rejects. -/
def exEsc (c : Char) : Option Char :=
  if c = '/' then some '/'
  else if c = 'b' then some '\x08'
  else if c = 'f' then some '\x0C'
  else none

/-- Text of a JSON number literal without exponent: optional sign, integer
digits, optional fraction. -/
def numText (neg : Bool) (ip fp : List Char) : List Char :=
  (if neg then ['-'] else []) ++ ip ++ (if fp.isEmpty then [] else '.' :: fp)

/-- Value of a JSON number literal, exactly as `rustParseF64` computes it. -/
def numVal (neg : Bool) (ip fp : List Char) : JNum :=
  JNum.mk'
    (if neg then -((digitsToNat ip * 10 ^ fp.length + digitsToNat fp : Nat) : Int)
     else ((digitsToNat ip * 10 ^ fp.length + digitsToNat fp : Nat) : Int))
    fp.length

/-- The value survives the saturating `as i64` cast when integral. -/
def I64Bounded (q : JNum) : Prop :=
  q.exp = 0 → -(2 ^ 63) ≤ q.num ∧ q.num ≤ 2 ^ 63 - 1

/-- The value is an integer of magnitude at most `2^53`: such values are
represented exactly by `f64` (so `str::parse::<f64>` reads the literal with
no rounding and no overflow), satisfy `fract() == 0`, and survive the
saturating `as i64` cast, so the serializer prints their exact digits.  On
this class the exact-decimal idealization of `f64` used by `rustParseF64`
and `jnumToChars` coincides with real `f64` arithmetic. -/
def F64IntSafe (q : JNum) : Prop :=
  q.exp = 0 ∧ -(2 ^ 53) ≤ q.num ∧ q.num ≤ 2 ^ 53

/-- Derivations of JSON string-literal bodies: `payload` is the denoted
string, `raw` the characters between the quotes.  The flag `ex = true`
additionally admits the `\/`, `\b`, `\f` escapes of standard JSON (which the
lexer under verification rejects); `ex = false` is the fragment using only
the five escapes the lexer knows. -/
inductive StrBody : Bool → List Char → List Char → Type where
  | nil (ex : Bool) : StrBody ex [] []
  | raw (ex : Bool) (c : Char) (p r : List Char) :
      c ≠ '"' → c ≠ '\\' → 0x20 ≤ c.toNat → StrBody ex p r →
      StrBody ex (c :: p) (c :: r)
  | esc (ex : Bool) (e d : Char) (p r : List Char) :
      escDecode e = some d → StrBody ex p r → StrBody ex (d :: p) ('\\' :: e :: r)
  | escX (e d : Char) (p r : List Char) :
      exEsc e = some d → StrBody true p r → StrBody true (d :: p) ('\\' :: e :: r)

mutual

/-- Derivations `RVal ex v s`: the text `s` is a JSON value (without
whitespace padding) denoting the tree `v`.  The grammar covers exactly
standard JSON with no exponent notation and no `\uXXXX` escapes; `ex = true`
additionally admits the `\/`, `\b`, `\f` escapes and drops the requirement
that number values be integers of magnitude at most `2^53`. -/
inductive RVal : Bool → JsonValue → List Char → Type where
  | null (ex : Bool) : RVal ex JsonValue.null ('n' :: 'u' :: 'l' :: 'l' :: [])
  | btrue (ex : Bool) : RVal ex (JsonValue.boolean true) ('t' :: 'r' :: 'u' :: 'e' :: [])
  | bfalse (ex : Bool) :
      RVal ex (JsonValue.boolean false) ('f' :: 'a' :: 'l' :: 's' :: 'e' :: [])
  | num (ex : Bool) (neg : Bool) (ip fp : List Char) :
      ip ≠ [] → (∀ c ∈ ip, c.isDigit = true) →
      (2 ≤ ip.length → ip.head? ≠ some '0') →
      (∀ c ∈ fp, c.isDigit = true) →
      (ex = false → F64IntSafe (numVal neg ip fp)) →
      RVal ex (JsonValue.number (numVal neg ip fp)) (numText neg ip fp)
  | str (ex : Bool) (payload raw : List Char) :
      StrBody ex payload raw →
      RVal ex (JsonValue.string payload) ('"' :: raw ++ ['"'])
  | arrNil (ex : Bool) (ws : List Char) : JWs ws →
      RVal ex (JsonValue.array []) ('[' :: ws ++ [']'])
  | arr (ex : Bool) (vs : List JsonValue) (s : List Char) :
      RElems ex vs s →
      RVal ex (JsonValue.array vs) ('[' :: s ++ [']'])
  | objNil (ex : Bool) (ws : List Char) : JWs ws →
      RVal ex (JsonValue.object []) ('\x7b' :: ws ++ ['\x7d'])
  | obj (ex : Bool) (ps : List (List Char × JsonValue)) (s : List Char) :
      RMembs ex ps s →
      RVal ex (JsonValue.object ps) ('\x7b' :: s ++ ['\x7d'])

/-- A JSON element: a value padded by whitespace on both sides. -/
inductive RElem : Bool → JsonValue → List Char → Type where
  | mk (ex : Bool) (v : JsonValue) (w1 core w2 : List Char) :
      JWs w1 → RVal ex v core → JWs w2 →
      RElem ex v (w1 ++ core ++ w2)

/-- A nonempty comma-separated sequence of elements. -/
inductive RElems : Bool → List JsonValue → List Char → Type where
  | one (ex : Bool) (v : JsonValue) (s : List Char) :
      RElem ex v s → RElems ex [v] s
  | cons (ex : Bool) (v : JsonValue) (s : List Char) (vs : List JsonValue)
      (ss : List Char) :
      RElem ex v s → RElems ex vs ss → RElems ex (v :: vs) (s ++ ',' :: ss)

/-- An object member: whitespace, key string, whitespace, colon, element. -/
inductive RMemb : Bool → List Char → JsonValue → List Char → Type where
  | mk (ex : Bool) (k : List Char) (v : JsonValue) (w1 kraw w2 es : List Char) :
      JWs w1 → StrBody ex k kraw → JWs w2 → RElem ex v es →
      RMemb ex k v (w1 ++ '"' :: kraw ++ '"' :: w2 ++ ':' :: es)

/-- A nonempty comma-separated sequence of object members. -/
inductive RMembs : Bool → List (List Char × JsonValue) → List Char → Type where
  | one (ex : Bool) (k : List Char) (v : JsonValue) (s : List Char) :
      RMemb ex k v s → RMembs ex [(k, v)] s
  | cons (ex : Bool) (k : List Char) (v : JsonValue) (s : List Char)
      (ps : List (List Char × JsonValue)) (ss : List Char) :
      RMemb ex k v s → RMembs ex ps ss → RMembs ex ((k, v) :: ps) (s ++ ',' :: ss)

end

/-- A complete JSON text: one element (value with whitespace padding). -/
def RJson (ex : Bool) (v : JsonValue) (s : List Char) : Type := RElem ex v s

/-- The claim's hypothesis class: valid JSON text with no `\uXXXX` escapes
and no exponent notation (the `\/`, `\b`, `\f` escapes of standard JSON are
allowed). -/
def IsJsonTextC2 (s : List Char) : Prop := ∃ v, Nonempty (RJson true v s)

/-- The amended hypothesis class: valid JSON text using only the escapes
`\"`, `\\`, `\n`, `\r`, `\t`, no exponent notation, and number values
that are integers of magnitude at most `2^53` (exactly representable in
`f64`, so real `f64` parsing and printing agree with the exact-decimal
model on this class). -/
def IsJsonTextR (s : List Char) : Prop := ∃ v, Nonempty (RJson false v s)

mutual

/-- The token sequence the lexer produces for a value text. -/
def tksVal : JsonValue → List Token
  | JsonValue.null => [Token.null]
  | JsonValue.boolean b => [Token.boolean b]
  | JsonValue.number q => [Token.number q]
  | JsonValue.string s => [Token.tstring s]
  | JsonValue.array vs =>
    match vs with
    | [] => [Token.leftBracket, Token.rightBracket]
    | v :: vs' => Token.leftBracket :: (tksElems v vs' ++ [Token.rightBracket])
  | JsonValue.object ps =>
    match ps with
    | [] => [Token.leftBrace, Token.rightBrace]
    | kv :: ps' => Token.leftBrace :: (tksMembs kv ps' ++ [Token.rightBrace])
termination_by v => sizeOf v

/-- Tokens of a nonempty comma-separated element list. -/
def tksElems : JsonValue → List JsonValue → List Token
  | v, [] => tksVal v
  | v, v' :: vs => tksVal v ++ Token.comma :: tksElems v' vs
termination_by v vs => 1 + sizeOf v + sizeOf vs

/-- Tokens of a nonempty comma-separated member list. -/
def tksMembs : (List Char × JsonValue) → List (List Char × JsonValue) → List Token
  | (k, v), [] => Token.tstring k :: Token.colon :: tksVal v
  | (k, v), kv :: ps => Token.tstring k :: Token.colon :: tksVal v ++
      Token.comma :: tksMembs kv ps
termination_by kv ps => 1 + sizeOf kv + sizeOf ps

end

mutual

/-- Fuel that provably suffices for `parseValueF` on a value. -/
def vFuel : JsonValue → Nat
  | JsonValue.array vs =>
    match vs with
    | [] => 2
    | v :: vs' => 2 + elemsFuel v vs'
  | JsonValue.object ps =>
    match ps with
    | [] => 2
    | kv :: ps' => 2 + membsFuel kv ps'
  | _ => 1
termination_by v => sizeOf v

/-- Fuel that provably suffices for `parseArrLoopF` on the given elements. -/
def elemsFuel : JsonValue → List JsonValue → Nat
  | v, [] => 1 + vFuel v
  | v, v' :: vs => 1 + vFuel v + elemsFuel v' vs
termination_by v vs => 1 + sizeOf v + sizeOf vs

/-- Fuel that provably suffices for `parseObjLoopF` on the given members. -/
def membsFuel : (List Char × JsonValue) → List (List Char × JsonValue) → Nat
  | (_, v), [] => 1 + vFuel v
  | (_, v), kv :: ps => 1 + vFuel v + membsFuel kv ps
termination_by kv ps => 1 + sizeOf kv + sizeOf ps

end

/-- The lexer `l`, pulled repeatedly, produces exactly the (eof-free) tokens
`ts` followed by a clean `Eof`. -/
inductive LexToks : Lexer → List Token → Prop where
  | nil (l l' : Lexer) : l.next_token = (Except.ok Token.eof, l') → LexToks l []
  | cons (l l₁ : Lexer) (t : Token) (ts : List Token) : t ≠ Token.eof →
      l.next_token = (Except.ok t, l₁) → LexToks l₁ ts → LexToks l (t :: ts)

/-- The lexer `l`, pulled `ts.length` times, yields `ts` and lands in `l'`. -/
inductive ProducesTo : Lexer → List Token → Lexer → Prop where
  | nil (l : Lexer) : ProducesTo l [] l
  | cons (l l₁ l₂ : Lexer) (t : Token) (ts : List Token) :
      l.next_token = (Except.ok t, l₁) → ProducesTo l₁ ts l₂ →
      ProducesTo l (t :: ts) l₂

/-- The parser state `p` has pending (eof-free) token stream `pend`:
`current_token` and `peek_token` hold the first two entries (padded by `Eof`),
and the lexer supplies the rest followed by `Eof`. -/
def PState (p : Parser) (pend : List Token) : Prop :=
  (∀ t ∈ pend, t ≠ Token.eof) ∧
  match pend with
  | [] => p.current_token = Token.eof ∧ p.peek_token = Token.eof
  | [t] => p.current_token = t ∧ p.peek_token = Token.eof
  | t :: u :: ts => p.current_token = t ∧ p.peek_token = u ∧ LexToks p.lexer ts

/-- A string payload the serializer can re-render into valid JSON: no control
characters other than the escapable `\n`, `\r`, `\t`. -/
def GoodStrChar (c : Char) : Prop :=
  0x20 ≤ c.toNat ∨ c = '\n' ∨ c = '\r' ∨ c = '\t'

/-- A number value the serializer can re-render faithfully: canonical, and
an integer of magnitude at most `2^53` (printed exactly through the
`as i64` path, with no `f64` rounding or overflow anywhere). -/
def GoodNum (q : JNum) : Prop :=
  JNum.normCore q.num q.exp = q ∧ F64IntSafe q

mutual

/-- Values in the image of parsing restricted-valid JSON text: payloads
re-render to valid JSON. -/
def GoodVal : JsonValue → Prop
  | JsonValue.null => True
  | JsonValue.boolean _ => True
  | JsonValue.number q => GoodNum q
  | JsonValue.string s => ∀ c ∈ s, GoodStrChar c
  | JsonValue.array vs => GoodVals vs
  | JsonValue.object ps => GoodPairs ps
termination_by v => sizeOf v

def GoodVals : List JsonValue → Prop
  | [] => True
  | v :: vs => GoodVal v ∧ GoodVals vs
termination_by vs => sizeOf vs

def GoodPairs : List (List Char × JsonValue) → Prop
  | [] => True
  | (k, v) :: ps => (∀ c ∈ k, GoodStrChar c) ∧ GoodVal v ∧ GoodPairs ps
termination_by ps => sizeOf ps

end

/-- The head of `rest` (if any) stops the keyword-accumulation loop. -/
def KwStop (rest : List Char) : Prop :=
  match rest with
  | [] => True
  | c :: _ => rustIsAlphanumeric c = false

/-- The head of `rest` (if any) stops the number loops regardless of the
dot flag. -/
def NumStop (rest : List Char) : Prop :=
  match rest with
  | [] => True
  | c :: _ => c.isDigit = false ∧ c ≠ '.'

/-- The head of `rest` (if any) may follow a number or keyword token. -/
def Follow (rest : List Char) : Prop := NumStop rest ∧ KwStop rest

/-- Tokens of a (possibly empty) comma-separated element list. -/
def tksList : List JsonValue → List Token
  | [] => []
  | v :: vs => tksElems v vs

/-- Tokens of a (possibly empty) comma-separated member list. -/
def tksPairs : List (List Char × JsonValue) → List Token
  | [] => []
  | kv :: ps => tksMembs kv ps

/-- Fuel needed by the array loop for a (possibly empty) element list. -/
def listFuel : List JsonValue → Nat
  | [] => 0
  | v :: vs => elemsFuel v vs

/-- Fuel needed by the object loop for a (possibly empty) member list. -/
def pairsFuel : List (List Char × JsonValue) → Nat
  | [] => 0
  | (k, v) :: ps => membsFuel (k, v) ps

/-! ## Theorems -/

theorem takeBytes_zero (cs : List Char) : takeBytes cs 0 = some [] := by
  cases cs <;> rfl

/-- Unfolding lemma for `takeBytes` at a positive byte count. -/
theorem takeBytes_cons (c : Char) (cs : List Char) (k : Nat) (hk : 0 < k) :
    takeBytes (c :: cs) k =
      if c.utf8Size ≤ k then (takeBytes cs (k - c.utf8Size)).map (c :: ·)
      else none := by
  cases k with
  | zero => exact absurd hk (by simp)
  | succ m => rfl

theorem takeBytes_prefix (pre suf : List Char) :
    takeBytes (pre ++ suf) (utf8Len pre) = some pre := by
  induction pre with
  | nil => simpa [utf8Len] using takeBytes_zero suf
  | cons c pre ih =>
    have hsz : 0 < c.utf8Size := Char.utf8Size_pos c
    rw [List.cons_append, takeBytes_cons c (pre ++ suf) (utf8Len (c :: pre)) (by simp [utf8Len]; omega)]
    have hle : c.utf8Size ≤ utf8Len (c :: pre) := by simp [utf8Len]
    rw [if_pos hle]
    have : utf8Len (c :: pre) - c.utf8Size = utf8Len pre := by simp [utf8Len]
    rw [this, ih]
    rfl

theorem count_takeBytes (input : List Char) :
    ∀ k before, takeBytes input k = some before →
      before.count '\n' = countNlBefore input k := by
  induction input with
  | nil =>
    intro k before h
    cases k with
    | zero =>
      simp only [takeBytes, Option.some.injEq] at h
      subst h; rfl
    | succ m => simp [takeBytes] at h
  | cons c cs ih =>
    intro k before h
    cases k with
    | zero =>
      rw [takeBytes_zero] at h
      cases h; rfl
    | succ m =>
      simp only [takeBytes] at h
      by_cases hsz : c.utf8Size ≤ m + 1
      · rw [if_pos hsz] at h
        cases hb : takeBytes cs (m + 1 - c.utf8Size) with
        | none => rw [hb] at h; simp at h
        | some b' =>
          rw [hb] at h
          simp only [Option.map_some', Option.some.injEq] at h
          subst h
          have := ih (m + 1 - c.utf8Size) b' hb
          simp only [countNlBefore, List.count_cons, this]
          by_cases hc : c = '\n'
          · simp [hc]; omega
          · simp [hc]
      · rw [if_neg hsz] at h; simp at h

theorem rfindNl_takeBytes (input : List Char) :
    ∀ k before, takeBytes input k = some before →
      rfindNl before = lastNlBefore input k := by
  induction input with
  | nil =>
    intro k before h
    cases k with
    | zero =>
      simp only [takeBytes, Option.some.injEq] at h
      subst h; rfl
    | succ m => simp [takeBytes] at h
  | cons c cs ih =>
    intro k before h
    cases k with
    | zero =>
      rw [takeBytes_zero] at h
      cases h; rfl
    | succ m =>
      simp only [takeBytes] at h
      by_cases hsz : c.utf8Size ≤ m + 1
      · rw [if_pos hsz] at h
        cases hb : takeBytes cs (m + 1 - c.utf8Size) with
        | none => rw [hb] at h; simp at h
        | some b' =>
          rw [hb] at h
          simp only [Option.map_some', Option.some.injEq] at h
          subst h
          have := ih (m + 1 - c.utf8Size) b' hb
          simp only [rfindNl, lastNlBefore, this]
      · rw [if_neg hsz] at h; simp at h

theorem lastNlBefore_lt (input : List Char) :
    ∀ k i, lastNlBefore input k = some i → i < k := by
  induction input with
  | nil => intro k i h; simp [lastNlBefore] at h
  | cons c cs ih =>
    intro k i h
    cases k with
    | zero => simp [lastNlBefore] at h
    | succ m =>
      simp only [lastNlBefore] at h
      cases hb : lastNlBefore cs (m + 1 - c.utf8Size) with
      | some j =>
        rw [hb] at h
        simp only [Option.some.injEq] at h
        have := ih _ _ hb
        omega
      | none =>
        rw [hb] at h
        by_cases hc : c = '\n'
        · rw [if_pos hc] at h
          cases h; omega
        · rw [if_neg hc] at h; simp at h

theorem IsBoundary.takeBytes_some {input : List Char} {k : Nat}
    (h : IsBoundary input k) : ∃ before, takeBytes input k = some before := by
  obtain ⟨pre, suf, hin, hlen⟩ := h
  exact ⟨pre, by rw [hin, ← hlen, takeBytes_prefix]⟩

/-- C3: the claimed column formula `1 + (offset − index of the nearest
preceding newline)` does not match the code.  At input `"a\nb"` and offset 2
(the byte of `b`), the nearest preceding newline has byte index 1, so the
claim predicts column `1 + (2 - 1) = 2`, but `calculate_position` returns
column 1 (and line 2, which does match the claimed line formula). -/
theorem C3_column_formula_counterexample :
    ParseError.calculate_position 2 ("a\nb".data) = some (2, 1) ∧
    (1 : Nat) ≠ 1 + (2 - 1) := by
  constructor
  · rfl
  · decide

/-- C3 (amended): for every input and offset whose clamp to the input length
lies on a character boundary, `calculate_position` returns line
`1 + (number of newlines strictly before the clamped offset)` and column
`offset − i` where `i` is the byte index of the nearest newline strictly
before the clamped offset, or `offset + 1` when no newline precedes it.  (The
claim's `1 + (offset − i)` overstates the column by one in the
newline-present case.) -/
theorem C3_calculate_position_amended (input : List Char) (pos : Nat)
    (h : IsBoundary input (min pos (utf8Len input))) :
    ParseError.calculate_position pos input =
      some (countNlBefore input (min pos (utf8Len input)) + 1,
        match lastNlBefore input (min pos (utf8Len input)) with
        | some i => pos - i
        | none => pos + 1) := by
  obtain ⟨before, hb⟩ := h.takeBytes_some
  have hcount := count_takeBytes input _ _ hb
  have hrfind := rfindNl_takeBytes input _ _ hb
  unfold ParseError.calculate_position
  rw [hb]
  simp only [hcount, hrfind]
  cases hnl : lastNlBefore input (min pos (utf8Len input)) with
  | none => rfl
  | some i =>
    have hi : i < min pos (utf8Len input) := lastNlBefore_lt input _ _ hnl
    have : pos - i - 1 + 1 = pos - i := by omega
    rw [this]

/-- Witness for C3 (amended) at input `"ab\ncd"` and offset 4. -/
theorem C3_calculate_position_amended_witness :
    IsBoundary ("ab\ncd".data) (min 4 (utf8Len "ab\ncd".data)) ∧
    ParseError.calculate_position 4 ("ab\ncd".data) = some (2, 2) :=
  ⟨⟨['a', 'b', '\n', 'c'], ['d'], rfl, rfl⟩,
    C3_calculate_position_amended ("ab\ncd".data) 4
      ⟨['a', 'b', '\n', 'c'], ['d'], rfl, rfl⟩⟩

/-- C6: the claim fails in two ways.  `ParseError::new` panics (modelled as
`none`) when the clamped offset is not a character boundary: input `"é"`
(2 UTF-8 bytes) with offset 1 slices inside the character.  And the column
computation does not clamp the offset: input `"ab"` with offset 10 yields
column 11, not the clamped `min 10 2 + 1 = 3`. -/
theorem C6_counterexample :
    ParseError.new "x" 1 ("é".data) = none ∧
    ParseError.calculate_position 10 ("ab".data) = some (1, 11) ∧
    (11 : Nat) ≠ min 10 (utf8Len "ab".data) + 1 := by
  refine ⟨rfl, rfl, ?_⟩
  decide

/-- C6 (amended): constructing a `ParseError` never panics or indexes out of
bounds provided the offset clamped to the input length falls on a character
boundary (always true for offsets beyond the input and for ASCII inputs); the
slice feeding the line computation is clamped, while the column computation
applies the raw offset. -/
theorem C6_new_total_amended (msg : String) (pos : Nat) (input : List Char)
    (h : IsBoundary input (min pos (utf8Len input))) :
    (ParseError.new msg pos input).isSome := by
  obtain ⟨before, hb⟩ := h.takeBytes_some
  unfold ParseError.new ParseError.calculate_position
  rw [hb]
  rfl

/-- Witness for C6 (amended): offset 10 exceeds the length of `"ab"`. -/
theorem C6_new_total_amended_witness :
    IsBoundary ("ab".data) (min 10 (utf8Len "ab".data)) ∧
    (ParseError.new "x" 10 ("ab".data)).isSome :=
  ⟨⟨['a', 'b'], [], rfl, rfl⟩,
    C6_new_total_amended "x" 10 ("ab".data) ⟨['a', 'b'], [], rfl, rfl⟩⟩

/-- C1: evaluating the code at the claim's inputs.  `parse_json "123"` and
`parse_json "-42.5"` behave as claimed, but `parse_json "1e10"` returns
`Ok(Number(1.0))` instead of an error: `Parser::new` primes the lookahead
with `next_token().unwrap_or(Token::Eof)`, so the lexer error "Unexpected
keyword: e10" raised while priming the lookahead is discarded and replaced by
`Eof`, and the parse of the leading `1` completes cleanly. -/
theorem C1_parse_json_eval :
    parse_json "123".data = Except.ok (JsonValue.number ⟨123, 0⟩) ∧
    parse_json "-42.5".data = Except.ok (JsonValue.number ⟨-425, 1⟩) ∧
    parse_json "1e10".data = Except.ok (JsonValue.number ⟨1, 0⟩) :=
  ⟨rfl, rfl, rfl⟩

/-- C7: both trailing-comma inputs are rejected with the message
"Trailing comma not allowed"; the error is raised by the dedicated check on
the token right after the comma, before another element is attempted. -/
theorem C7_trailing_comma :
    parse_json ("\x7b\"a\":1,\x7d".data) =
      Except.error ⟨"Trailing comma not allowed", 8⟩ ∧
    parse_json ("[1,2,]".data) =
      Except.error ⟨"Trailing comma not allowed", 6⟩ :=
  ⟨rfl, rfl⟩

/-- C8: duplicate object keys are all retained in parse order, never merged:
`{"a":1,"a":2}` parses to an object with both `("a", 1)` and `("a", 2)`. -/
theorem C8_duplicate_keys :
    parse_json ("\x7b\"a\":1,\"a\":2\x7d".data) =
      Except.ok (JsonValue.object
        [("a".data, JsonValue.number ⟨1, 0⟩),
         ("a".data, JsonValue.number ⟨2, 0⟩)]) :=
  rfl

/-- C4: the reported error position is not the byte offset of the offending
character.  For input `"@"` the offending `@` sits at byte offset 0, but
`next_token` reports position 1: `Lexer::advance` increments `position` past
the decoded character, and `next_token` records `start_pos` after that. -/
theorem C4_position_counterexample :
    ((Lexer.new ['@']).next_token).1 =
      Except.error ⟨"Unexpected character: \x27@\x27", 1⟩ ∧
    (1 : Nat) ≠ 0 := by
  constructor
  · rfl
  · decide

/-- C5: the claimed iff fails.  After `Lexer::new("a")` the offset already
equals the input length (1) while the stored character is `Some('a')`:
`advance` moves `position` past the character it decodes. -/
theorem C5_iff_counterexample :
    (Lexer.new ['a']).position = utf8Len (Lexer.new ['a']).input ∧
    (Lexer.new ['a']).current_char = some 'a' :=
  ⟨rfl, rfl⟩

theorem utf8Len_append (a b : List Char) :
    utf8Len (a ++ b) = utf8Len a + utf8Len b := by
  induction a with
  | nil => simp [utf8Len]
  | cons c a ih => simp [utf8Len, ih]; omega

theorem length_le_utf8Len (l : List Char) : l.length ≤ utf8Len l := by
  induction l with
  | nil => simp [utf8Len]
  | cons c l ih =>
    have := Char.utf8Size_pos c
    simp [utf8Len]; omega

theorem decodeAt_prefix (done : List Char) (c : Char) (rest : List Char) :
    decodeAt (done ++ c :: rest) (utf8Len done) = some c := by
  induction done with
  | nil => rfl
  | cons d done ih =>
    have hd := Char.utf8Size_pos d
    have h1 : utf8Len (d :: done) = utf8Len done + d.utf8Size := by
      simp [utf8Len]; omega
    rcases Nat.exists_eq_add_of_lt (show 0 < utf8Len (d :: done) by omega)
      with ⟨m, hm⟩
    rw [List.cons_append]
    rw [show utf8Len (d :: done) = m + 1 by omega]
    simp only [decodeAt]
    rw [if_pos (by omega)]
    rw [show m + 1 - d.utf8Size = utf8Len done by omega]
    exact ih

theorem advance_aligned (done : List Char) (c : Char) (rest : List Char) :
    (alignedLexer done (c :: rest)).advance = alignedLexer (done ++ [c]) rest := by
  have hc := Char.utf8Size_pos c
  cases rest with
  | nil =>
    unfold alignedLexer Lexer.advance
    simp only [utf8Len_append, utf8Len]
    rw [if_neg (by omega)]
    simp [utf8Len]
  | cons c₂ r₂ =>
    have hc₂ := Char.utf8Size_pos c₂
    unfold alignedLexer Lexer.advance
    simp only [utf8Len_append, utf8Len]
    rw [if_pos (by omega)]
    have hdec : decodeAt (done ++ c :: c₂ :: r₂) (utf8Len done + c.utf8Size) =
        some c₂ := by
      have : done ++ c :: c₂ :: r₂ = (done ++ [c]) ++ c₂ :: r₂ := by simp
      rw [this, show utf8Len done + c.utf8Size = utf8Len (done ++ [c]) by
        simp [utf8Len_append, utf8Len]]
      exact decodeAt_prefix (done ++ [c]) c₂ r₂
    simp only [hdec, Option.map_some', Option.getD_some]
    simp [utf8Len_append, utf8Len]

theorem advance_aligned_end (done : List Char) :
    (alignedLexer done []).advance = alignedLexer done [] := by
  unfold alignedLexer Lexer.advance
  simp [utf8Len_append, utf8Len]

theorem new_aligned (input : List Char) :
    Lexer.new input = alignedLexer [] input := by
  cases input with
  | nil => rfl
  | cons c rest =>
    have hc := Char.utf8Size_pos c
    unfold Lexer.new Lexer.advance alignedLexer
    simp only [utf8Len]
    rw [if_pos (by simpa [utf8Len] using by omega)]
    simp only [decodeAt]
    rfl

theorem lexMeasure_aligned (done rest : List Char) :
    lexMeasure (alignedLexer done rest) =
      match rest with
      | [] => 0
      | _ :: r => utf8Len r + 1 := by
  cases rest with
  | nil => simp [alignedLexer, lexMeasure, utf8Len_append, utf8Len]
  | cons c r =>
    simp [alignedLexer, lexMeasure, utf8Len_append, utf8Len]
    omega

theorem skipWsF_aligned (ws : List Char) :
    ∀ (n : Nat) (done rest : List Char),
      (∀ c ∈ ws, rustIsWhitespace c = true) → WsStop rest →
      ((rest = [] ∧ ws.length ≤ n) ∨ ws.length + 1 ≤ n) →
      skipWsF n (alignedLexer done (ws ++ rest)) =
        alignedLexer (done ++ ws) rest := by
  induction ws with
  | nil =>
    intro n done rest _ hstop hn
    simp only [List.nil_append, List.append_nil]
    cases n with
    | zero => rfl
    | succ m =>
      cases rest with
      | nil => rfl
      | cons c r =>
        simp only [WsStop] at hstop
        simp [skipWsF, alignedLexer, hstop]
  | cons w ws ih =>
    intro n done rest hws hstop hn
    cases n with
    | zero =>
      exfalso
      rcases hn with ⟨_, h⟩ | h <;> simp at h
    | succ m =>
      have hw : rustIsWhitespace w = true := hws w (by simp)
      have hstep :
          skipWsF (m + 1) (alignedLexer done ((w :: ws) ++ rest)) =
            skipWsF m ((alignedLexer done (w :: (ws ++ rest))).advance) := by
        simp [List.cons_append, skipWsF, alignedLexer, hw]
      rw [hstep, advance_aligned]
      have hcond : (rest = [] ∧ ws.length ≤ m) ∨ ws.length + 1 ≤ m := by
        rcases hn with ⟨he, h⟩ | h
        · exact Or.inl ⟨he, by simpa using h⟩
        · exact Or.inr (by simpa using h)
      rw [ih m (done ++ [w]) rest (fun c hc => hws c (by simp [hc])) hstop hcond]
      simp

theorem lexMeasure_aligned_cons (done : List Char) (c : Char) (r : List Char) :
    lexMeasure (alignedLexer done (c :: r)) = utf8Len r + 1 := by
  rw [lexMeasure_aligned]

theorem skip_whitespace_aligned (done ws rest : List Char)
    (hws : ∀ c ∈ ws, rustIsWhitespace c = true) (hstop : WsStop rest) :
    (alignedLexer done (ws ++ rest)).skip_whitespace =
      alignedLexer (done ++ ws) rest := by
  unfold Lexer.skip_whitespace
  apply skipWsF_aligned ws _ done rest hws hstop
  cases ws with
  | nil =>
    cases rest with
    | nil => exact Or.inl ⟨rfl, by simp⟩
    | cons c r =>
      right
      rw [show ([] ++ c :: r : List Char) = c :: r from rfl,
        lexMeasure_aligned_cons]
      simp only [List.length_nil]
      omega
  | cons w ws' =>
    rw [show ((w :: ws') ++ rest : List Char) = w :: (ws' ++ rest) from rfl,
      lexMeasure_aligned_cons]
    cases rest with
    | nil =>
      refine Or.inl ⟨rfl, ?_⟩
      have := length_le_utf8Len ws'
      simp only [utf8Len_append, List.length_cons, utf8Len]
      omega
    | cons c' r' =>
      right
      have h1 := length_le_utf8Len ws'
      have h2 := Char.utf8Size_pos c'
      simp only [utf8Len_append, List.length_cons, utf8Len]
      omega

theorem next_token_at_end (done : List Char) :
    (alignedLexer done []).next_token = (Except.ok Token.eof, alignedLexer done []) := by
  unfold Lexer.next_token
  rw [show (alignedLexer done [] : Lexer).skip_whitespace =
      alignedLexer (done ++ []) [] from
    skip_whitespace_aligned done [] [] (by simp) trivial]
  simp [alignedLexer]

theorem readStrF_aligned {payload raw : List Char} (h : ScanEsc payload raw) :
    ∀ (n : Nat) (acc : List Char) (start : Nat) (done rest : List Char),
      raw.length + 1 ≤ n →
      readStrF n (alignedLexer done (raw ++ '"' :: rest)) acc false start =
        (Except.ok (Token.tstring (acc ++ payload)),
          alignedLexer ((done ++ raw) ++ ['"']) rest) := by
  induction h with
  | nil =>
    intro n acc start done rest hn
    cases n with
    | zero => omega
    | succ m =>
      show readStrF (m + 1) (alignedLexer done ('"' :: rest)) acc false start = _
      have h1 : readStrF (m + 1) (alignedLexer done ('"' :: rest)) acc false
          start =
          (Except.ok (Token.tstring acc),
            (alignedLexer done ('"' :: rest)).advance) := by
        simp [readStrF, alignedLexer]
      rw [h1, advance_aligned]
      simp
  | raw c p r hq hb _ ih =>
    intro n acc start done rest hn
    cases n with
    | zero => simp at hn
    | succ m =>
      show readStrF (m + 1)
          (alignedLexer done (c :: (r ++ '"' :: rest))) acc false start = _
      have h1 : readStrF (m + 1)
          (alignedLexer done (c :: (r ++ '"' :: rest))) acc false start =
          readStrF m ((alignedLexer done (c :: (r ++ '"' :: rest))).advance)
            (acc ++ [c]) false start := by
        simp [readStrF, alignedLexer, hb, hq]
      rw [h1, advance_aligned]
      rw [ih m (acc ++ [c]) start (done ++ [c]) rest (by simp at hn ⊢; omega)]
      simp
  | esc e d p r hdec _ ih =>
    intro n acc start done rest hn
    simp only [List.length_cons] at hn
    cases n with
    | zero => omega
    | succ m =>
      cases m with
      | zero => omega
      | succ m' =>
        show readStrF (m' + 1 + 1)
            (alignedLexer done ('\\' :: (e :: (r ++ '"' :: rest)))) acc false
            start = _
        have h1 : readStrF (m' + 1 + 1)
            (alignedLexer done ('\\' :: (e :: (r ++ '"' :: rest)))) acc false
            start =
            readStrF (m' + 1)
              ((alignedLexer done ('\\' :: (e :: (r ++ '"' :: rest)))).advance)
              acc true start := by
          simp [readStrF, alignedLexer]
        rw [h1, advance_aligned]
        have h2 : readStrF (m' + 1)
            (alignedLexer (done ++ ['\\']) (e :: (r ++ '"' :: rest))) acc true
            start =
            readStrF m'
              ((alignedLexer (done ++ ['\\']) (e :: (r ++ '"' :: rest))).advance)
              (acc ++ [d]) false start := by
          simp [readStrF, alignedLexer, hdec]
        rw [h2, advance_aligned]
        rw [ih m' (acc ++ [d]) start ((done ++ ['\\']) ++ [e]) rest (by omega)]
        simp

theorem read_string_aligned (done raw rest payload : List Char)
    (h : ScanEsc payload raw) :
    (alignedLexer done ('"' :: (raw ++ '"' :: rest))).read_string =
      (Except.ok (Token.tstring payload),
        alignedLexer ((done ++ ['"']) ++ raw ++ ['"']) rest) := by
  unfold Lexer.read_string
  rw [advance_aligned, lexMeasure_aligned_cons]
  have hlen : raw.length + 1 ≤ utf8Len (raw ++ '"' :: rest) + 1 := by
    have h1 := length_le_utf8Len raw
    rw [utf8Len_append]
    omega
  rw [readStrF_aligned h _ [] _ _ _ hlen]
  simp

theorem next_token_eq_dispatch (l : Lexer) :
    l.next_token = nextTokenDispatch l.skip_whitespace := rfl

theorem next_token_aligned (done ws rest : List Char)
    (hws : ∀ c ∈ ws, rustIsWhitespace c = true) (hstop : WsStop rest) :
    (alignedLexer done (ws ++ rest)).next_token =
      nextTokenDispatch (alignedLexer (done ++ ws) rest) := by
  rw [next_token_eq_dispatch, skip_whitespace_aligned done ws rest hws hstop]

theorem dispatch_struct (done rest : List Char) (c : Char) (t : Token)
    (hc : structTok c = some t) :
    nextTokenDispatch (alignedLexer done (c :: rest)) =
      (Except.ok t, alignedLexer (done ++ [c]) rest) := by
  unfold structTok at hc
  split_ifs at hc <;> cases hc <;> subst_vars <;>
    (rw [← advance_aligned]; rfl)

theorem dispatch_string (done raw rest payload : List Char)
    (h : ScanEsc payload raw) :
    nextTokenDispatch (alignedLexer done ('"' :: (raw ++ '"' :: rest))) =
      (Except.ok (Token.tstring payload),
        alignedLexer ((done ++ ['"']) ++ raw ++ ['"']) rest) := by
  rw [show nextTokenDispatch (alignedLexer done ('"' :: (raw ++ '"' :: rest))) =
      (alignedLexer done ('"' :: (raw ++ '"' :: rest))).read_string from rfl]
  exact read_string_aligned done raw rest payload h

theorem dispatch_unexpected (done rest : List Char) (c : Char)
    (hc : NotTokenStart c) :
    nextTokenDispatch (alignedLexer done (c :: rest)) =
      (Except.error ⟨"Unexpected character: \x27" ++ c.toString ++ "\x27",
        utf8Len done + c.utf8Size⟩, alignedLexer done (c :: rest)) := by
  obtain ⟨-, h1, h2, h3, h4, h5, h6, h7, h8, h9, h10⟩ := hc
  unfold nextTokenDispatch
  rw [show (alignedLexer done (c :: rest)).current_char = some c from rfl]
  simp only [h8, h10, Bool.false_eq_true, if_false, if_neg h1, if_neg h2,
    if_neg h3, if_neg h4, if_neg h5, if_neg h6, if_neg h7]
  rw [if_neg (by simp [h9])]
  rfl

theorem advance_preserves {l : Lexer} (h : LexAligned l) : LexAligned l.advance := by
  obtain ⟨done, rest, rfl⟩ := h
  cases rest with
  | nil => exact ⟨done, [], advance_aligned_end done⟩
  | cons c r => exact ⟨done ++ [c], r, advance_aligned done c r⟩

theorem skipWsF_preserves (n : Nat) :
    ∀ {l : Lexer}, LexAligned l → LexAligned (skipWsF n l) := by
  induction n with
  | zero => intro l h; exact h
  | succ n ih =>
    intro l h
    unfold skipWsF
    cases hc : l.current_char with
    | none => exact h
    | some c =>
      by_cases hw : rustIsWhitespace c = true
      · simp only [hw, if_true]
        exact ih (advance_preserves h)
      · simp only [hw, if_false]
        exact h

theorem skip_whitespace_preserves {l : Lexer} (h : LexAligned l) :
    LexAligned l.skip_whitespace := skipWsF_preserves _ h

theorem readStrF_preserves (n : Nat) :
    ∀ {l : Lexer} (acc : List Char) (esc : Bool) (st : Nat), LexAligned l →
      LexAligned (readStrF n l acc esc st).2 := by
  induction n with
  | zero => intro l _ _ _ h; exact h
  | succ n ih =>
    intro l acc esc st h
    unfold readStrF
    cases hc : l.current_char with
    | none => exact h
    | some c =>
      by_cases he : esc = true
      · subst he
        simp only [if_true]
        cases hd : escDecode c with
        | none => exact h
        | some d => exact ih _ _ _ (advance_preserves h)
      · rw [show esc = false by simpa using he]
        simp only [Bool.false_eq_true, if_false]
        by_cases hb : c = '\\'
        · simp only [hb, if_pos rfl]
          exact ih _ _ _ (advance_preserves h)
        · rw [if_neg hb]
          by_cases hq : c = '"'
          · simp only [hq, if_pos rfl]
            exact advance_preserves h
          · rw [if_neg hq]
            exact ih _ _ _ (advance_preserves h)

theorem read_string_preserves {l : Lexer} (h : LexAligned l) :
    LexAligned l.read_string.2 :=
  readStrF_preserves _ _ _ _ (advance_preserves h)

theorem readNumLoop1F_preserves (n : Nat) :
    ∀ {l : Lexer} (acc : List Char) (hd : Bool), LexAligned l →
      LexAligned (readNumLoop1F n l acc hd).2.2 := by
  induction n with
  | zero => intro l _ _ h; exact h
  | succ n ih =>
    intro l acc hd h
    unfold readNumLoop1F
    cases hc : l.current_char with
    | none => exact h
    | some c =>
      by_cases h1 : c.isDigit = true
      · simp only [h1, if_true]
        exact ih _ _ (advance_preserves h)
      · simp only [h1, Bool.false_eq_true, if_false]
        by_cases h2 : (c = '.' && !hd) = true
        · simp only [h2, if_true]
          exact ih _ _ (advance_preserves h)
        · simp only [h2, Bool.false_eq_true, if_false]
          exact h

theorem readNumLoop2F_preserves (n : Nat) :
    ∀ {l : Lexer} (acc : List Char), LexAligned l →
      LexAligned (readNumLoop2F n l acc).2 := by
  induction n with
  | zero => intro l _ h; exact h
  | succ n ih =>
    intro l acc h
    unfold readNumLoop2F
    cases hc : l.current_char with
    | none => exact h
    | some c =>
      by_cases h1 : c.isDigit = true
      · simp only [h1, if_true]
        exact ih _ (advance_preserves h)
      · simp only [h1, Bool.false_eq_true, if_false]
        exact h

theorem readKwF_preserves (n : Nat) :
    ∀ {l : Lexer} (acc : List Char), LexAligned l →
      LexAligned (readKwF n l acc).2 := by
  induction n with
  | zero => intro l _ h; exact h
  | succ n ih =>
    intro l acc h
    unfold readKwF
    cases hc : l.current_char with
    | none => exact h
    | some c =>
      by_cases h1 : rustIsAlphanumeric c = true
      · simp only [h1, if_true]
        exact ih _ (advance_preserves h)
      · simp only [h1, Bool.false_eq_true, if_false]
        exact h

theorem read_number_preserves {l : Lexer} (h : LexAligned l) :
    LexAligned l.read_number.2 := by
  unfold Lexer.read_number
  have h₀ : LexAligned
      (if l.current_char = some '-' then (['-'], l.advance) else ([], l)).2 := by
    by_cases hm : l.current_char = some '-'
    · simp only [hm, if_pos rfl]
      exact advance_preserves h
    · rw [if_neg hm]
      exact h
  have h₁ := readNumLoop1F_preserves
    (lexMeasure (if l.current_char = some '-' then (['-'], l.advance) else ([], l)).2)
    ((if l.current_char = some '-' then (['-'], l.advance) else ([], l)).1) false h₀
  cases hs : (if l.current_char = some '-' then (['-'], l.advance) else ([], l)) with
  | mk acc₀ l₀ =>
    rw [hs] at h₀ h₁
    simp only []
    cases ht : readNumLoop1F (lexMeasure l₀) l₀ acc₀ false with
    | mk acc₁ rest₁ =>
      cases rest₁ with
      | mk hasDot l₁ =>
        rw [ht] at h₁
        simp only [] at h₁
        by_cases hd : hasDot = true
        · subst hd
          simp only [if_true]
          have h₂ := readNumLoop2F_preserves (lexMeasure l₁) acc₁ h₁
          cases hu : readNumLoop2F (lexMeasure l₁) l₁ acc₁ with
          | mk acc₂ l₂ =>
            rw [hu] at h₂
            cases rustParseF64 acc₂ <;> exact h₂
        · rw [show hasDot = false by simpa using hd]
          simp only [Bool.false_eq_true, if_false]
          cases rustParseF64 acc₁ <;> exact h₁

theorem read_keyword_preserves {l : Lexer} (h : LexAligned l) :
    LexAligned l.read_keyword.2 := by
  unfold Lexer.read_keyword
  have h₁ := readKwF_preserves (lexMeasure l) [] h
  cases hk : readKwF (lexMeasure l) l [] with
  | mk kw l' =>
    rw [hk] at h₁
    by_cases e1 : kw = "true".data
    · simp [e1]; exact h₁
    · by_cases e2 : kw = "false".data
      · simp [e1, e2]; exact h₁
      · by_cases e3 : kw = "null".data
        · simp [e1, e2, e3]; exact h₁
        · simp [e1, e2, e3]; exact h₁

theorem next_token_preserves {l : Lexer} (h : LexAligned l) :
    LexAligned l.next_token.2 := by
  rw [next_token_eq_dispatch]
  have hs := skip_whitespace_preserves h
  unfold nextTokenDispatch
  cases hc : l.skip_whitespace.current_char with
  | none => exact hs
  | some c =>
    dsimp only
    by_cases h1 : c = '\x7b'
    · simp only [h1, if_pos rfl]; exact advance_preserves hs
    · rw [if_neg h1]
      by_cases h2 : c = '\x7d'
      · simp only [h2, if_pos rfl]; exact advance_preserves hs
      · rw [if_neg h2]
        by_cases h3 : c = '['
        · simp only [h3, if_pos rfl]; exact advance_preserves hs
        · rw [if_neg h3]
          by_cases h4 : c = ']'
          · simp only [h4, if_pos rfl]; exact advance_preserves hs
          · rw [if_neg h4]
            by_cases h5 : c = ','
            · simp only [h5, if_pos rfl]; exact advance_preserves hs
            · rw [if_neg h5]
              by_cases h6 : c = ':'
              · simp only [h6, if_pos rfl]; exact advance_preserves hs
              · rw [if_neg h6]
                by_cases h7 : c = '"'
                · simp only [h7, if_pos rfl]; exact read_string_preserves hs
                · rw [if_neg h7]
                  by_cases h8 : (c.isDigit || decide (c = '-')) = true
                  · rw [if_pos h8]; exact read_number_preserves hs
                  · rw [if_neg h8]
                    by_cases h9 : rustIsAlphabetic c = true
                    · rw [if_pos h9]; exact read_keyword_preserves hs
                    · rw [if_neg (by simp [h9])]
                      exact hs

/-- C5 (amended): after `Lexer::new` and after every number of `next_token`
calls, the state is "aligned": the input splits as `done ++ rest` where every
character of `done` has been decoded, the head of `rest` (if any) is the
stored current character, and the offset sits at the start of the first
undecoded character (just past the held one).  Consequently the stored
character being `None` implies the offset has reached the input length — but
not conversely, see `C5_iff_counterexample`. -/
theorem C5_lexer_invariant_amended (input : List Char) (n : Nat) :
    LexAligned (runLex (Lexer.new input) n) ∧
    ((runLex (Lexer.new input) n).current_char = none →
      (runLex (Lexer.new input) n).position =
        utf8Len (runLex (Lexer.new input) n).input) := by
  have haligned : LexAligned (runLex (Lexer.new input) n) := by
    induction n with
    | zero => exact ⟨[], input, new_aligned input⟩
    | succ n ih => exact next_token_preserves ih
  refine ⟨haligned, ?_⟩
  intro hnone
  obtain ⟨done, rest, heq⟩ := haligned
  cases rest with
  | nil => rw [heq]; simp [alignedLexer]
  | cons c r => rw [heq] at hnone; simp [alignedLexer] at hnone

/-- C4 (amended): when the first token-start character `c` after a whitespace
prefix is in no token class, `next_token` returns an "Unexpected character"
error whose position is the byte offset of `c` **plus `c`'s UTF-8 length**
(i.e. the offset just past the character), not the offset of `c` itself:
`advance` has already moved `position` past the decoded character when
`next_token` records `start_pos`. -/
theorem C4_unexpected_char_amended (ws rest : List Char) (c : Char)
    (hws : ∀ w ∈ ws, rustIsWhitespace w = true) (hc : NotTokenStart c) :
    (Lexer.new (ws ++ c :: rest)).next_token =
      (Except.error ⟨"Unexpected character: \x27" ++ c.toString ++ "\x27",
          utf8Len ws + c.utf8Size⟩,
        alignedLexer ws (c :: rest)) := by
  rw [new_aligned, next_token_aligned [] ws (c :: rest) hws hc.1]
  exact dispatch_unexpected ws rest c hc

/-- Witness for C4 (amended) at the input `"@"`. -/
theorem C4_unexpected_char_amended_witness :
    (∀ w ∈ ([] : List Char), rustIsWhitespace w = true) ∧ NotTokenStart '@' ∧
    (Lexer.new ([] ++ '@' :: [])).next_token =
      (Except.error ⟨"Unexpected character: \x27@\x27",
          utf8Len [] + '@'.utf8Size⟩,
        alignedLexer [] ('@' :: [])) :=
  ⟨by simp, by unfold NotTokenStart; decide,
    C4_unexpected_char_amended [] [] '@' (by simp)
      (by unfold NotTokenStart; decide)⟩

theorem scanEsc_raw (cs : List Char) (h : ∀ c ∈ cs, c ≠ '"' ∧ c ≠ '\\') :
    ScanEsc cs cs := by
  induction cs with
  | nil => exact ScanEsc.nil
  | cons c cs ih =>
    exact ScanEsc.raw c cs cs (h c (by simp)).1 (h c (by simp)).2
      (ih fun x hx => h x (by simp [hx]))

theorem scanEsc_escape (s : List Char) : ScanEsc s (escape_string s) := by
  induction s with
  | nil => exact ScanEsc.nil
  | cons c cs ih =>
    show ScanEsc (c :: cs) (escChar c ++ escape_string cs)
    by_cases h1 : c = '"'
    · subst h1; exact ScanEsc.esc '"' '"' cs _ rfl ih
    · by_cases h2 : c = '\\'
      · subst h2; exact ScanEsc.esc '\\' '\\' cs _ rfl ih
      · by_cases h3 : c = '\n'
        · subst h3
          rw [show escChar '\n' = ['\\', 'n'] from rfl]
          exact ScanEsc.esc 'n' '\n' cs _ rfl ih
        · by_cases h4 : c = '\r'
          · subst h4
            rw [show escChar '\r' = ['\\', 'r'] from rfl]
            exact ScanEsc.esc 'r' '\r' cs _ rfl ih
          · by_cases h5 : c = '\t'
            · subst h5
              rw [show escChar '\t' = ['\\', 't'] from rfl]
              exact ScanEsc.esc 't' '\t' cs _ rfl ih
            · rw [show escChar c = [c] from by
                simp [escChar, h1, h2, h3, h4, h5]]
              exact ScanEsc.raw c cs _ h1 h2 ih

theorem parseValueF_string_tok (n : Nat) (p : Parser) (s : List Char)
    (hcur : p.current_token = Token.tstring s) (hn : 1 ≤ n) :
    parseValueF n p = Except.ok (JsonValue.string s, p.advanceP) := by
  cases n with
  | zero => omega
  | succ m =>
    unfold parseValueF
    rw [hcur]

theorem advanceP_peek_eof (l : Lexer) (t : Token) :
    Parser.advanceP ⟨l, t, Token.eof⟩ = ⟨l, Token.eof, Token.eof⟩ := by
  unfold Parser.advanceP
  simp

theorem parse_json_single_string (raw payload : List Char)
    (h : ScanEsc payload raw) :
    parse_json ('"' :: (raw ++ '"' :: [])) = Except.ok (JsonValue.string payload) := by
  have htok : (Lexer.new ('"' :: (raw ++ '"' :: []))).next_token =
      (Except.ok (Token.tstring payload),
        alignedLexer (([] ++ ['"']) ++ raw ++ ['"']) []) := by
    rw [new_aligned]
    rw [show ('"' :: (raw ++ '"' :: []) : List Char) =
        [] ++ '"' :: (raw ++ '"' :: []) from rfl]
    rw [next_token_aligned [] [] _ (by simp) (by trivial)]
    exact dispatch_string [] raw [] payload h
  have hnew : Parser.new ('"' :: (raw ++ '"' :: [])) =
      Except.ok ⟨alignedLexer (([] ++ ['"']) ++ raw ++ ['"']) [],
        Token.tstring payload, Token.eof⟩ := by
    unfold Parser.new
    simp only [htok]
    rw [if_neg (by simp)]
    rw [next_token_at_end]
  unfold parse_json
  simp only [hnew]
  unfold Parser.parse
  rw [parseValueF_string_tok _ _ payload rfl (by unfold parseFuel; omega)]
  rw [advanceP_peek_eof]
  rfl

/-- C9: inside a string literal the lexer accepts every unescaped character
other than `"` and `\` — including raw newlines, tabs, and other control
characters — and copies it verbatim into the `String` token payload; such a
literal standing alone also parses to the corresponding `JsonValue.string`. -/
theorem C9_raw_string_chars (cs : List Char)
    (h : ∀ c ∈ cs, c ≠ '"' ∧ c ≠ '\\') :
    (Lexer.new ('"' :: (cs ++ '"' :: []))).next_token =
      (Except.ok (Token.tstring cs),
        alignedLexer (([] ++ ['"']) ++ cs ++ ['"']) []) ∧
    parse_json ('"' :: (cs ++ '"' :: [])) = Except.ok (JsonValue.string cs) := by
  have hscan := scanEsc_raw cs h
  constructor
  · rw [new_aligned]
    rw [show ('"' :: (cs ++ '"' :: []) : List Char) =
        [] ++ '"' :: (cs ++ '"' :: []) from rfl]
    rw [next_token_aligned [] [] _ (by simp) (by trivial)]
    exact dispatch_string [] cs [] cs hscan
  · exact parse_json_single_string cs cs hscan

/-- Witness for C9: the literal `"a<newline>b"` lexes to `String("a\nb")` and
parses to `JsonValue.string "a\nb"`. -/
theorem C9_raw_string_chars_witness :
    (∀ c ∈ ['a', '\n', 'b'], c ≠ '"' ∧ c ≠ '\\') ∧
    parse_json ('"' :: (['a', '\n', 'b'] ++ '"' :: [])) =
      Except.ok (JsonValue.string ['a', '\n', 'b']) :=
  ⟨by decide, (C9_raw_string_chars ['a', '\n', 'b'] (by decide)).2⟩

/-- C10: serializing any string value and re-parsing it is the identity: the
serializer escapes exactly `"`, `\`, newline, carriage return and tab, and
the lexer's string scanning inverts that escaping while passing every other
character through verbatim. -/
theorem C10_string_round_trip (s : List Char) :
    parse_json ((JsonValue.string s).to_json_string) =
      Except.ok (JsonValue.string s) := by
  have h1 : (JsonValue.string s).to_json_string =
      '"' :: (escape_string s ++ '"' :: []) := by
    simp [JsonValue.to_json_string]
  rw [h1]
  exact parse_json_single_string _ _ (scanEsc_escape s)

/-- C2: the claim fails as stated.  The four-character text `"\/"` is valid
JSON (the solidus escape `\/` is standard), contains no `\uXXXX` escape and
no exponent, yet `parse_json` rejects it with "Invalid escape sequence":
the lexer only knows the escapes `\"`, `\\`, `\n`, `\r`, `\t`. -/
theorem C2_round_trip_counterexample :
    IsJsonTextC2 ('"' :: '\\' :: '/' :: '"' :: []) ∧
    parse_json ('"' :: '\\' :: '/' :: '"' :: []) =
      Except.error ⟨"Invalid escape sequence: \\/", 3⟩ := by
  constructor
  · refine ⟨JsonValue.string ['/'], ⟨?_⟩⟩
    have d : RJson true (JsonValue.string ['/'])
        (([] : List Char) ++ ('"' :: ('\\' :: '/' :: []) ++ ['"']) ++ []) :=
      RElem.mk true _ [] _ [] (by simp [JWs])
        (RVal.str true ['/'] ('\\' :: '/' :: [])
          (StrBody.escX '/' '/' [] [] rfl (StrBody.nil true)))
        (by simp [JWs])
    simpa using d
  · rfl

theorem lexMeasure_aligned_fuel (done ks rest : List Char) (h : ks ≠ []) :
    (rest = [] ∧ ks.length ≤ lexMeasure (alignedLexer done (ks ++ rest))) ∨
      ks.length + 1 ≤ lexMeasure (alignedLexer done (ks ++ rest)) := by
  cases ks with
  | nil => exact absurd rfl h
  | cons k ks' =>
    rw [show ((k :: ks') ++ rest : List Char) = k :: (ks' ++ rest) from rfl,
      lexMeasure_aligned_cons]
    cases rest with
    | nil =>
      refine Or.inl ⟨rfl, ?_⟩
      have := length_le_utf8Len ks'
      simp only [utf8Len_append, List.length_cons, utf8Len]
      omega
    | cons c' r' =>
      right
      have h1 := length_le_utf8Len ks'
      have h2 := Char.utf8Size_pos c'
      simp only [utf8Len_append, List.length_cons, utf8Len]
      omega

theorem readKwF_aligned (ks : List Char) :
    ∀ (n : Nat) (acc : List Char) (done rest : List Char),
      (∀ c ∈ ks, rustIsAlphanumeric c = true) → KwStop rest →
      ((rest = [] ∧ ks.length ≤ n) ∨ ks.length + 1 ≤ n) →
      readKwF n (alignedLexer done (ks ++ rest)) acc =
        (acc ++ ks, alignedLexer (done ++ ks) rest) := by
  induction ks with
  | nil =>
    intro n acc done rest _ hstop hn
    simp only [List.nil_append, List.append_nil]
    cases n with
    | zero => rfl
    | succ m =>
      cases rest with
      | nil => rfl
      | cons c r =>
        simp only [KwStop] at hstop
        simp [readKwF, alignedLexer, hstop]
  | cons k ks ih =>
    intro n acc done rest halnum hstop hn
    cases n with
    | zero =>
      exfalso
      rcases hn with ⟨_, h⟩ | h <;> simp at h
    | succ m =>
      have hk : rustIsAlphanumeric k = true := halnum k (by simp)
      have hstep :
          readKwF (m + 1) (alignedLexer done ((k :: ks) ++ rest)) acc =
            readKwF m ((alignedLexer done (k :: (ks ++ rest))).advance)
              (acc ++ [k]) := by
        simp [List.cons_append, readKwF, alignedLexer, hk]
      rw [hstep, advance_aligned]
      have hcond : (rest = [] ∧ ks.length ≤ m) ∨ ks.length + 1 ≤ m := by
        rcases hn with ⟨he, h⟩ | h
        · exact Or.inl ⟨he, by simpa using h⟩
        · exact Or.inr (by simpa using h)
      rw [ih m (acc ++ [k]) (done ++ [k]) rest
        (fun c hc => halnum c (by simp [hc])) hstop hcond]
      simp

theorem read_keyword_aligned (done ks rest : List Char) (t : Token)
    (halnum : ∀ c ∈ ks, rustIsAlphanumeric c = true) (hne : ks ≠ [])
    (hstop : KwStop rest) (ht : keywordTok ks = some t) :
    (alignedLexer done (ks ++ rest)).read_keyword =
      (Except.ok t, alignedLexer (done ++ ks) rest) := by
  unfold Lexer.read_keyword
  rw [readKwF_aligned ks _ [] done rest halnum hstop
    (lexMeasure_aligned_fuel done ks rest hne)]
  unfold keywordTok at ht
  split_ifs at ht with e1 e2 e3 <;> cases ht <;> subst_vars <;> simp

theorem isDigit_not_special {c : Char} (h : c.isDigit = true) :
    c ≠ '\x7b' ∧ c ≠ '\x7d' ∧ c ≠ '[' ∧ c ≠ ']' ∧ c ≠ ',' ∧ c ≠ ':' ∧
      c ≠ '"' := by
  refine ⟨?_, ?_, ?_, ?_, ?_, ?_, ?_⟩ <;> (intro hc; subst hc; simp at h)

theorem dispatch_read_number (done : List Char) (c : Char) (cs : List Char)
    (h1 : c ≠ '\x7b') (h2 : c ≠ '\x7d') (h3 : c ≠ '[') (h4 : c ≠ ']')
    (h5 : c ≠ ',') (h6 : c ≠ ':') (h7 : c ≠ '"')
    (h8 : (c.isDigit || decide (c = '-')) = true) :
    nextTokenDispatch (alignedLexer done (c :: cs)) =
      (alignedLexer done (c :: cs)).read_number := by
  unfold nextTokenDispatch
  rw [show (alignedLexer done (c :: cs)).current_char = some c from rfl]
  simp only [if_neg h1, if_neg h2, if_neg h3, if_neg h4, if_neg h5, if_neg h6,
    if_neg h7, if_pos h8]

theorem dispatch_read_keyword (done : List Char) (c : Char) (cs : List Char)
    (h1 : c ≠ '\x7b') (h2 : c ≠ '\x7d') (h3 : c ≠ '[') (h4 : c ≠ ']')
    (h5 : c ≠ ',') (h6 : c ≠ ':') (h7 : c ≠ '"')
    (h8 : c.isDigit = false) (h9 : c ≠ '-')
    (h10 : rustIsAlphabetic c = true) :
    nextTokenDispatch (alignedLexer done (c :: cs)) =
      (alignedLexer done (c :: cs)).read_keyword := by
  unfold nextTokenDispatch
  rw [show (alignedLexer done (c :: cs)).current_char = some c from rfl]
  simp only [if_neg h1, if_neg h2, if_neg h3, if_neg h4, if_neg h5, if_neg h6,
    if_neg h7]
  rw [if_neg (by simp [h8, h9]), if_pos h10]

theorem dispatch_keyword (done rest : List Char) (ks : List Char) (t : Token)
    (hstop : KwStop rest) (ht : keywordTok ks = some t) :
    nextTokenDispatch (alignedLexer done (ks ++ rest)) =
      (Except.ok t, alignedLexer (done ++ ks) rest) := by
  have halnum : ∀ c ∈ ks, rustIsAlphanumeric c = true := by
    unfold keywordTok at ht
    split_ifs at ht with e1 e2 e3 <;> subst_vars <;> decide
  have hne : ks ≠ [] := by
    unfold keywordTok at ht
    split_ifs at ht with e1 e2 e3 <;> subst_vars <;> simp
  have hrk := read_keyword_aligned done ks rest t halnum hne hstop ht
  unfold keywordTok at ht
  split_ifs at ht with e1 e2 e3 <;> cases ht
  · subst e1
    simp only [show ("true".data : List Char) = 't' :: 'r' :: 'u' :: 'e' :: []
        from rfl, List.cons_append, List.nil_append] at hrk ⊢
    rw [dispatch_read_keyword done 't' _ (by decide) (by decide) (by decide)
      (by decide) (by decide) (by decide) (by decide) (by decide) (by decide)
      (by decide)]
    exact hrk
  · subst e2
    simp only [show ("false".data : List Char) =
        'f' :: 'a' :: 'l' :: 's' :: 'e' :: [] from rfl,
      List.cons_append, List.nil_append] at hrk ⊢
    rw [dispatch_read_keyword done 'f' _ (by decide) (by decide) (by decide)
      (by decide) (by decide) (by decide) (by decide) (by decide) (by decide)
      (by decide)]
    exact hrk
  · subst e3
    simp only [show ("null".data : List Char) = 'n' :: 'u' :: 'l' :: 'l' :: []
        from rfl, List.cons_append, List.nil_append] at hrk ⊢
    rw [dispatch_read_keyword done 'n' _ (by decide) (by decide) (by decide)
      (by decide) (by decide) (by decide) (by decide) (by decide) (by decide)
      (by decide)]
    exact hrk

theorem readNumLoop1F_digits (ds : List Char) :
    ∀ (n : Nat) (acc : List Char) (hd : Bool) (done rest : List Char),
      (∀ c ∈ ds, c.isDigit = true) → ds.length ≤ n →
      readNumLoop1F n (alignedLexer done (ds ++ rest)) acc hd =
        readNumLoop1F (n - ds.length) (alignedLexer (done ++ ds) rest)
          (acc ++ ds) hd := by
  induction ds with
  | nil => intro n acc hd done rest _ _; simp
  | cons d ds ih =>
    intro n acc hd done rest hdig hn
    cases n with
    | zero => simp at hn
    | succ m =>
      have hd1 : d.isDigit = true := hdig d (by simp)
      have hstep :
          readNumLoop1F (m + 1) (alignedLexer done ((d :: ds) ++ rest)) acc hd =
            readNumLoop1F m ((alignedLexer done (d :: (ds ++ rest))).advance)
              (acc ++ [d]) hd := by
        simp [List.cons_append, readNumLoop1F, alignedLexer, hd1]
      rw [hstep, advance_aligned,
        ih m (acc ++ [d]) hd (done ++ [d]) rest
          (fun c hc => hdig c (by simp [hc])) (by simpa using hn)]
      simp only [List.append_assoc, List.singleton_append, List.length_cons]
      congr 1
      omega

theorem readNumLoop1F_stop (n : Nat) (acc : List Char) (hd : Bool)
    (done rest : List Char) (h : NumStop rest) :
    readNumLoop1F n (alignedLexer done rest) acc hd =
      (acc, hd, alignedLexer done rest) := by
  cases n with
  | zero => rfl
  | succ m =>
    cases rest with
    | nil => rfl
    | cons c r =>
      obtain ⟨h1, h2⟩ := h
      simp [readNumLoop1F, alignedLexer, h1, h2]

theorem readNumLoop1F_dot (n : Nat) (acc : List Char) (done rest : List Char)
    (hn : 1 ≤ n) :
    readNumLoop1F n (alignedLexer done ('.' :: rest)) acc false =
      readNumLoop1F (n - 1) (alignedLexer (done ++ ['.']) rest)
        (acc ++ ['.']) true := by
  cases n with
  | zero => omega
  | succ m =>
    have hstep :
        readNumLoop1F (m + 1) (alignedLexer done ('.' :: rest)) acc false =
          readNumLoop1F m ((alignedLexer done ('.' :: rest)).advance)
            (acc ++ ['.']) true := by
      simp [readNumLoop1F, alignedLexer]
    rw [hstep, advance_aligned]
    rfl

theorem readNumLoop2F_stop (n : Nat) (acc : List Char) (done rest : List Char)
    (h : NumStop rest) :
    readNumLoop2F n (alignedLexer done rest) acc = (acc, alignedLexer done rest) := by
  cases n with
  | zero => rfl
  | succ m =>
    cases rest with
    | nil => rfl
    | cons c r =>
      obtain ⟨h1, _⟩ := h
      simp [readNumLoop2F, alignedLexer, h1]

theorem takeWhile_digits_append (ds rest : List Char)
    (h : ∀ c ∈ ds, c.isDigit = true)
    (hstop : ∀ c, rest.head? = some c → c.isDigit = false) :
    (ds ++ rest).takeWhile Char.isDigit = ds := by
  induction ds with
  | nil =>
    cases rest with
    | nil => rfl
    | cons c r =>
      have h1 := hstop c rfl
      simp [List.takeWhile, h1]
  | cons d ds ih =>
    have hd1 : d.isDigit = true := h d (by simp)
    simp only [List.cons_append, List.takeWhile, hd1]
    rw [show (ds.append rest : List Char) = ds ++ rest from rfl,
      ih (fun c hc => h c (by simp [hc]))]

theorem rustParseF64_not_neg (s : List Char) (h : s.head? ≠ some '-') :
    rustParseF64 s = rustParseF64Body s false := by
  unfold rustParseF64
  split
  · rename_i t
    simp at h
  · rfl

theorem rustParseF64Body_eval (neg : Bool) (ip fp : List Char)
    (hip : ip ≠ []) (hipd : ∀ c ∈ ip, c.isDigit = true)
    (hfpd : ∀ c ∈ fp, c.isDigit = true) :
    rustParseF64Body (ip ++ (if fp.isEmpty then [] else '.' :: fp)) neg =
      some (numVal neg ip fp) := by
  cases fp with
  | nil =>
    simp only [List.isEmpty_nil, if_true, List.append_nil]
    have htw : ip.takeWhile Char.isDigit = ip := by
      simpa using takeWhile_digits_append ip [] hipd (by intro c hc; simp at hc)
    unfold rustParseF64Body
    simp only [htw, List.drop_length]
    rw [if_neg (by simpa using hip)]
    unfold numVal JNum.mk'
    norm_num [digitsToNat]
  | cons f fp' =>
    simp only [List.isEmpty_cons, Bool.false_eq_true, if_false]
    have htw : (ip ++ '.' :: f :: fp').takeWhile Char.isDigit = ip := by
      apply takeWhile_digits_append ip _ hipd
      intro c hc
      simp only [List.head?_cons, Option.some.injEq] at hc
      subst hc
      decide
    unfold rustParseF64Body
    simp only [htw, List.drop_left]
    rw [if_pos]
    · rfl
    · simp only [Bool.and_eq_true, List.all_eq_true, Bool.not_eq_true',
        Bool.and_eq_false_iff]
      constructor
      · intro c hc
        exact hfpd c hc
      · simp [hip]

theorem rustParseF64_numText (neg : Bool) (ip fp : List Char)
    (hip : ip ≠ []) (hipd : ∀ c ∈ ip, c.isDigit = true)
    (hfpd : ∀ c ∈ fp, c.isDigit = true) :
    rustParseF64 (numText neg ip fp) = some (numVal neg ip fp) := by
  cases neg with
  | true =>
    rw [show numText true ip fp =
        '-' :: (ip ++ (if fp.isEmpty then [] else '.' :: fp)) from by
      simp [numText]]
    rw [show rustParseF64 ('-' :: (ip ++ (if fp.isEmpty then [] else '.' :: fp)))
        = rustParseF64Body (ip ++ (if fp.isEmpty then [] else '.' :: fp)) true
      from rfl]
    exact rustParseF64Body_eval true ip fp hip hipd hfpd
  | false =>
    rw [show numText false ip fp =
        ip ++ (if fp.isEmpty then [] else '.' :: fp) from by simp [numText]]
    rw [rustParseF64_not_neg]
    · exact rustParseF64Body_eval false ip fp hip hipd hfpd
    · cases ip with
      | nil => exact absurd rfl hip
      | cons i ip' =>
        have := hipd i (by simp)
        simp only [List.cons_append, List.head?_cons, ne_eq,
          Option.some.injEq]
        intro hc
        subst hc
        simp at this

theorem readNumLoop1F_int (ip acc done rest : List Char) (n : Nat)
    (hipd : ∀ c ∈ ip, c.isDigit = true) (hstop : NumStop rest)
    (hn : ip.length ≤ n) :
    readNumLoop1F n (alignedLexer done (ip ++ rest)) acc false =
      (acc ++ ip, false, alignedLexer (done ++ ip) rest) := by
  rw [readNumLoop1F_digits ip n acc false done rest hipd hn,
    readNumLoop1F_stop _ _ _ _ _ hstop]

theorem readNumLoop1F_frac (ip fp acc done rest : List Char) (n : Nat)
    (hipd : ∀ c ∈ ip, c.isDigit = true) (hfpd : ∀ c ∈ fp, c.isDigit = true)
    (hstop : NumStop rest) (hn : ip.length + 1 + fp.length ≤ n) :
    readNumLoop1F n (alignedLexer done (ip ++ '.' :: (fp ++ rest))) acc false =
      (acc ++ ip ++ '.' :: fp, true,
        alignedLexer ((done ++ ip ++ ['.']) ++ fp) rest) := by
  rw [readNumLoop1F_digits ip n acc false done ('.' :: (fp ++ rest)) hipd
      (by omega),
    readNumLoop1F_dot _ _ _ _ (by omega),
    readNumLoop1F_digits fp _ _ true _ rest hfpd (by omega),
    readNumLoop1F_stop _ _ _ _ _ hstop]
  simp

theorem read_number_aligned (done rest : List Char) (neg : Bool)
    (ip fp : List Char) (hip : ip ≠ [])
    (hipd : ∀ c ∈ ip, c.isDigit = true) (hfpd : ∀ c ∈ fp, c.isDigit = true)
    (hstop : NumStop rest) :
    (alignedLexer done (numText neg ip fp ++ rest)).read_number =
      (Except.ok (Token.number (numVal neg ip fp)),
        alignedLexer (done ++ numText neg ip fp) rest) := by
  obtain ⟨i, ip', rfl⟩ : ∃ i ip', ip = i :: ip' := by
    cases ip with
    | nil => exact absurd rfl hip
    | cons i ip' => exact ⟨i, ip', rfl⟩
  have hi : i.isDigit = true := hipd i (by simp)
  have hine : i ≠ '-' := by
    intro hc; subst hc; simp at hi
  cases neg with
  | false =>
    cases fp with
    | nil =>
      have htext : numText false (i :: ip') [] ++ rest =
          i :: (ip' ++ rest) := by simp [numText]
      rw [htext]
      unfold Lexer.read_number
      rw [if_neg (by
        rw [show (alignedLexer done (i :: (ip' ++ rest))).current_char =
          some i from rfl]
        simp [hine])]
      dsimp only
      have hloop := readNumLoop1F_int (i :: ip') [] done rest
        (lexMeasure (alignedLexer done (i :: (ip' ++ rest)))) hipd hstop
        (by
          have h := lexMeasure_aligned_cons done i (ip' ++ rest)
          have h1 := length_le_utf8Len ip'
          simp only [utf8Len_append] at h
          simp only [List.length_cons]
          omega)
      simp only [List.cons_append, List.nil_append] at hloop
      rw [hloop]
      simp only [List.nil_append, Bool.false_eq_true, if_false]
      have hparse : rustParseF64 (i :: ip') =
          some (numVal false (i :: ip') []) := by
        have := rustParseF64_numText false (i :: ip') [] (by simp) hipd
          (by intro c hc; simp at hc)
        simpa [numText] using this
      rw [hparse]
      simp [numText]
    | cons f fp' =>
      have htext : numText false (i :: ip') (f :: fp') ++ rest =
          i :: (ip' ++ ('.' :: (f :: (fp' ++ rest)))) := by simp [numText]
      rw [htext]
      unfold Lexer.read_number
      rw [if_neg (by
        rw [show (alignedLexer done
            (i :: (ip' ++ ('.' :: (f :: (fp' ++ rest)))))).current_char =
          some i from rfl]
        simp [hine])]
      dsimp only
      have hloop := readNumLoop1F_frac (i :: ip') (f :: fp') [] done rest
        (lexMeasure (alignedLexer done
          (i :: (ip' ++ ('.' :: (f :: (fp' ++ rest))))))) hipd hfpd hstop
        (by
          have h := lexMeasure_aligned_cons done i
            (ip' ++ ('.' :: (f :: (fp' ++ rest))))
          have h1 := length_le_utf8Len ip'
          have h2 := length_le_utf8Len fp'
          have h3 := Char.utf8Size_pos '.'
          have h4 := Char.utf8Size_pos f
          simp only [utf8Len_append, utf8Len] at h
          simp only [List.length_cons]
          omega)
      simp only [List.cons_append, List.nil_append] at hloop
      rw [hloop]
      simp only [List.nil_append, if_true]
      rw [readNumLoop2F_stop _ _ _ _ hstop]
      have hparse : rustParseF64 (i :: (ip' ++ '.' :: f :: fp')) =
          some (numVal false (i :: ip') (f :: fp')) := by
        have := rustParseF64_numText false (i :: ip') (f :: fp') (by simp)
          hipd hfpd
        simpa [numText] using this
      simp only [List.cons_append, List.append_assoc, List.singleton_append, List.nil_append]
      rw [hparse]
      simp [numText]
  | true =>
    cases fp with
    | nil =>
      have htext : numText true (i :: ip') [] ++ rest =
          '-' :: (i :: (ip' ++ rest)) := by simp [numText]
      rw [htext]
      unfold Lexer.read_number
      rw [if_pos (show (alignedLexer done
          ('-' :: (i :: (ip' ++ rest)))).current_char = some '-' from rfl)]
      rw [advance_aligned]
      dsimp only
      have hloop := readNumLoop1F_int (i :: ip') ['-'] (done ++ ['-']) rest
        (lexMeasure (alignedLexer (done ++ ['-']) (i :: (ip' ++ rest))))
        hipd hstop
        (by
          have h := lexMeasure_aligned_cons (done ++ ['-']) i (ip' ++ rest)
          have h1 := length_le_utf8Len ip'
          simp only [utf8Len_append] at h
          simp only [List.length_cons]
          omega)
      simp only [List.cons_append, List.nil_append] at hloop
      rw [hloop]
      simp only [Bool.false_eq_true, if_false]
      have hparse : rustParseF64 ('-' :: (i :: ip')) =
          some (numVal true (i :: ip') []) := by
        have := rustParseF64_numText true (i :: ip') [] (by simp) hipd
          (by intro c hc; simp at hc)
        simpa [numText] using this
      rw [hparse]
      simp [numText]
    | cons f fp' =>
      have htext : numText true (i :: ip') (f :: fp') ++ rest =
          '-' :: (i :: (ip' ++ ('.' :: (f :: (fp' ++ rest))))) := by
        simp [numText]
      rw [htext]
      unfold Lexer.read_number
      rw [if_pos (show (alignedLexer done ('-' :: (i :: (ip' ++
          ('.' :: (f :: (fp' ++ rest))))))).current_char = some '-' from rfl)]
      rw [advance_aligned]
      dsimp only
      have hloop := readNumLoop1F_frac (i :: ip') (f :: fp') ['-']
        (done ++ ['-']) rest
        (lexMeasure (alignedLexer (done ++ ['-'])
          (i :: (ip' ++ ('.' :: (f :: (fp' ++ rest))))))) hipd hfpd hstop
        (by
          have h := lexMeasure_aligned_cons (done ++ ['-']) i
            (ip' ++ ('.' :: (f :: (fp' ++ rest))))
          have h1 := length_le_utf8Len ip'
          have h2 := length_le_utf8Len fp'
          have h3 := Char.utf8Size_pos '.'
          have h4 := Char.utf8Size_pos f
          simp only [utf8Len_append, utf8Len] at h
          simp only [List.length_cons]
          omega)
      simp only [List.cons_append, List.nil_append] at hloop
      rw [hloop]
      simp only [if_true]
      rw [readNumLoop2F_stop _ _ _ _ hstop]
      have hparse : rustParseF64 ('-' :: (i :: (ip' ++ '.' :: f :: fp'))) =
          some (numVal true (i :: ip') (f :: fp')) := by
        have := rustParseF64_numText true (i :: ip') (f :: fp') (by simp)
          hipd hfpd
        simpa [numText] using this
      simp only [List.cons_append, List.append_assoc, List.singleton_append, List.nil_append]
      rw [hparse]
      simp [numText]

theorem dispatch_number (done rest : List Char) (neg : Bool) (ip fp : List Char)
    (hip : ip ≠ []) (hipd : ∀ c ∈ ip, c.isDigit = true)
    (hfpd : ∀ c ∈ fp, c.isDigit = true) (hstop : NumStop rest) :
    nextTokenDispatch (alignedLexer done (numText neg ip fp ++ rest)) =
      (Except.ok (Token.number (numVal neg ip fp)),
        alignedLexer (done ++ numText neg ip fp) rest) := by
  obtain ⟨i, ip', rfl⟩ : ∃ i ip', ip = i :: ip' := by
    cases ip with
    | nil => exact absurd rfl hip
    | cons i ip' => exact ⟨i, ip', rfl⟩
  have hi : i.isDigit = true := hipd i (by simp)
  obtain ⟨g1, g2, g3, g4, g5, g6, g7⟩ := isDigit_not_special hi
  cases neg with
  | false =>
    have htext : numText false (i :: ip') fp ++ rest =
        i :: (ip' ++ ((if fp.isEmpty then [] else '.' :: fp) ++ rest)) := by
      simp [numText]
    rw [htext, dispatch_read_number done i _ g1 g2 g3 g4 g5 g6 g7
      (by simp [hi]), ← htext]
    exact read_number_aligned done rest false (i :: ip') fp hip hipd hfpd hstop
  | true =>
    have htext : numText true (i :: ip') fp ++ rest =
        '-' :: (i :: (ip' ++ ((if fp.isEmpty then [] else '.' :: fp) ++ rest))) := by
      simp [numText]
    rw [htext, dispatch_read_number done '-' _ (by decide) (by decide)
      (by decide) (by decide) (by decide) (by decide) (by decide) (by decide),
      ← htext]
    exact read_number_aligned done rest true (i :: ip') fp hip hipd hfpd hstop

theorem jws_rust {ws : List Char} (h : JWs ws) :
    ∀ c ∈ ws, rustIsWhitespace c = true := by
  intro c hc
  rcases h c hc with h1 | h1 | h1 | h1 <;> subst h1 <;> decide

theorem jws_append {a b : List Char} (ha : JWs a) (hb : JWs b) : JWs (a ++ b) := by
  intro c hc
  rcases List.mem_append.mp hc with h | h
  · exact ha c h
  · exact hb c h

theorem follow_ws_pad {w rest : List Char} (hw : JWs w) (hf : Follow rest) :
    Follow (w ++ rest) := by
  cases w with
  | nil => exact hf
  | cons c w' =>
    have hc := hw c (by simp)
    constructor
    · show NumStop (c :: (w' ++ rest))
      rcases hc with h | h | h | h <;> subst h <;> exact ⟨by decide, by decide⟩
    · show KwStop (c :: (w' ++ rest))
      rcases hc with h | h | h | h <;> subst h <;>
        (show rustIsAlphanumeric _ = false; decide)

theorem next_token_pull (done ws rest : List Char) (hws : JWs ws)
    (hstop : WsStop rest) :
    (alignedLexer done (ws ++ rest)).next_token =
      nextTokenDispatch (alignedLexer (done ++ ws) rest) :=
  next_token_aligned done ws rest (jws_rust hws) hstop

theorem dispatch_eof (done : List Char) :
    nextTokenDispatch (alignedLexer done []) =
      (Except.ok Token.eof, alignedLexer done []) := rfl

theorem next_token_pull_eof (done ws : List Char) (hws : JWs ws) :
    (alignedLexer done (ws ++ [])).next_token =
      (Except.ok Token.eof, alignedLexer (done ++ ws) []) := by
  rw [next_token_pull done ws [] hws trivial, dispatch_eof]

theorem digit_not_ws {c : Char} (h : c.isDigit = true) :
    rustIsWhitespace c = false := by
  have hb : 48 ≤ c.toNat ∧ c.toNat ≤ 57 := by
    simp [Char.isDigit] at h
    exact h
  obtain ⟨h1, h2⟩ := hb
  have e1 : ¬(c = ' ') := by intro hc; rw [hc] at h1; exact absurd h1 (by decide)
  have e2 : ¬(c = '\t') := by intro hc; rw [hc] at h1; exact absurd h1 (by decide)
  have e3 : ¬(c = '\n') := by intro hc; rw [hc] at h1; exact absurd h1 (by decide)
  have e4 : ¬(c = '\r') := by intro hc; rw [hc] at h1; exact absurd h1 (by decide)
  have e5 : ¬(c = '\x0b') := by
    intro hc; rw [hc] at h1; exact absurd h1 (by decide)
  have e6 : ¬(c = '\x0c') := by
    intro hc; rw [hc] at h1; exact absurd h1 (by decide)
  unfold rustIsWhitespace
  simp [e1, e2, e3, e4, e5, e6]
  omega

theorem numText_ws_stop (neg : Bool) (ip fp rest : List Char) (hip : ip ≠ [])
    (hipd : ∀ c ∈ ip, c.isDigit = true) :
    WsStop (numText neg ip fp ++ rest) := by
  obtain ⟨i, ip', rfl⟩ : ∃ i ip', ip = i :: ip' := by
    cases ip with
    | nil => exact absurd rfl hip
    | cons i ip' => exact ⟨i, ip', rfl⟩
  cases neg with
  | true => exact (show rustIsWhitespace '-' = false by decide)
  | false => exact digit_not_ws (hipd i (by simp))

def strBody_scanEsc : ∀ {p r : List Char}, StrBody false p r → ScanEsc p r
  | _, _, StrBody.nil _ => ScanEsc.nil
  | _, _, StrBody.raw _ c p r h1 h2 _ hb =>
    ScanEsc.raw c p r h1 h2 (strBody_scanEsc hb)
  | _, _, StrBody.esc _ e d p r hd hb =>
    ScanEsc.esc e d p r hd (strBody_scanEsc hb)

theorem producesTo_append {l l₁ l₂ : Lexer} {ts us : List Token}
    (h1 : ProducesTo l ts l₁) (h2 : ProducesTo l₁ us l₂) :
    ProducesTo l (ts ++ us) l₂ := by
  induction h1 with
  | nil => exact h2
  | cons l l' l'' t ts hstep _ ih => exact ProducesTo.cons _ _ _ _ _ hstep (ih h2)

theorem producesTo_single {l l' : Lexer} {t : Token}
    (h : l.next_token = (Except.ok t, l')) : ProducesTo l [t] l' :=
  ProducesTo.cons _ _ _ _ _ h (ProducesTo.nil l')

theorem relems_ne_nil {ex : Bool} {vs : List JsonValue} {s : List Char}
    (d : RElems ex vs s) : vs ≠ [] := by
  cases d <;> simp

theorem rmembs_ne_nil {ex : Bool} {ps : List (List Char × JsonValue)}
    {s : List Char} (d : RMembs ex ps s) : ps ≠ [] := by
  cases d <;> simp

theorem tksVal_array {vs : List JsonValue} (h : vs ≠ []) :
    tksVal (JsonValue.array vs) =
      Token.leftBracket :: (tksList vs ++ [Token.rightBracket]) := by
  cases vs with
  | nil => exact absurd rfl h
  | cons v vs' => simp [tksVal, tksList]

theorem tksVal_object {ps : List (List Char × JsonValue)} (h : ps ≠ []) :
    tksVal (JsonValue.object ps) =
      Token.leftBrace :: (tksPairs ps ++ [Token.rightBrace]) := by
  cases ps with
  | nil => exact absurd rfl h
  | cons kv ps' => simp [tksVal, tksPairs]

theorem tksElems_eq {v : JsonValue} {vs : List JsonValue} (h : vs ≠ []) :
    tksElems v vs = tksVal v ++ Token.comma :: tksList vs := by
  cases vs with
  | nil => exact absurd rfl h
  | cons v' vs' => simp [tksElems, tksList]

theorem tksMembs_eq {kv : List Char × JsonValue}
    {ps : List (List Char × JsonValue)} (h : ps ≠ []) :
    tksMembs kv ps =
      Token.tstring kv.1 :: Token.colon :: tksVal kv.2 ++
        Token.comma :: tksPairs ps := by
  obtain ⟨k, v⟩ := kv
  cases ps with
  | nil => exact absurd rfl h
  | cons kv' ps' => simp [tksMembs, tksPairs]

theorem tksMembs_one (kv : List Char × JsonValue) :
    tksMembs kv [] = Token.tstring kv.1 :: Token.colon :: tksVal kv.2 := by
  obtain ⟨k, v⟩ := kv
  simp [tksMembs]

theorem follow_struct {c : Char} {x : List Char} (h1 : c.isDigit = false)
    (h2 : c ≠ '.') (h3 : rustIsAlphanumeric c = false) : Follow (c :: x) :=
  ⟨⟨h1, h2⟩, h3⟩

theorem wsStop_cons {c : Char} {x : List Char} (h : rustIsWhitespace c = false) :
    WsStop (c :: x) := h

theorem tksList_one (v : JsonValue) : tksList [v] = tksVal v := by
  rw [show tksList [v] = tksElems v [] from rfl]
  simp [tksElems]

theorem tksList_cons (v : JsonValue) {vs : List JsonValue} (h : vs ≠ []) :
    tksList (v :: vs) = tksVal v ++ Token.comma :: tksList vs := by
  rw [show tksList (v :: vs) = tksElems v vs from rfl, tksElems_eq h]

theorem tksPairs_one (k : List Char) (v : JsonValue) :
    tksPairs [(k, v)] = Token.tstring k :: Token.colon :: tksVal v := by
  rw [show tksPairs [(k, v)] = tksMembs (k, v) [] from rfl, tksMembs_one]

theorem tksPairs_cons (k : List Char) (v : JsonValue)
    {ps : List (List Char × JsonValue)} (h : ps ≠ []) :
    tksPairs ((k, v) :: ps) =
      (Token.tstring k :: Token.colon :: tksVal v) ++
        (Token.comma :: tksPairs ps) := by
  rw [show tksPairs ((k, v) :: ps) = tksMembs (k, v) ps from rfl,
    tksMembs_eq h]

mutual

/-- Lexing a value text embedded after pending whitespace produces exactly
its token sequence, and those tokens are never `Eof`. -/
theorem lexVal : ∀ {v : JsonValue} {core : List Char}, RVal false v core →
    ∀ (D ws rest : List Char), JWs ws → Follow rest →
    ProducesTo (alignedLexer D (ws ++ (core ++ rest))) (tksVal v)
      (alignedLexer ((D ++ ws) ++ core) rest) ∧
    (∀ t ∈ tksVal v, t ≠ Token.eof)
  | _, _, RVal.null _, D, ws, rest, hws, hf => by
    constructor
    · rw [show tksVal JsonValue.null = [Token.null] by simp [tksVal]]
      refine producesTo_single ?_
      rw [next_token_pull D ws (('n' :: 'u' :: 'l' :: 'l' :: ([] : List Char)) ++ rest) hws (wsStop_cons (show rustIsWhitespace 'n' = false by decide))]
      exact dispatch_keyword (D ++ ws) rest _ Token.null hf.2 (by decide)
    · intro t ht
      simp [tksVal] at ht
      subst ht
      simp
  | _, _, RVal.btrue _, D, ws, rest, hws, hf => by
    constructor
    · rw [show tksVal (JsonValue.boolean true) = [Token.boolean true] by simp [tksVal]]
      refine producesTo_single ?_
      rw [next_token_pull D ws (('t' :: 'r' :: 'u' :: 'e' :: ([] : List Char)) ++ rest) hws (wsStop_cons (show rustIsWhitespace 't' = false by decide))]
      exact dispatch_keyword (D ++ ws) rest _ (Token.boolean true) hf.2 (by decide)
    · intro t ht
      simp [tksVal] at ht
      subst ht
      simp
  | _, _, RVal.bfalse _, D, ws, rest, hws, hf => by
    constructor
    · rw [show tksVal (JsonValue.boolean false) = [Token.boolean false] by simp [tksVal]]
      refine producesTo_single ?_
      rw [next_token_pull D ws (('f' :: 'a' :: 'l' :: 's' :: 'e' :: ([] : List Char)) ++ rest) hws (wsStop_cons (show rustIsWhitespace 'f' = false by decide))]
      exact dispatch_keyword (D ++ ws) rest _ (Token.boolean false) hf.2 (by decide)
    · intro t ht
      simp [tksVal] at ht
      subst ht
      simp
  | _, _, RVal.num _ neg ip fp h1 h2 h3 h4 h5, D, ws, rest, hws, hf => by
    constructor
    · rw [show tksVal (JsonValue.number (numVal neg ip fp))
          = [Token.number (numVal neg ip fp)] by simp [tksVal]]
      refine producesTo_single ?_
      rw [next_token_pull D ws _ hws (numText_ws_stop neg ip fp rest h1 h2)]
      exact dispatch_number (D ++ ws) rest neg ip fp h1 h2 h4 hf.1
    · intro t ht
      simp [tksVal] at ht
      subst ht
      simp
  | _, _, RVal.str _ payload raw hb, D, ws, rest, hws, hf => by
    constructor
    · rw [show tksVal (JsonValue.string payload) = [Token.tstring payload] by simp [tksVal]]
      refine producesTo_single ?_
      have e1 : (('"' :: raw ++ ['"']) ++ rest : List Char)
          = '"' :: (raw ++ '"' :: rest) := by simp
      rw [e1, next_token_pull D ws _ hws (wsStop_cons (show rustIsWhitespace '"' = false by decide)),
        dispatch_string (D ++ ws) raw rest payload (strBody_scanEsc hb)]
      have e2 : (((D ++ ws) ++ ['"']) ++ raw ++ ['"'] : List Char)
          = (D ++ ws) ++ ('"' :: raw ++ ['"']) := by simp
      rw [e2]
    · intro t ht
      simp [tksVal] at ht
      subst ht
      simp
  | _, _, RVal.arrNil _ ws0 hws0, D, ws, rest, hws, hf => by
    constructor
    · rw [show tksVal (JsonValue.array [])
          = [Token.leftBracket, Token.rightBracket] by simp [tksVal]]
      have e1 : (('[' :: ws0 ++ [']']) ++ rest : List Char)
          = '[' :: (ws0 ++ (']' :: rest)) := by simp
      rw [e1]
      have h1 : (alignedLexer D (ws ++ ('[' :: (ws0 ++ (']' :: rest))))).next_token
          = (Except.ok Token.leftBracket,
             alignedLexer ((D ++ ws) ++ ['[']) (ws0 ++ (']' :: rest))) := by
        rw [next_token_pull D ws _ hws (wsStop_cons (show rustIsWhitespace '[' = false by decide))]
        exact dispatch_struct (D ++ ws) (ws0 ++ (']' :: rest)) '[' Token.leftBracket (by decide)
      have h2 : (alignedLexer ((D ++ ws) ++ ['[']) (ws0 ++ (']' :: rest))).next_token
          = (Except.ok Token.rightBracket,
             alignedLexer ((D ++ ws) ++ ('[' :: ws0 ++ [']'])) rest) := by
        rw [next_token_pull ((D ++ ws) ++ ['[']) ws0 (']' :: rest) hws0
            (show rustIsWhitespace ']' = false by decide)]
        rw [dispatch_struct (((D ++ ws) ++ ['[']) ++ ws0) rest ']' Token.rightBracket (by decide)]
        have e2 : ((((D ++ ws) ++ ['[']) ++ ws0) ++ [']'] : List Char)
            = (D ++ ws) ++ ('[' :: ws0 ++ [']']) := by simp
        rw [e2]
      exact ProducesTo.cons _ _ _ _ _ h1 (producesTo_single h2)
    · intro t ht
      simp [tksVal] at ht
      rcases ht with h | h <;> subst h <;> simp
  | _, _, RVal.arr _ vs s hel, D, ws, rest, hws, hf => by
    obtain ⟨⟨u, w', hs, hw', hprod⟩, hne⟩ := lexElems hel ((D ++ ws) ++ ['[']) (']' :: rest)
        (follow_struct (by decide) (by decide) (by decide))
    constructor
    · rw [tksVal_array (relems_ne_nil hel)]
      have e1 : (('[' :: s ++ [']']) ++ rest : List Char)
          = '[' :: (s ++ (']' :: rest)) := by simp
      rw [e1]
      have h1 : (alignedLexer D (ws ++ ('[' :: (s ++ (']' :: rest))))).next_token
          = (Except.ok Token.leftBracket,
             alignedLexer ((D ++ ws) ++ ['[']) (s ++ (']' :: rest))) := by
        rw [next_token_pull D ws _ hws (wsStop_cons (show rustIsWhitespace '[' = false by decide))]
        exact dispatch_struct (D ++ ws) (s ++ (']' :: rest)) '[' Token.leftBracket (by decide)
      have h2 : (alignedLexer (((D ++ ws) ++ ['[']) ++ u) (w' ++ (']' :: rest))).next_token
          = (Except.ok Token.rightBracket,
             alignedLexer ((D ++ ws) ++ ('[' :: s ++ [']'])) rest) := by
        rw [next_token_pull (((D ++ ws) ++ ['[']) ++ u) w' (']' :: rest) hw'
            (show rustIsWhitespace ']' = false by decide)]
        rw [dispatch_struct ((((D ++ ws) ++ ['[']) ++ u) ++ w') rest ']' Token.rightBracket (by decide)]
        have e2 : (((((D ++ ws) ++ ['[']) ++ u) ++ w') ++ [']'] : List Char)
            = (D ++ ws) ++ ('[' :: s ++ [']']) := by
          rw [hs]; simp
        rw [e2]
      exact ProducesTo.cons _ _ _ _ _ h1 (producesTo_append hprod (producesTo_single h2))
    · rw [tksVal_array (relems_ne_nil hel)]
      intro t ht
      rcases List.mem_cons.mp ht with h | h
      · subst h; simp
      · rcases List.mem_append.mp h with h2 | h2
        · exact hne t h2
        · simp at h2; subst h2; simp
  | _, _, RVal.objNil _ ws0 hws0, D, ws, rest, hws, hf => by
    constructor
    · rw [show tksVal (JsonValue.object [])
          = [Token.leftBrace, Token.rightBrace] by simp [tksVal]]
      have e1 : (('\x7b' :: ws0 ++ ['\x7d']) ++ rest : List Char)
          = '\x7b' :: (ws0 ++ ('\x7d' :: rest)) := by simp
      rw [e1]
      have h1 : (alignedLexer D (ws ++ ('\x7b' :: (ws0 ++ ('\x7d' :: rest))))).next_token
          = (Except.ok Token.leftBrace,
             alignedLexer ((D ++ ws) ++ ['\x7b']) (ws0 ++ ('\x7d' :: rest))) := by
        rw [next_token_pull D ws _ hws (wsStop_cons (show rustIsWhitespace '\x7b' = false by decide))]
        exact dispatch_struct (D ++ ws) (ws0 ++ ('\x7d' :: rest)) '\x7b' Token.leftBrace (by decide)
      have h2 : (alignedLexer ((D ++ ws) ++ ['\x7b']) (ws0 ++ ('\x7d' :: rest))).next_token
          = (Except.ok Token.rightBrace,
             alignedLexer ((D ++ ws) ++ ('\x7b' :: ws0 ++ ['\x7d'])) rest) := by
        rw [next_token_pull ((D ++ ws) ++ ['\x7b']) ws0 ('\x7d' :: rest) hws0
            (show rustIsWhitespace '\x7d' = false by decide)]
        rw [dispatch_struct (((D ++ ws) ++ ['\x7b']) ++ ws0) rest '\x7d' Token.rightBrace (by decide)]
        have e2 : ((((D ++ ws) ++ ['\x7b']) ++ ws0) ++ ['\x7d'] : List Char)
            = (D ++ ws) ++ ('\x7b' :: ws0 ++ ['\x7d']) := by simp
        rw [e2]
      exact ProducesTo.cons _ _ _ _ _ h1 (producesTo_single h2)
    · intro t ht
      simp [tksVal] at ht
      rcases ht with h | h <;> subst h <;> simp
  | _, _, RVal.obj _ ps s hms, D, ws, rest, hws, hf => by
    obtain ⟨⟨u, w', hs, hw', hprod⟩, hne⟩ := lexMembs hms ((D ++ ws) ++ ['\x7b']) ('\x7d' :: rest)
        (follow_struct (by decide) (by decide) (by decide))
    constructor
    · rw [tksVal_object (rmembs_ne_nil hms)]
      have e1 : (('\x7b' :: s ++ ['\x7d']) ++ rest : List Char)
          = '\x7b' :: (s ++ ('\x7d' :: rest)) := by simp
      rw [e1]
      have h1 : (alignedLexer D (ws ++ ('\x7b' :: (s ++ ('\x7d' :: rest))))).next_token
          = (Except.ok Token.leftBrace,
             alignedLexer ((D ++ ws) ++ ['\x7b']) (s ++ ('\x7d' :: rest))) := by
        rw [next_token_pull D ws _ hws (wsStop_cons (show rustIsWhitespace '\x7b' = false by decide))]
        exact dispatch_struct (D ++ ws) (s ++ ('\x7d' :: rest)) '\x7b' Token.leftBrace (by decide)
      have h2 : (alignedLexer (((D ++ ws) ++ ['\x7b']) ++ u) (w' ++ ('\x7d' :: rest))).next_token
          = (Except.ok Token.rightBrace,
             alignedLexer ((D ++ ws) ++ ('\x7b' :: s ++ ['\x7d'])) rest) := by
        rw [next_token_pull (((D ++ ws) ++ ['\x7b']) ++ u) w' ('\x7d' :: rest) hw'
            (show rustIsWhitespace '\x7d' = false by decide)]
        rw [dispatch_struct ((((D ++ ws) ++ ['\x7b']) ++ u) ++ w') rest '\x7d' Token.rightBrace (by decide)]
        have e2 : (((((D ++ ws) ++ ['\x7b']) ++ u) ++ w') ++ ['\x7d'] : List Char)
            = (D ++ ws) ++ ('\x7b' :: s ++ ['\x7d']) := by
          rw [hs]; simp
        rw [e2]
      exact ProducesTo.cons _ _ _ _ _ h1 (producesTo_append hprod (producesTo_single h2))
    · rw [tksVal_object (rmembs_ne_nil hms)]
      intro t ht
      rcases List.mem_cons.mp ht with h | h
      · subst h; simp
      · rcases List.mem_append.mp h with h2 | h2
        · exact hne t h2
        · simp at h2; subst h2; simp
termination_by v core d D ws rest hws hf => sizeOf d
decreasing_by
  all_goals simp_wf
  all_goals try rw [RVal.arr.sizeOf_spec]
  all_goals try rw [RVal.obj.sizeOf_spec]
  all_goals try rw [RElem.mk.sizeOf_spec]
  all_goals try rw [RElems.one.sizeOf_spec]
  all_goals try rw [RElems.cons.sizeOf_spec]
  all_goals try rw [RMemb.mk.sizeOf_spec]
  all_goals try rw [RMembs.one.sizeOf_spec]
  all_goals try rw [RMembs.cons.sizeOf_spec]
  all_goals omega

/-- Lexing an element (whitespace-padded value): some prefix of the text is
consumed producing the value tokens, leaving only trailing whitespace. -/
theorem lexElem : ∀ {v : JsonValue} {s : List Char}, RElem false v s →
    ∀ (D rest : List Char), Follow rest →
    (∃ u w', s = u ++ w' ∧ JWs w' ∧
      ProducesTo (alignedLexer D (s ++ rest)) (tksVal v)
        (alignedLexer (D ++ u) (w' ++ rest))) ∧
    (∀ t ∈ tksVal v, t ≠ Token.eof)
  | _, _, RElem.mk _ v w1 core w2 hw1 hval hw2, D, rest, hf => by
    obtain ⟨hprod, hne⟩ := lexVal hval D w1 (w2 ++ rest) hw1 (follow_ws_pad hw2 hf)
    refine ⟨⟨w1 ++ core, w2, rfl, hw2, ?_⟩, hne⟩
    have e1 : ((w1 ++ core ++ w2) ++ rest : List Char)
        = w1 ++ (core ++ (w2 ++ rest)) := by simp
    have e2 : (D ++ (w1 ++ core) : List Char) = (D ++ w1) ++ core := by simp
    rw [e1, e2]
    exact hprod
termination_by v s d D rest hf => sizeOf d
decreasing_by
  all_goals simp_wf
  all_goals try rw [RVal.arr.sizeOf_spec]
  all_goals try rw [RVal.obj.sizeOf_spec]
  all_goals try rw [RElem.mk.sizeOf_spec]
  all_goals try rw [RElems.one.sizeOf_spec]
  all_goals try rw [RElems.cons.sizeOf_spec]
  all_goals try rw [RMemb.mk.sizeOf_spec]
  all_goals try rw [RMembs.one.sizeOf_spec]
  all_goals try rw [RMembs.cons.sizeOf_spec]
  all_goals omega

/-- Lexing a nonempty element list. -/
theorem lexElems : ∀ {vs : List JsonValue} {s : List Char}, RElems false vs s →
    ∀ (D rest : List Char), Follow rest →
    (∃ u w', s = u ++ w' ∧ JWs w' ∧
      ProducesTo (alignedLexer D (s ++ rest)) (tksList vs)
        (alignedLexer (D ++ u) (w' ++ rest))) ∧
    (∀ t ∈ tksList vs, t ≠ Token.eof)
  | _, _, RElems.one _ v s d, D, rest, hf => by
    obtain ⟨⟨u, w', hs, hw', hprod⟩, hne⟩ := lexElem d D rest hf
    exact ⟨⟨u, w', hs, hw', by rw [tksList_one]; exact hprod⟩,
      by rw [tksList_one]; exact hne⟩
  | _, _, RElems.cons _ v s vs ss dm dms, D, rest, hf => by
    obtain ⟨⟨u1, w1, hs1, hw1, hprod1⟩, hne1⟩ := lexElem dm D (',' :: (ss ++ rest))
        (follow_struct (by decide) (by decide) (by decide))
    obtain ⟨⟨u2, w2, hs2, hw2, hprod2⟩, hne2⟩ := lexElems dms (((D ++ u1) ++ w1) ++ [',']) rest hf
    have stepc : (alignedLexer (D ++ u1) (w1 ++ (',' :: (ss ++ rest)))).next_token
        = (Except.ok Token.comma,
           alignedLexer (((D ++ u1) ++ w1) ++ [',']) (ss ++ rest)) := by
      rw [next_token_pull (D ++ u1) w1 (',' :: (ss ++ rest)) hw1
          (show rustIsWhitespace ',' = false by decide)]
      exact dispatch_struct ((D ++ u1) ++ w1) (ss ++ rest) ',' Token.comma (by decide)
    have e3 : ((((D ++ u1) ++ w1) ++ [',']) ++ u2 : List Char)
        = D ++ (u1 ++ w1 ++ ',' :: u2) := by simp
    rw [e3] at hprod2
    refine ⟨⟨u1 ++ w1 ++ ',' :: u2, w2, ?_, hw2, ?_⟩, ?_⟩
    · rw [hs1, hs2]; simp
    · rw [tksList_cons v (relems_ne_nil dms)]
      have e0 : ((s ++ ',' :: ss) ++ rest : List Char) = s ++ (',' :: (ss ++ rest)) := by simp
      rw [e0]
      exact producesTo_append hprod1 (ProducesTo.cons _ _ _ _ _ stepc hprod2)
    · rw [tksList_cons v (relems_ne_nil dms)]
      intro t ht
      rcases List.mem_append.mp ht with h | h
      · exact hne1 t h
      · rcases List.mem_cons.mp h with h2 | h2
        · subst h2; simp
        · exact hne2 t h2
termination_by vs s d D rest hf => sizeOf d
decreasing_by
  all_goals simp_wf
  all_goals try rw [RVal.arr.sizeOf_spec]
  all_goals try rw [RVal.obj.sizeOf_spec]
  all_goals try rw [RElem.mk.sizeOf_spec]
  all_goals try rw [RElems.one.sizeOf_spec]
  all_goals try rw [RElems.cons.sizeOf_spec]
  all_goals try rw [RMemb.mk.sizeOf_spec]
  all_goals try rw [RMembs.one.sizeOf_spec]
  all_goals try rw [RMembs.cons.sizeOf_spec]
  all_goals omega

/-- Lexing an object member: key string, colon, element. -/
theorem lexMemb : ∀ {k : List Char} {v : JsonValue} {s : List Char},
    RMemb false k v s → ∀ (D rest : List Char), Follow rest →
    (∃ u w', s = u ++ w' ∧ JWs w' ∧
      ProducesTo (alignedLexer D (s ++ rest))
        (Token.tstring k :: Token.colon :: tksVal v)
        (alignedLexer (D ++ u) (w' ++ rest))) ∧
    (∀ t ∈ Token.tstring k :: Token.colon :: tksVal v, t ≠ Token.eof)
  | _, _, _, RMemb.mk _ k v w1 kraw w2 es hw1 hkey hw2 helem, D, rest, hf => by
    obtain ⟨⟨u3, w3, hs3, hw3, hprod3⟩, hne3⟩ := lexElem helem
        (((((D ++ w1) ++ ['"']) ++ kraw ++ ['"']) ++ w2) ++ [':']) rest hf
    have step1 : (alignedLexer D (w1 ++ ('"' :: (kraw ++ '"' :: (w2 ++ (':' :: (es ++ rest))))))).next_token
        = (Except.ok (Token.tstring k),
           alignedLexer (((D ++ w1) ++ ['"']) ++ kraw ++ ['"']) (w2 ++ (':' :: (es ++ rest)))) := by
      rw [next_token_pull D w1 _ hw1 (wsStop_cons (show rustIsWhitespace '"' = false by decide))]
      exact dispatch_string (D ++ w1) kraw (w2 ++ (':' :: (es ++ rest))) k (strBody_scanEsc hkey)
    have step2 : (alignedLexer (((D ++ w1) ++ ['"']) ++ kraw ++ ['"']) (w2 ++ (':' :: (es ++ rest)))).next_token
        = (Except.ok Token.colon,
           alignedLexer (((((D ++ w1) ++ ['"']) ++ kraw ++ ['"']) ++ w2) ++ [':']) (es ++ rest)) := by
      rw [next_token_pull ((((D ++ w1) ++ ['"']) ++ kraw ++ ['"'])) w2 (':' :: (es ++ rest)) hw2
          (show rustIsWhitespace ':' = false by decide)]
      exact dispatch_struct ((((D ++ w1) ++ ['"']) ++ kraw ++ ['"']) ++ w2) (es ++ rest) ':' Token.colon (by decide)
    have e3 : ((((((D ++ w1) ++ ['"']) ++ kraw ++ ['"']) ++ w2) ++ [':']) ++ u3 : List Char)
        = D ++ (w1 ++ '"' :: kraw ++ '"' :: w2 ++ ':' :: u3) := by simp
    rw [e3] at hprod3
    refine ⟨⟨w1 ++ '"' :: kraw ++ '"' :: w2 ++ ':' :: u3, w3, ?_, hw3, ?_⟩, ?_⟩
    · rw [hs3]; simp
    · have e1 : ((w1 ++ '"' :: kraw ++ '"' :: w2 ++ ':' :: es) ++ rest : List Char)
          = w1 ++ ('"' :: (kraw ++ '"' :: (w2 ++ (':' :: (es ++ rest))))) := by simp
      rw [e1]
      exact ProducesTo.cons _ _ _ _ _ step1 (ProducesTo.cons _ _ _ _ _ step2 hprod3)
    · intro t ht
      rcases List.mem_cons.mp ht with h | h
      · subst h; simp
      · rcases List.mem_cons.mp h with h2 | h2
        · subst h2; simp
        · exact hne3 t h2
termination_by k v s d D rest hf => sizeOf d
decreasing_by
  all_goals simp_wf
  all_goals try rw [RVal.arr.sizeOf_spec]
  all_goals try rw [RVal.obj.sizeOf_spec]
  all_goals try rw [RElem.mk.sizeOf_spec]
  all_goals try rw [RElems.one.sizeOf_spec]
  all_goals try rw [RElems.cons.sizeOf_spec]
  all_goals try rw [RMemb.mk.sizeOf_spec]
  all_goals try rw [RMembs.one.sizeOf_spec]
  all_goals try rw [RMembs.cons.sizeOf_spec]
  all_goals omega

/-- Lexing a nonempty member list. -/
theorem lexMembs : ∀ {ps : List (List Char × JsonValue)} {s : List Char},
    RMembs false ps s → ∀ (D rest : List Char), Follow rest →
    (∃ u w', s = u ++ w' ∧ JWs w' ∧
      ProducesTo (alignedLexer D (s ++ rest)) (tksPairs ps)
        (alignedLexer (D ++ u) (w' ++ rest))) ∧
    (∀ t ∈ tksPairs ps, t ≠ Token.eof)
  | _, _, RMembs.one _ k v s d, D, rest, hf => by
    obtain ⟨⟨u, w', hs, hw', hprod⟩, hne⟩ := lexMemb d D rest hf
    exact ⟨⟨u, w', hs, hw', by rw [tksPairs_one]; exact hprod⟩,
      by rw [tksPairs_one]; exact hne⟩
  | _, _, RMembs.cons _ k v s ps ss dm dms, D, rest, hf => by
    obtain ⟨⟨u1, w1, hs1, hw1, hprod1⟩, hne1⟩ := lexMemb dm D (',' :: (ss ++ rest))
        (follow_struct (by decide) (by decide) (by decide))
    obtain ⟨⟨u2, w2, hs2, hw2, hprod2⟩, hne2⟩ := lexMembs dms (((D ++ u1) ++ w1) ++ [',']) rest hf
    have stepc : (alignedLexer (D ++ u1) (w1 ++ (',' :: (ss ++ rest)))).next_token
        = (Except.ok Token.comma,
           alignedLexer (((D ++ u1) ++ w1) ++ [',']) (ss ++ rest)) := by
      rw [next_token_pull (D ++ u1) w1 (',' :: (ss ++ rest)) hw1
          (show rustIsWhitespace ',' = false by decide)]
      exact dispatch_struct ((D ++ u1) ++ w1) (ss ++ rest) ',' Token.comma (by decide)
    have e3 : ((((D ++ u1) ++ w1) ++ [',']) ++ u2 : List Char)
        = D ++ (u1 ++ w1 ++ ',' :: u2) := by simp
    rw [e3] at hprod2
    refine ⟨⟨u1 ++ w1 ++ ',' :: u2, w2, ?_, hw2, ?_⟩, ?_⟩
    · rw [hs1, hs2]; simp
    · rw [tksPairs_cons k v (rmembs_ne_nil dms)]
      have e0 : ((s ++ ',' :: ss) ++ rest : List Char) = s ++ (',' :: (ss ++ rest)) := by simp
      rw [e0]
      exact producesTo_append hprod1 (ProducesTo.cons _ _ _ _ _ stepc hprod2)
    · rw [tksPairs_cons k v (rmembs_ne_nil dms)]
      intro t ht
      rcases List.mem_append.mp ht with h | h
      · exact hne1 t h
      · rcases List.mem_cons.mp h with h2 | h2
        · subst h2; simp
        · exact hne2 t h2
termination_by ps s d D rest hf => sizeOf d
decreasing_by
  all_goals simp_wf
  all_goals try rw [RVal.arr.sizeOf_spec]
  all_goals try rw [RVal.obj.sizeOf_spec]
  all_goals try rw [RElem.mk.sizeOf_spec]
  all_goals try rw [RElems.one.sizeOf_spec]
  all_goals try rw [RElems.cons.sizeOf_spec]
  all_goals try rw [RMemb.mk.sizeOf_spec]
  all_goals try rw [RMembs.one.sizeOf_spec]
  all_goals try rw [RMembs.cons.sizeOf_spec]
  all_goals omega

end

theorem advance_input (l : Lexer) : l.advance.input = l.input := by
  unfold Lexer.advance
  split <;> rfl

theorem skipWsF_input : ∀ (n : Nat) (l : Lexer), (skipWsF n l).input = l.input := by
  intro n
  induction n with
  | zero => intro l; rfl
  | succ n ih =>
    intro l
    unfold skipWsF
    cases l.current_char with
    | none => rfl
    | some c =>
      dsimp only
      split
      · rw [ih l.advance, advance_input]
      · rfl

theorem skip_whitespace_input (l : Lexer) : l.skip_whitespace.input = l.input :=
  skipWsF_input (lexMeasure l) l

theorem readStrF_input : ∀ (n : Nat) (l : Lexer) (acc : List Char) (esc : Bool)
    (st : Nat), ((readStrF n l acc esc st).2).input = l.input := by
  intro n
  induction n with
  | zero => intro l acc esc st; rfl
  | succ n ih =>
    intro l acc esc st
    unfold readStrF
    cases l.current_char with
    | none => rfl
    | some ch =>
      dsimp only
      split
      · cases he : escDecode ch with
        | none => rfl
        | some d => rw [ih, advance_input]
      · split
        · rw [ih, advance_input]
        · split
          · exact advance_input l
          · rw [ih, advance_input]

theorem read_string_input (l : Lexer) : ((l.read_string).2).input = l.input := by
  unfold Lexer.read_string
  rw [readStrF_input, advance_input]

theorem readNumLoop1F_input : ∀ (n : Nat) (l : Lexer) (acc : List Char)
    (hd : Bool), ((readNumLoop1F n l acc hd).2.2).input = l.input := by
  intro n
  induction n with
  | zero => intro l acc hd; rfl
  | succ n ih =>
    intro l acc hd
    unfold readNumLoop1F
    cases l.current_char with
    | none => rfl
    | some ch =>
      dsimp only
      split
      · rw [ih, advance_input]
      · split
        · rw [ih, advance_input]
        · rfl

theorem readNumLoop2F_input : ∀ (n : Nat) (l : Lexer) (acc : List Char),
    ((readNumLoop2F n l acc).2).input = l.input := by
  intro n
  induction n with
  | zero => intro l acc; rfl
  | succ n ih =>
    intro l acc
    unfold readNumLoop2F
    cases l.current_char with
    | none => rfl
    | some ch =>
      dsimp only
      split
      · rw [ih, advance_input]
      · rfl

theorem readKwF_input : ∀ (n : Nat) (l : Lexer) (acc : List Char),
    ((readKwF n l acc).2).input = l.input := by
  intro n
  induction n with
  | zero => intro l acc; rfl
  | succ n ih =>
    intro l acc
    unfold readKwF
    cases l.current_char with
    | none => rfl
    | some ch =>
      dsimp only
      split
      · rw [ih, advance_input]
      · rfl

theorem read_number_input (l : Lexer) : ((l.read_number).2).input = l.input := by
  unfold Lexer.read_number
  rcases h0 : (if l.current_char = some '-' then (['-'], l.advance)
      else (([] : List Char), l)) with ⟨acc₀, l₀⟩
  have hl0 : l₀.input = l.input := by
    split at h0 <;> (cases h0; first | exact advance_input l | rfl)
  dsimp only
  rcases h1 : readNumLoop1F (lexMeasure l₀) l₀ acc₀ false with ⟨acc₁, hasDot, l₁⟩
  have hl1 : l₁.input = l₀.input := by
    have h := readNumLoop1F_input (lexMeasure l₀) l₀ acc₀ false
    rw [h1] at h
    exact h
  dsimp only
  rcases h2 : (if hasDot = true then readNumLoop2F (lexMeasure l₁) l₁ acc₁
      else (acc₁, l₁)) with ⟨acc₂, l₂⟩
  have hl2 : l₂.input = l₁.input := by
    split at h2
    · have h := readNumLoop2F_input (lexMeasure l₁) l₁ acc₁
      rw [h2] at h
      exact h
    · cases h2
      rfl
  dsimp only
  split <;> (rw [hl2, hl1, hl0])

theorem read_keyword_input (l : Lexer) : ((l.read_keyword).2).input = l.input := by
  unfold Lexer.read_keyword
  rcases hkw : readKwF (lexMeasure l) l [] with ⟨kw, l'⟩
  have h2 : l'.input = l.input := by
    have h := readKwF_input (lexMeasure l) l []
    rw [hkw] at h
    exact h
  dsimp only
  split_ifs <;> exact h2

theorem nextTokenDispatch_input (l : Lexer) :
    ((nextTokenDispatch l).2).input = l.input := by
  unfold nextTokenDispatch
  cases l.current_char with
  | none => rfl
  | some c =>
    dsimp only
    split_ifs <;>
      first
        | exact advance_input l
        | exact read_string_input l
        | exact read_number_input l
        | exact read_keyword_input l
        | rfl

theorem next_token_input (l : Lexer) : ((l.next_token).2).input = l.input := by
  rw [next_token_eq_dispatch]
  rw [nextTokenDispatch_input, skip_whitespace_input]

theorem producesTo_input {l l' : Lexer} {ts : List Token}
    (h : ProducesTo l ts l') : l'.input = l.input := by
  induction h with
  | nil => rfl
  | cons l l₁ l₂ t ts hstep _ ih =>
    rw [ih]
    have : ((l.next_token).2).input = l.input := next_token_input l
    rw [hstep] at this
    exact this

theorem new_input (input : List Char) : (Lexer.new input).input = input :=
  advance_input _

theorem lexToks_ne_eof {l : Lexer} {ts : List Token} (h : LexToks l ts) :
    ∀ t ∈ ts, t ≠ Token.eof := by
  induction h with
  | nil => simp
  | cons l l₁ t ts hne hstep hrest ih =>
    intro x hx
    rcases List.mem_cons.mp hx with h1 | h1
    · subst h1; exact hne
    · exact ih x h1

theorem lexToks_of_producesTo : ∀ {l l' : Lexer} {ts : List Token},
    ProducesTo l ts l' → (∀ t ∈ ts, t ≠ Token.eof) →
    (∃ l'', l'.next_token = (Except.ok Token.eof, l'')) → LexToks l ts := by
  intro l l' ts h
  induction h with
  | nil l =>
    intro hne he
    obtain ⟨l'', h2⟩ := he
    exact LexToks.nil l l'' h2
  | cons l l₁ l₂ t ts hstep hrest ih =>
    intro hne he
    exact LexToks.cons l l₁ t ts (hne t (by simp)) hstep
      (ih (fun u hu => hne u (List.mem_cons_of_mem _ hu)) he)

theorem PState_current {p : Parser} {t : Token} {pend : List Token}
    (h : PState p (t :: pend)) : p.current_token = t := by
  obtain ⟨hne, hm⟩ := h
  cases pend with
  | nil => exact hm.1
  | cons u ts => exact hm.1

theorem PState_advanceP {p : Parser} {t : Token} {pend : List Token}
    (h : PState p (t :: pend)) : PState p.advanceP pend := by
  obtain ⟨hne, hm⟩ := h
  cases pend with
  | nil =>
    obtain ⟨hc, hp⟩ := hm
    unfold Parser.advanceP
    simp only [hp]
    exact ⟨by simp, rfl, rfl⟩
  | cons u ts =>
    obtain ⟨hc, hp, hlx⟩ := hm
    have hu : u ≠ Token.eof := hne u (List.mem_cons_of_mem _ (by simp))
    unfold Parser.advanceP
    simp only [hp]
    rw [if_neg hu]
    cases hlx with
    | nil l l' hstep =>
      rw [hstep]
      exact ⟨fun x hx => hne x (List.mem_cons_of_mem _ hx), rfl, rfl⟩
    | cons l l₁ t' ts' hne' hstep hrest =>
      rw [hstep]
      exact ⟨fun x hx => hne x (List.mem_cons_of_mem _ hx), rfl, rfl, hrest⟩

theorem Parser_new_PState {input : List Char} {ts : List Token}
    (h : LexToks (Lexer.new input) ts) :
    ∃ p : Parser, Parser.new input = Except.ok p ∧ PState p ts ∧
      p.lexer.input = input := by
  cases h with
  | nil l l' hstep =>
    refine ⟨⟨l', Token.eof, Token.eof⟩, ?_, ⟨by simp, rfl, rfl⟩, ?_⟩
    · unfold Parser.new
      simp only [hstep]
      rw [if_pos trivial]
    · have h2 := next_token_input (Lexer.new input)
      rw [hstep] at h2
      exact h2.trans (new_input input)
  | cons l l₁ t ts' hnet hstep hrest =>
    cases hrest with
    | nil l₁x l₂ hstep2 =>
      refine ⟨⟨l₂, t, Token.eof⟩, ?_, ⟨?_, rfl, rfl⟩, ?_⟩
      · unfold Parser.new
        simp only [hstep]
        rw [if_neg hnet]
        simp only [hstep2]
      · intro x hx
        rcases List.mem_cons.mp hx with h1 | h1
        · subst h1; exact hnet
        · simp at h1
      · have ha := next_token_input (Lexer.new input)
        rw [hstep] at ha
        have hb := next_token_input l₁
        rw [hstep2] at hb
        exact hb.trans (ha.trans (new_input input))
    | cons l₁x l₂ u ts'' hneu hstep2 hrest2 =>
      refine ⟨⟨l₂, t, u⟩, ?_, ⟨?_, rfl, rfl, hrest2⟩, ?_⟩
      · unfold Parser.new
        simp only [hstep]
        rw [if_neg hnet]
        simp only [hstep2]
      · intro x hx
        rcases List.mem_cons.mp hx with h1 | h1
        · subst h1; exact hnet
        · rcases List.mem_cons.mp h1 with h2 | h2
          · subst h2; exact hneu
          · exact lexToks_ne_eof hrest2 x h2
      · have ha := next_token_input (Lexer.new input)
        rw [hstep] at ha
        have hb := next_token_input l₁
        rw [hstep2] at hb
        exact hb.trans (ha.trans (new_input input))

theorem expect_token_ok {p : Parser} {t e : Token} (h : p.current_token = t)
    (hk : t.kindIdx = e.kindIdx) : p.expect_token e = Except.ok p.advanceP := by
  unfold Parser.expect_token
  rw [h, hk, if_pos rfl]

theorem tksVal_head_ne (v : JsonValue) : ∃ t ts, tksVal v = t :: ts ∧
    t ≠ Token.rightBracket ∧ t ≠ Token.rightBrace := by
  cases v with
  | null => exact ⟨Token.null, [], by simp [tksVal], by simp, by simp⟩
  | boolean b => exact ⟨Token.boolean b, [], by simp [tksVal], by simp, by simp⟩
  | number q => exact ⟨Token.number q, [], by simp [tksVal], by simp, by simp⟩
  | string s => exact ⟨Token.tstring s, [], by simp [tksVal], by simp, by simp⟩
  | array vs =>
    cases vs with
    | nil =>
      exact ⟨Token.leftBracket, [Token.rightBracket], by simp [tksVal], by simp, by simp⟩
    | cons v vs' =>
      exact ⟨Token.leftBracket, tksList (v :: vs') ++ [Token.rightBracket],
        tksVal_array (by simp), by simp, by simp⟩
  | object ps =>
    cases ps with
    | nil =>
      exact ⟨Token.leftBrace, [Token.rightBrace], by simp [tksVal], by simp, by simp⟩
    | cons kv ps' =>
      exact ⟨Token.leftBrace, tksPairs (kv :: ps') ++ [Token.rightBrace],
        tksVal_object (by simp), by simp, by simp⟩

theorem tksElems_head (v : JsonValue) (vs : List JsonValue) :
    ∃ E, tksElems v vs = tksVal v ++ E := by
  cases vs with
  | nil => exact ⟨[], by simp [tksElems]⟩
  | cons v' vs' => exact ⟨Token.comma :: tksList (v' :: vs'), tksElems_eq (by simp)⟩

theorem tksMembs_head (k : List Char) (v : JsonValue)
    (ps : List (List Char × JsonValue)) :
    ∃ E, tksMembs (k, v) ps = Token.tstring k :: Token.colon :: (tksVal v ++ E) := by
  cases ps with
  | nil => exact ⟨[], by simpa using tksMembs_one (k, v)⟩
  | cons kv' ps' =>
    refine ⟨Token.comma :: tksPairs (kv' :: ps'), ?_⟩
    have h := @tksMembs_eq (k, v) (kv' :: ps') (by simp)
    simpa using h

theorem vFuel_pos (v : JsonValue) : 1 ≤ vFuel v := by
  cases v with
  | array vs => cases vs <;> simp [vFuel] <;> omega
  | object ps => cases ps <;> simp [vFuel] <;> omega
  | null => simp [vFuel]
  | boolean b => simp [vFuel]
  | number q => simp [vFuel]
  | string s => simp [vFuel]

mutual

/-- Running `parse_value` against a parser whose pending tokens begin with
the token sequence of `v` returns exactly `v` and consumes exactly those
tokens. -/
theorem L_val : ∀ (v : JsonValue) (n : Nat), vFuel v ≤ n →
    ∀ (p : Parser) (rest : List Token), PState p (tksVal v ++ rest) →
    ∃ p', parseValueF n p = Except.ok (v, p') ∧ PState p' rest
  | JsonValue.null, n, hn, p, rest, hp => by
    rw [show tksVal JsonValue.null = [Token.null] by simp [tksVal],
      List.singleton_append] at hp
    have h1 : 1 ≤ n := le_trans (vFuel_pos _) hn
    obtain ⟨m, rfl⟩ : ∃ m, n = m + 1 := ⟨n - 1, by omega⟩
    refine ⟨p.advanceP, ?_, PState_advanceP hp⟩
    unfold parseValueF
    rw [PState_current hp]
  | JsonValue.boolean b, n, hn, p, rest, hp => by
    rw [show tksVal (JsonValue.boolean b) = [Token.boolean b] by simp [tksVal],
      List.singleton_append] at hp
    have h1 : 1 ≤ n := le_trans (vFuel_pos _) hn
    obtain ⟨m, rfl⟩ : ∃ m, n = m + 1 := ⟨n - 1, by omega⟩
    refine ⟨p.advanceP, ?_, PState_advanceP hp⟩
    unfold parseValueF
    rw [PState_current hp]
  | JsonValue.number q, n, hn, p, rest, hp => by
    rw [show tksVal (JsonValue.number q) = [Token.number q] by simp [tksVal],
      List.singleton_append] at hp
    have h1 : 1 ≤ n := le_trans (vFuel_pos _) hn
    obtain ⟨m, rfl⟩ : ∃ m, n = m + 1 := ⟨n - 1, by omega⟩
    refine ⟨p.advanceP, ?_, PState_advanceP hp⟩
    unfold parseValueF
    rw [PState_current hp]
  | JsonValue.string s, n, hn, p, rest, hp => by
    rw [show tksVal (JsonValue.string s) = [Token.tstring s] by simp [tksVal],
      List.singleton_append] at hp
    have h1 : 1 ≤ n := le_trans (vFuel_pos _) hn
    obtain ⟨m, rfl⟩ : ∃ m, n = m + 1 := ⟨n - 1, by omega⟩
    refine ⟨p.advanceP, ?_, PState_advanceP hp⟩
    unfold parseValueF
    rw [PState_current hp]
  | JsonValue.array [], n, hn, p, rest, hp => by
      rw [show tksVal (JsonValue.array [])
          = [Token.leftBracket, Token.rightBracket] by simp [tksVal]] at hp
      simp only [List.cons_append, List.nil_append] at hp
      have h1 : 2 ≤ n := le_trans (by simp [vFuel]) hn
      obtain ⟨m, rfl⟩ : ∃ m, n = m + 2 := ⟨n - 2, by omega⟩
      have hp1 : PState p.advanceP (Token.rightBracket :: rest) := PState_advanceP hp
      refine ⟨p.advanceP.advanceP, ?_, PState_advanceP hp1⟩
      unfold parseValueF
      rw [PState_current hp]
      dsimp only
      unfold parseArrayF
      rw [expect_token_ok (PState_current hp) rfl]
      dsimp only
      rw [PState_current hp1, if_pos rfl]
  | JsonValue.array (v :: vs'), n, hn, p, rest, hp => by
      rw [tksVal_array (by simp)] at hp
      simp only [List.cons_append] at hp
      have hf : 2 + elemsFuel v vs' ≤ n := by
        have e : vFuel (JsonValue.array (v :: vs')) = 2 + elemsFuel v vs' := by
          simp [vFuel]
        rw [e] at hn
        exact hn
      obtain ⟨m, rfl⟩ : ∃ m, n = m + 2 := ⟨n - 2, by omega⟩
      have hp1 : PState p.advanceP
          ((tksElems v vs' ++ [Token.rightBracket]) ++ rest) := by
        have h := PState_advanceP hp
        rw [show tksList (v :: vs') = tksElems v vs' from rfl] at h
        exact h
      obtain ⟨E, hE⟩ := tksElems_head v vs'
      obtain ⟨t0, ts0, ht0, hne1, hne2⟩ := tksVal_head_ne v
      have hp1' : PState p.advanceP
          (t0 :: (((ts0 ++ E) ++ [Token.rightBracket]) ++ rest)) := by
        have e : (tksElems v vs' ++ [Token.rightBracket]) ++ rest
            = t0 :: (((ts0 ++ E) ++ [Token.rightBracket]) ++ rest) := by
          rw [hE, ht0]; simp
        rw [e] at hp1
        exact hp1
      obtain ⟨p', hrun, hp'⟩ := L_arrloop v vs' m (by omega) p.advanceP rest [] hp1
      refine ⟨p', ?_, hp'⟩
      unfold parseValueF
      rw [PState_current hp]
      dsimp only
      unfold parseArrayF
      rw [expect_token_ok (PState_current hp) rfl]
      dsimp only
      rw [PState_current hp1', if_neg hne1]
      exact hrun
  | JsonValue.object [], n, hn, p, rest, hp => by
      rw [show tksVal (JsonValue.object [])
          = [Token.leftBrace, Token.rightBrace] by simp [tksVal]] at hp
      simp only [List.cons_append, List.nil_append] at hp
      have h1 : 2 ≤ n := le_trans (by simp [vFuel]) hn
      obtain ⟨m, rfl⟩ : ∃ m, n = m + 2 := ⟨n - 2, by omega⟩
      have hp1 : PState p.advanceP (Token.rightBrace :: rest) := PState_advanceP hp
      refine ⟨p.advanceP.advanceP, ?_, PState_advanceP hp1⟩
      unfold parseValueF
      rw [PState_current hp]
      dsimp only
      unfold parseObjectF
      rw [expect_token_ok (PState_current hp) rfl]
      dsimp only
      rw [PState_current hp1, if_pos rfl]
  | JsonValue.object ((k, v) :: ps'), n, hn, p, rest, hp => by
      rw [tksVal_object (by simp)] at hp
      simp only [List.cons_append] at hp
      have hf : 2 + membsFuel (k, v) ps' ≤ n := by
        have e : vFuel (JsonValue.object ((k, v) :: ps'))
            = 2 + membsFuel (k, v) ps' := by simp [vFuel]
        rw [e] at hn
        exact hn
      obtain ⟨m, rfl⟩ : ∃ m, n = m + 2 := ⟨n - 2, by omega⟩
      have hp1 : PState p.advanceP
          ((tksMembs (k, v) ps' ++ [Token.rightBrace]) ++ rest) := by
        have h := PState_advanceP hp
        rw [show tksPairs ((k, v) :: ps') = tksMembs (k, v) ps' from rfl] at h
        exact h
      obtain ⟨E, hE⟩ := tksMembs_head k v ps'
      have hp1' : PState p.advanceP
          (Token.tstring k ::
            ((Token.colon :: (tksVal v ++ E) ++ [Token.rightBrace]) ++ rest)) := by
        have e : (tksMembs (k, v) ps' ++ [Token.rightBrace]) ++ rest
            = Token.tstring k ::
              ((Token.colon :: (tksVal v ++ E) ++ [Token.rightBrace]) ++ rest) := by
          rw [hE]; simp
        rw [e] at hp1
        exact hp1
      obtain ⟨p', hrun, hp'⟩ := L_objloop k v ps' m (by omega) p.advanceP rest [] hp1
      refine ⟨p', ?_, hp'⟩
      unfold parseValueF
      rw [PState_current hp]
      dsimp only
      unfold parseObjectF
      rw [expect_token_ok (PState_current hp) rfl]
      dsimp only
      rw [PState_current hp1', if_neg (show Token.tstring k ≠ Token.rightBrace by simp)]
      exact hrun
termination_by v n hn p rest hp => sizeOf v
decreasing_by
  all_goals simp_wf
  all_goals try simp
  all_goals omega

/-- Running the array loop against the token sequence of a nonempty element
list, closed by `]`. -/
theorem L_arrloop : ∀ (v : JsonValue) (vs : List JsonValue) (n : Nat),
    elemsFuel v vs ≤ n → ∀ (p : Parser) (rest : List Token) (acc : List JsonValue),
    PState p ((tksElems v vs ++ [Token.rightBracket]) ++ rest) →
    ∃ p', parseArrLoopF n p acc
        = Except.ok (JsonValue.array (acc ++ v :: vs), p') ∧ PState p' rest
  | v, [], n, hn, p, rest, acc, hp => by
      have h1 : 1 ≤ n := by
        have hv := vFuel_pos v
        simp [elemsFuel] at hn
        omega
      obtain ⟨m, rfl⟩ : ∃ m, n = m + 1 := ⟨n - 1, by omega⟩
      rw [show tksElems v [] = tksVal v by simp [tksElems],
        List.append_assoc] at hp
      have hfv : vFuel v ≤ m := by simp [elemsFuel] at hn; omega
      obtain ⟨p₁, hrun, hp₁⟩ := L_val v m hfv p ([Token.rightBracket] ++ rest) hp
      rw [List.singleton_append] at hp₁
      refine ⟨p₁.advanceP, ?_, PState_advanceP hp₁⟩
      unfold parseArrLoopF
      rw [hrun]
      dsimp only
      rw [PState_current hp₁]
  | v, v' :: vs', n, hn, p, rest, acc, hp => by
      have h1 : 1 ≤ n := by
        have hv := vFuel_pos v
        simp [elemsFuel] at hn
        omega
      obtain ⟨m, rfl⟩ : ∃ m, n = m + 1 := ⟨n - 1, by omega⟩
      rw [tksElems_eq (by simp)] at hp
      have e1 : ((tksVal v ++ Token.comma :: tksList (v' :: vs'))
            ++ [Token.rightBracket]) ++ rest
          = tksVal v ++ (Token.comma ::
              ((tksElems v' vs' ++ [Token.rightBracket]) ++ rest)) := by
        rw [show tksList (v' :: vs') = tksElems v' vs' from rfl]
        simp
      rw [e1] at hp
      have hfv : vFuel v ≤ m := by simp [elemsFuel] at hn; omega
      have hfe : elemsFuel v' vs' ≤ m := by simp [elemsFuel] at hn; omega
      obtain ⟨p₁, hrun, hp₁⟩ := L_val v m hfv p _ hp
      have hp₂ : PState p₁.advanceP
          ((tksElems v' vs' ++ [Token.rightBracket]) ++ rest) :=
        PState_advanceP hp₁
      obtain ⟨E, hE⟩ := tksElems_head v' vs'
      obtain ⟨t0, ts0, ht0, hne1, hne2⟩ := tksVal_head_ne v'
      have hp₂' : PState p₁.advanceP
          (t0 :: (((ts0 ++ E) ++ [Token.rightBracket]) ++ rest)) := by
        have e : (tksElems v' vs' ++ [Token.rightBracket]) ++ rest
            = t0 :: (((ts0 ++ E) ++ [Token.rightBracket]) ++ rest) := by
          rw [hE, ht0]; simp
        rw [e] at hp₂
        exact hp₂
      obtain ⟨p', hrun2, hp'⟩ := L_arrloop v' vs' m hfe p₁.advanceP rest (acc ++ [v]) hp₂
      refine ⟨p', ?_, hp'⟩
      unfold parseArrLoopF
      rw [hrun]
      dsimp only
      rw [PState_current hp₁]
      dsimp only
      rw [PState_current hp₂', if_neg hne1]
      have e3 : (acc ++ [v]) ++ v' :: vs' = acc ++ v :: v' :: vs' := by simp
      rw [e3] at hrun2
      exact hrun2
termination_by v vs n hn p rest acc hp => 1 + sizeOf v + sizeOf vs
decreasing_by
  all_goals simp_wf
  all_goals try simp
  all_goals omega

/-- Running the object loop against the token sequence of a nonempty member
list, closed by a right brace. -/
theorem L_objloop : ∀ (k : List Char) (v : JsonValue)
    (ps : List (List Char × JsonValue)) (n : Nat),
    membsFuel (k, v) ps ≤ n → ∀ (p : Parser) (rest : List Token)
    (acc : List (List Char × JsonValue)),
    PState p ((tksMembs (k, v) ps ++ [Token.rightBrace]) ++ rest) →
    ∃ p', parseObjLoopF n p acc
        = Except.ok (JsonValue.object (acc ++ (k, v) :: ps), p') ∧ PState p' rest
  | k, v, [], n, hn, p, rest, acc, hp => by
      have h1 : 1 ≤ n := by
        have hv := vFuel_pos v
        simp [membsFuel] at hn
        omega
      obtain ⟨m, rfl⟩ : ∃ m, n = m + 1 := ⟨n - 1, by omega⟩
      have e0 : tksMembs (k, v) []
          = Token.tstring k :: Token.colon :: tksVal v := tksMembs_one (k, v)
      rw [e0] at hp
      have e1 : ((Token.tstring k :: Token.colon :: tksVal v)
            ++ [Token.rightBrace]) ++ rest
          = Token.tstring k :: (Token.colon ::
              ((tksVal v ++ [Token.rightBrace]) ++ rest)) := by simp
      rw [e1] at hp
      have hp₂ : PState p.advanceP
          (Token.colon :: ((tksVal v ++ [Token.rightBrace]) ++ rest)) :=
        PState_advanceP hp
      have hp₃ : PState p.advanceP.advanceP
          ((tksVal v ++ [Token.rightBrace]) ++ rest) := PState_advanceP hp₂
      rw [List.append_assoc] at hp₃
      have hfv : vFuel v ≤ m := by simp [membsFuel] at hn; omega
      obtain ⟨p₄, hrun, hp₄⟩ := L_val v m hfv _ _ hp₃
      rw [List.singleton_append] at hp₄
      refine ⟨p₄.advanceP, ?_, PState_advanceP hp₄⟩
      unfold parseObjLoopF
      rw [PState_current hp]
      dsimp only
      rw [expect_token_ok (PState_current hp₂) rfl]
      dsimp only
      rw [hrun]
      dsimp only
      rw [PState_current hp₄]
  | k, v, (k', v') :: ps', n, hn, p, rest, acc, hp => by
      have h1 : 1 ≤ n := by
        have hv := vFuel_pos v
        simp [membsFuel] at hn
        omega
      obtain ⟨m, rfl⟩ : ∃ m, n = m + 1 := ⟨n - 1, by omega⟩
      have e0 : tksMembs (k, v) ((k', v') :: ps')
          = (Token.tstring k :: Token.colon :: tksVal v)
            ++ (Token.comma :: tksMembs (k', v') ps') := by
        have h := @tksMembs_eq (k, v) ((k', v') :: ps') (by simp)
        simpa [tksPairs] using h
      rw [e0] at hp
      have e1 : (((Token.tstring k :: Token.colon :: tksVal v)
            ++ (Token.comma :: tksMembs (k', v') ps')) ++ [Token.rightBrace]) ++ rest
          = Token.tstring k :: (Token.colon :: (tksVal v ++ (Token.comma ::
              ((tksMembs (k', v') ps' ++ [Token.rightBrace]) ++ rest)))) := by simp
      rw [e1] at hp
      have hp₂ := PState_advanceP hp
      have hp₃ := PState_advanceP hp₂
      have hfv : vFuel v ≤ m := by simp [membsFuel] at hn; omega
      have hfm : membsFuel (k', v') ps' ≤ m := by simp [membsFuel] at hn; omega
      obtain ⟨p₄, hrun, hp₄⟩ := L_val v m hfv _ _ hp₃
      have hp₅ : PState p₄.advanceP
          ((tksMembs (k', v') ps' ++ [Token.rightBrace]) ++ rest) :=
        PState_advanceP hp₄
      obtain ⟨E, hE⟩ := tksMembs_head k' v' ps'
      have hp₅' : PState p₄.advanceP
          (Token.tstring k' ::
            ((Token.colon :: (tksVal v' ++ E) ++ [Token.rightBrace]) ++ rest)) := by
        have e : (tksMembs (k', v') ps' ++ [Token.rightBrace]) ++ rest
            = Token.tstring k' ::
              ((Token.colon :: (tksVal v' ++ E) ++ [Token.rightBrace]) ++ rest) := by
          rw [hE]; simp
        rw [e] at hp₅
        exact hp₅
      obtain ⟨p'', hrun2, hp''⟩ :=
        L_objloop k' v' ps' m hfm p₄.advanceP rest (acc ++ [(k, v)]) hp₅
      refine ⟨p'', ?_, hp''⟩
      unfold parseObjLoopF
      rw [PState_current hp]
      dsimp only
      rw [expect_token_ok (PState_current hp₂) rfl]
      dsimp only
      rw [hrun]
      dsimp only
      rw [PState_current hp₄]
      dsimp only
      rw [PState_current hp₅',
        if_neg (show Token.tstring k' ≠ Token.rightBrace by simp)]
      have e3 : (acc ++ [(k, v)]) ++ (k', v') :: ps'
          = acc ++ (k, v) :: (k', v') :: ps' := by simp
      rw [e3] at hrun2
      exact hrun2
termination_by k v ps n hn p rest acc hp => 1 + sizeOf v + sizeOf ps
decreasing_by
  all_goals simp_wf
  all_goals try simp
  all_goals omega

end

mutual

/-- The fuel needed for a value is bounded by twice the length of its text. -/
theorem fuelVal : ∀ {v : JsonValue} {core : List Char}, RVal false v core →
    vFuel v + 1 ≤ 2 * core.length
  | _, _, RVal.null _ => by simp [vFuel]
  | _, _, RVal.btrue _ => by simp [vFuel]
  | _, _, RVal.bfalse _ => by simp [vFuel]
  | _, _, RVal.num _ neg ip fp h1 h2 h3 h4 h5 => by
    have hip : 1 ≤ ip.length := List.length_pos.mpr h1
    have hle : ip.length ≤ (numText neg ip fp).length := by
      unfold numText
      simp
      omega
    have e : vFuel (JsonValue.number (numVal neg ip fp)) = 1 := by simp [vFuel]
    omega
  | _, _, RVal.str _ payload raw hb => by
    have e : vFuel (JsonValue.string payload) = 1 := by simp [vFuel]
    have hl : ('"' :: raw ++ ['"']).length = raw.length + 2 := by simp
    omega
  | _, _, RVal.arrNil _ ws hws => by
    have e : vFuel (JsonValue.array []) = 2 := by simp [vFuel]
    have hl : ('[' :: ws ++ [']']).length = ws.length + 2 := by simp
    omega
  | _, _, RVal.arr _ vs s hel => by
    have h := fuelElems hel
    obtain ⟨v0, vs0, rfl⟩ : ∃ v0 vs0, vs = v0 :: vs0 := by
      cases vs with
      | nil => exact absurd rfl (relems_ne_nil hel)
      | cons a b => exact ⟨a, b, rfl⟩
    have e : vFuel (JsonValue.array (v0 :: vs0)) = 2 + elemsFuel v0 vs0 := by
      simp [vFuel]
    have e2 : listFuel (v0 :: vs0) = elemsFuel v0 vs0 := rfl
    have hl : ('[' :: s ++ [']']).length = s.length + 2 := by simp
    omega
  | _, _, RVal.objNil _ ws hws => by
    have e : vFuel (JsonValue.object []) = 2 := by simp [vFuel]
    have hl : ('\x7b' :: ws ++ ['\x7d']).length = ws.length + 2 := by simp
    omega
  | _, _, RVal.obj _ ps s hms => by
    have h := fuelMembs hms
    obtain ⟨k0, v0, ps0, rfl⟩ : ∃ k0 v0 ps0, ps = (k0, v0) :: ps0 := by
      cases ps with
      | nil => exact absurd rfl (rmembs_ne_nil hms)
      | cons a b =>
        obtain ⟨k0, v0⟩ := a
        exact ⟨k0, v0, b, rfl⟩
    have e : vFuel (JsonValue.object ((k0, v0) :: ps0))
        = 2 + membsFuel (k0, v0) ps0 := by simp [vFuel]
    have e2 : pairsFuel ((k0, v0) :: ps0) = membsFuel (k0, v0) ps0 := rfl
    have hl : ('\x7b' :: s ++ ['\x7d']).length = s.length + 2 := by simp
    omega
termination_by v core d => sizeOf d
decreasing_by
  all_goals simp_wf
  all_goals try rw [RVal.arr.sizeOf_spec]
  all_goals try rw [RVal.obj.sizeOf_spec]
  all_goals omega

/-- Element version of the fuel bound. -/
theorem fuelElem : ∀ {v : JsonValue} {s : List Char}, RElem false v s →
    vFuel v + 1 ≤ 2 * s.length
  | _, _, RElem.mk _ v w1 core w2 hw1 hval hw2 => by
    have h := fuelVal hval
    have hle : core.length ≤ (w1 ++ core ++ w2).length := by simp; omega
    omega
termination_by v s d => sizeOf d
decreasing_by
  all_goals simp_wf
  all_goals try rw [RElem.mk.sizeOf_spec]
  all_goals omega

/-- Member version of the fuel bound. -/
theorem fuelMemb : ∀ {k : List Char} {v : JsonValue} {s : List Char},
    RMemb false k v s → vFuel v + 2 ≤ 2 * s.length
  | _, _, _, RMemb.mk _ k v w1 kraw w2 es hw1 hkey hw2 helem => by
    have h := fuelElem helem
    have hl : (w1 ++ '"' :: kraw ++ '"' :: w2 ++ ':' :: es).length
        = w1.length + kraw.length + w2.length + es.length + 3 := by simp; omega
    omega
termination_by k v s d => sizeOf d
decreasing_by
  all_goals simp_wf
  all_goals try rw [RMemb.mk.sizeOf_spec]
  all_goals omega

/-- Element-list version of the fuel bound. -/
theorem fuelElems : ∀ {vs : List JsonValue} {s : List Char},
    RElems false vs s → listFuel vs ≤ 2 * s.length
  | _, _, RElems.one _ v s d => by
    have h := fuelElem d
    have e : listFuel [v] = 1 + vFuel v := by simp [listFuel, elemsFuel]
    omega
  | _, _, RElems.cons _ v s vs ss d ds => by
    have h1 := fuelElem d
    have h2 := fuelElems ds
    obtain ⟨v0, vs0, rfl⟩ : ∃ v0 vs0, vs = v0 :: vs0 := by
      cases vs with
      | nil => exact absurd rfl (relems_ne_nil ds)
      | cons a b => exact ⟨a, b, rfl⟩
    have e : listFuel (v :: v0 :: vs0) = 1 + vFuel v + elemsFuel v0 vs0 := by
      simp [listFuel, elemsFuel]
    have e2 : listFuel (v0 :: vs0) = elemsFuel v0 vs0 := rfl
    have hl : (s ++ ',' :: ss).length = s.length + 1 + ss.length := by simp; omega
    omega
termination_by vs s d => sizeOf d
decreasing_by
  all_goals simp_wf
  all_goals try rw [RElems.one.sizeOf_spec]
  all_goals try rw [RElems.cons.sizeOf_spec]
  all_goals omega

/-- Member-list version of the fuel bound. -/
theorem fuelMembs : ∀ {ps : List (List Char × JsonValue)} {s : List Char},
    RMembs false ps s → pairsFuel ps ≤ 2 * s.length
  | _, _, RMembs.one _ k v s d => by
    have h := fuelMemb d
    have e : pairsFuel [(k, v)] = 1 + vFuel v := by simp [pairsFuel, membsFuel]
    omega
  | _, _, RMembs.cons _ k v s ps ss d ds => by
    have h1 := fuelMemb d
    have h2 := fuelMembs ds
    obtain ⟨k0, v0, ps0, rfl⟩ : ∃ k0 v0 ps0, ps = (k0, v0) :: ps0 := by
      cases ps with
      | nil => exact absurd rfl (rmembs_ne_nil ds)
      | cons a b =>
        obtain ⟨k0, v0⟩ := a
        exact ⟨k0, v0, b, rfl⟩
    have e : pairsFuel ((k, v) :: (k0, v0) :: ps0)
        = 1 + vFuel v + membsFuel (k0, v0) ps0 := by simp [pairsFuel, membsFuel]
    have e2 : pairsFuel ((k0, v0) :: ps0) = membsFuel (k0, v0) ps0 := rfl
    have hl : (s ++ ',' :: ss).length = s.length + 1 + ss.length := by simp; omega
    omega
termination_by ps s d => sizeOf d
decreasing_by
  all_goals simp_wf
  all_goals try rw [RMembs.one.sizeOf_spec]
  all_goals try rw [RMembs.cons.sizeOf_spec]
  all_goals omega

end

/-- Parsing a whitespace-padded restricted JSON text yields exactly the
denoted value. -/
theorem parse_ok {v : JsonValue} {s : List Char} (d : RJson false v s) :
    parse_json s = Except.ok v := by
  obtain ⟨⟨u, w', hs, hw', hprod⟩, hne⟩ := lexElem d [] [] ⟨trivial, trivial⟩
  have heof : ∃ l'', (alignedLexer ([] ++ u) (w' ++ [])).next_token
      = (Except.ok Token.eof, l'') :=
    ⟨_, next_token_pull_eof ([] ++ u) w' hw'⟩
  have hlt : LexToks (alignedLexer [] (s ++ [])) (tksVal v) :=
    lexToks_of_producesTo hprod hne heof
  have hlt2 : LexToks (Lexer.new s) (tksVal v) := by
    rw [new_aligned s]
    rw [List.append_nil] at hlt
    exact hlt
  obtain ⟨p, hnew, hps, hinp⟩ := Parser_new_PState hlt2
  have hfuel : vFuel v ≤ parseFuel p.lexer.input := by
    have h1 := fuelElem d
    have h2 : s.length ≤ utf8Len s := length_le_utf8Len s
    rw [hinp]
    unfold parseFuel
    omega
  have hps' : PState p (tksVal v ++ []) := by
    rw [List.append_nil]
    exact hps
  obtain ⟨p', hrun, hp'⟩ := L_val v (parseFuel p.lexer.input) hfuel p [] hps'
  unfold parse_json
  rw [hnew]
  dsimp only
  unfold Parser.parse
  rw [hrun]
  dsimp only
  rw [show p'.current_token = Token.eof from hp'.2.1, if_pos rfl]

theorem toNat_digitChar (r : Nat) (h : r < 10) :
    (Char.ofNat (48 + r)).toNat = 48 + r := by
  interval_cases r <;> rfl

theorem isDigit_digitChar (r : Nat) (h : r < 10) :
    (Char.ofNat (48 + r)).isDigit = true := by
  interval_cases r <;> rfl

theorem digitChar_ne_zero (r : Nat) (h : r < 10) (h1 : 1 ≤ r) :
    Char.ofNat (48 + r) ≠ '0' := by
  interval_cases r <;> decide

theorem digitsToNat_snoc (a : List Char) (c : Char) :
    digitsToNat (a ++ [c]) = 10 * digitsToNat a + (c.toNat - 48) := by
  simp [digitsToNat, List.foldl_append]

theorem natDigitsAux_zero (f : Nat) : natDigitsAux f 0 = [] := by
  cases f <;> rfl

theorem natDigitsAux_spec : ∀ (fuel n : Nat), 1 ≤ n → n ≤ fuel →
    natDigitsAux fuel n ≠ [] ∧
    (∀ c ∈ natDigitsAux fuel n, c.isDigit = true) ∧
    digitsToNat (natDigitsAux fuel n) = n ∧
    (natDigitsAux fuel n).head? ≠ some '0' ∧
    (∀ e, n < 10 ^ e → (natDigitsAux fuel n).length ≤ e) := by
  intro fuel
  induction fuel with
  | zero => intro n h1 h2; omega
  | succ fuel ih =>
    intro n h1 h2
    obtain ⟨m, rfl⟩ : ∃ m, n = m + 1 := ⟨n - 1, by omega⟩
    have heq : natDigitsAux (fuel + 1) (m + 1)
        = natDigitsAux fuel ((m + 1) / 10) ++ [Char.ofNat (48 + (m + 1) % 10)] := by
      simp [natDigitsAux]
    have hmod : (m + 1) % 10 < 10 := Nat.mod_lt _ (by norm_num)
    by_cases hq : (m + 1) / 10 = 0
    · have hsmall : m + 1 < 10 := by omega
      have hmm : (m + 1) % 10 = m + 1 := Nat.mod_eq_of_lt hsmall
      rw [heq, hq, natDigitsAux_zero, List.nil_append]
      refine ⟨by simp, ?_, ?_, ?_, ?_⟩
      · intro c hc
        rw [List.mem_singleton] at hc
        subst hc
        exact isDigit_digitChar _ hmod
      · rw [show ([Char.ofNat (48 + (m + 1) % 10)] : List Char)
            = [] ++ [Char.ofNat (48 + (m + 1) % 10)] from rfl, digitsToNat_snoc]
        rw [toNat_digitChar _ hmod]
        show 10 * digitsToNat [] + (48 + (m + 1) % 10 - 48) = m + 1
        rw [show digitsToNat [] = 0 from rfl]
        omega
      · simp only [List.head?_cons]
        intro hcon
        have := Option.some.inj hcon
        exact digitChar_ne_zero _ hmod (by omega) this
      · intro e he
        have he1 : 1 ≤ e := by
          by_contra hc
          have : e = 0 := by omega
          subst this
          simp only [pow_zero] at he
          omega
        simp
        omega
    · have hq1 : 1 ≤ (m + 1) / 10 := by omega
      have hq2 : (m + 1) / 10 ≤ fuel := by
        have := Nat.div_lt_self (show 0 < m + 1 by omega) (show 1 < 10 by norm_num)
        omega
      obtain ⟨hne, hdig, hval, hhead, hlen⟩ := ih ((m + 1) / 10) hq1 hq2
      rw [heq]
      refine ⟨by simp, ?_, ?_, ?_, ?_⟩
      · intro c hc
        rcases List.mem_append.mp hc with h | h
        · exact hdig c h
        · rw [List.mem_singleton] at h
          subst h
          exact isDigit_digitChar _ hmod
      · rw [digitsToNat_snoc, hval, toNat_digitChar _ hmod]
        have := Nat.div_add_mod (m + 1) 10
        omega
      · obtain ⟨c0, cs0, hc0⟩ : ∃ c0 cs0, natDigitsAux fuel ((m + 1) / 10) = c0 :: cs0 := by
          cases hx : natDigitsAux fuel ((m + 1) / 10) with
          | nil => exact absurd hx hne
          | cons a b => exact ⟨a, b, rfl⟩
        rw [hc0]
        rw [hc0] at hhead
        simpa using hhead
      · intro e he
        have he1 : 1 ≤ e := by
          by_contra hc
          have : e = 0 := by omega
          subst this
          simp only [pow_zero] at he
          omega
        have hdiv : (m + 1) / 10 < 10 ^ (e - 1) := by
          have h10 : (10 : Nat) ^ e = 10 ^ (e - 1) * 10 := by
            rw [← pow_succ]
            congr 1
            omega
          rw [Nat.div_lt_iff_lt_mul (by norm_num)]
          omega
        have := hlen (e - 1) hdiv
        simp only [List.length_append, List.length_singleton]
        omega

theorem natToDigitChars_spec (n : Nat) :
    natToDigitChars n ≠ [] ∧
    (∀ c ∈ natToDigitChars n, c.isDigit = true) ∧
    digitsToNat (natToDigitChars n) = n ∧
    (2 ≤ (natToDigitChars n).length → (natToDigitChars n).head? ≠ some '0') ∧
    (∀ e, n < 10 ^ e → 1 ≤ e → (natToDigitChars n).length ≤ e) := by
  unfold natToDigitChars
  by_cases h : n = 0
  · subst h
    rw [if_pos rfl]
    refine ⟨by simp, ?_, rfl, by simp, ?_⟩
    · intro c hc
      rw [List.mem_singleton] at hc
      subst hc
      rfl
    · intro e he he1
      simp
      omega
  · rw [if_neg h]
    obtain ⟨h1, h2, h3, h4, h5⟩ := natDigitsAux_spec (n + 1) n (by omega) (by omega)
    exact ⟨h1, h2, h3, fun _ => h4, fun e he _ => h5 e he⟩

theorem digitsToNat_zeros_append (k : Nat) (ds : List Char) :
    digitsToNat (List.replicate k '0' ++ ds) = digitsToNat ds := by
  have hz : ∀ j, List.foldl (fun a c => 10 * a + (c.toNat - 48)) 0
      (List.replicate j '0') = 0 := by
    intro j
    induction j with
    | zero => rfl
    | succ j ih => rw [List.replicate_succ]; simpa using ih
  unfold digitsToNat
  rw [List.foldl_append, hz]

theorem padDigits_spec (w n : Nat) (hw : 1 ≤ w) (hn : n < 10 ^ w) :
    (padDigits w n).length = w ∧
    (∀ c ∈ padDigits w n, c.isDigit = true) ∧
    digitsToNat (padDigits w n) = n ∧
    padDigits w n ≠ [] := by
  obtain ⟨h1, h2, h3, h4, h5⟩ := natToDigitChars_spec n
  have hlen : (natToDigitChars n).length ≤ w := h5 w hn hw
  unfold padDigits
  refine ⟨?_, ?_, ?_, ?_⟩
  · simp
    omega
  · intro c hc
    rcases List.mem_append.mp hc with h | h
    · rw [List.eq_of_mem_replicate h]
      rfl
    · exact h2 c h
  · exact (digitsToNat_zeros_append _ _).trans h3
  · intro hcon
    rw [List.append_eq_nil] at hcon
    exact h1 hcon.2

theorem normCore_succ (n : Int) (e : Nat) :
    JNum.normCore n (e + 1)
      = if n % 10 = 0 then JNum.normCore (n / 10) e else ⟨n, e + 1⟩ := rfl

theorem normCore_idem : ∀ (e : Nat) (n : Int),
    JNum.normCore (JNum.normCore n e).num (JNum.normCore n e).exp
      = JNum.normCore n e := by
  intro e
  induction e with
  | zero => intro n; rfl
  | succ e ih =>
    intro n
    by_cases hmod : n % 10 = 0
    · rw [normCore_succ, if_pos hmod]
      exact ih (n / 10)
    · have e2 : JNum.normCore n (e + 1) = (⟨n, e + 1⟩ : JNum) := by
        rw [normCore_succ, if_neg hmod]
      rw [e2]
      exact e2

theorem i64clamp_eq {n : Int} (h1 : -(2 ^ 63) ≤ n) (h2 : n ≤ 2 ^ 63 - 1) :
    i64clamp n = n := by
  unfold i64clamp
  rw [max_eq_right, min_eq_right]
  · exact h2
  · rw [min_eq_right h2]
    exact h1

theorem strBody_good : ∀ {p r : List Char}, StrBody false p r →
    ∀ c ∈ p, GoodStrChar c
  | _, _, StrBody.nil _ => by simp
  | _, _, StrBody.raw _ c p r h1 h2 h3 hb => by
    intro x hx
    rcases List.mem_cons.mp hx with h | h
    · subst h
      exact Or.inl h3
    · exact strBody_good hb x h
  | _, _, StrBody.esc _ e d p r hd hb => by
    intro x hx
    rcases List.mem_cons.mp hx with h | h
    · subst h
      unfold escDecode at hd
      split_ifs at hd <;> cases hd
      · exact Or.inl (by decide)
      · exact Or.inl (by decide)
      · exact Or.inr (Or.inl rfl)
      · exact Or.inr (Or.inr (Or.inl rfl))
      · exact Or.inr (Or.inr (Or.inr rfl))
    · exact strBody_good hb x h
termination_by p r d => sizeOf d

mutual

/-- Values denoted by restricted JSON texts are re-renderable. -/
theorem derivGoodVal : ∀ {v : JsonValue} {core : List Char},
    RVal false v core → GoodVal v
  | _, _, RVal.null _ => by simp [GoodVal]
  | _, _, RVal.btrue _ => by simp [GoodVal]
  | _, _, RVal.bfalse _ => by simp [GoodVal]
  | _, _, RVal.num _ neg ip fp h1 h2 h3 h4 h5 => by
    simp only [GoodVal]
    constructor
    · show JNum.normCore (numVal neg ip fp).num (numVal neg ip fp).exp
        = numVal neg ip fp
      unfold numVal JNum.mk'
      exact normCore_idem _ _
    · exact h5 rfl
  | _, _, RVal.str _ payload raw hb => by
    simp only [GoodVal]
    exact strBody_good hb
  | _, _, RVal.arrNil _ ws hws => by simp [GoodVal, GoodVals]
  | _, _, RVal.arr _ vs s hel => by
    simp only [GoodVal]
    exact derivGoodElems hel
  | _, _, RVal.objNil _ ws hws => by simp [GoodVal, GoodPairs]
  | _, _, RVal.obj _ ps s hms => by
    simp only [GoodVal]
    exact derivGoodMembs hms
termination_by v core d => sizeOf d
decreasing_by
  all_goals simp_wf
  all_goals try rw [RVal.arr.sizeOf_spec]
  all_goals try rw [RVal.obj.sizeOf_spec]
  all_goals omega

theorem derivGoodElem : ∀ {v : JsonValue} {s : List Char},
    RElem false v s → GoodVal v
  | _, _, RElem.mk _ v w1 core w2 hw1 hval hw2 => derivGoodVal hval
termination_by v s d => sizeOf d
decreasing_by
  all_goals simp_wf
  all_goals try rw [RElem.mk.sizeOf_spec]
  all_goals omega

theorem derivGoodElems : ∀ {vs : List JsonValue} {s : List Char},
    RElems false vs s → GoodVals vs
  | _, _, RElems.one _ v s d => by
    simp only [GoodVals]
    exact ⟨derivGoodElem d, by simp [GoodVals]⟩
  | _, _, RElems.cons _ v s vs ss d ds => by
    simp only [GoodVals]
    exact ⟨derivGoodElem d, derivGoodElems ds⟩
termination_by vs s d => sizeOf d
decreasing_by
  all_goals simp_wf
  all_goals try rw [RElems.one.sizeOf_spec]
  all_goals try rw [RElems.cons.sizeOf_spec]
  all_goals omega

theorem derivGoodMemb : ∀ {k : List Char} {v : JsonValue} {s : List Char},
    RMemb false k v s → (∀ c ∈ k, GoodStrChar c) ∧ GoodVal v
  | _, _, _, RMemb.mk _ k v w1 kraw w2 es hw1 hkey hw2 helem =>
    ⟨strBody_good hkey, derivGoodElem helem⟩
termination_by k v s d => sizeOf d
decreasing_by
  all_goals simp_wf
  all_goals try rw [RMemb.mk.sizeOf_spec]
  all_goals omega

theorem derivGoodMembs : ∀ {ps : List (List Char × JsonValue)} {s : List Char},
    RMembs false ps s → GoodPairs ps
  | _, _, RMembs.one _ k v s d => by
    simp only [GoodPairs]
    exact ⟨(derivGoodMemb d).1, (derivGoodMemb d).2, by simp [GoodPairs]⟩
  | _, _, RMembs.cons _ k v s ps ss d ds => by
    simp only [GoodPairs]
    exact ⟨(derivGoodMemb d).1, (derivGoodMemb d).2, derivGoodMembs ds⟩
termination_by ps s d => sizeOf d
decreasing_by
  all_goals simp_wf
  all_goals try rw [RMembs.one.sizeOf_spec]
  all_goals try rw [RMembs.cons.sizeOf_spec]
  all_goals omega

end

/-- The serializer escaping of a re-renderable payload is a valid restricted
string body. -/
def strBody_of_good : ∀ (s : List Char), (∀ c ∈ s, GoodStrChar c) →
    StrBody false s (escape_string s)
  | [], _ => StrBody.nil false
  | c :: cs, h =>
    have hrest : StrBody false cs (escape_string cs) :=
      strBody_of_good cs (fun x hx => h x (List.mem_cons_of_mem _ hx))
    if h1 : c = '"' then by
      subst h1
      exact StrBody.esc false '"' '"' cs (escape_string cs) (by decide) hrest
    else if h2 : c = '\\' then by
      subst h2
      exact StrBody.esc false '\\' '\\' cs (escape_string cs) (by decide) hrest
    else if h3 : c = '\n' then by
      subst h3
      exact StrBody.esc false 'n' '\n' cs (escape_string cs) (by decide) hrest
    else if h4 : c = '\r' then by
      subst h4
      exact StrBody.esc false 'r' '\r' cs (escape_string cs) (by decide) hrest
    else if h5 : c = '\t' then by
      subst h5
      exact StrBody.esc false 't' '\t' cs (escape_string cs) (by decide) hrest
    else by
      have hg := h c (by simp)
      have h32 : 0x20 ≤ c.toNat := by
        rcases hg with hg | hg | hg | hg
        · exact hg
        · exact absurd hg h3
        · exact absurd hg h4
        · exact absurd hg h5
      have e : escape_string (c :: cs) = c :: escape_string cs := by
        have e2 : escChar c = [c] := by
          unfold escChar
          rw [if_neg h1, if_neg h2, if_neg h3, if_neg h4, if_neg h5]
        rw [show escape_string (c :: cs) = escChar c ++ escape_string cs from rfl,
          e2, List.singleton_append]
      rw [e]
      exact StrBody.raw false c cs (escape_string cs) h1 h2 h32 hrest

theorem intercalate_nil_chars (sep : List Char) :
    List.intercalate sep ([] : List (List Char)) = [] := by
  simp [List.intercalate]

theorem intercalate_single (sep a : List Char) :
    List.intercalate sep [a] = a := by
  simp [List.intercalate]

theorem intercalate_cons2 (sep a b : List Char) (t : List (List Char)) :
    List.intercalate sep (a :: b :: t)
      = a ++ sep ++ List.intercalate sep (b :: t) := by
  simp [List.intercalate, List.intersperse]

/-- A canonical integer value of magnitude at most `2^53` re-renders to a
restricted JSON number literal denoting the same value. -/
theorem renderNum (qn : Int) (qe : Nat) (hg : GoodNum ⟨qn, qe⟩) :
    Nonempty (RVal false (JsonValue.number ⟨qn, qe⟩) (jnumToChars ⟨qn, qe⟩)) := by
  obtain ⟨hcanon, hexp, hb1, hb2⟩ := hg
  have hc : JNum.normCore qn qe = ⟨qn, qe⟩ := hcanon
  have he : qe = 0 := hexp
  subst he
  have hsafe : F64IntSafe ⟨qn, 0⟩ := ⟨rfl, hb1, hb2⟩
  have hcl : i64clamp qn = qn :=
    i64clamp_eq (le_trans (by norm_num) hb1) (hb2.trans (by norm_num))
  have etext : jnumToChars ⟨qn, 0⟩ = intToDigitChars qn := by
    show (if (0 : Nat) = 0 then intToDigitChars (i64clamp qn)
      else jnumFracChars ⟨qn, 0⟩) = intToDigitChars qn
    rw [if_pos rfl, hcl]
  obtain ⟨hne, hdig, hval, hlead, _⟩ := natToDigitChars_spec qn.natAbs
  have eA : (digitsToNat (natToDigitChars qn.natAbs)
      * 10 ^ ([] : List Char).length + digitsToNat ([] : List Char) : Nat)
      = qn.natAbs := by
    rw [hval]
    simp [digitsToNat]
  by_cases hneg : qn < 0
  · have hv : numVal true (natToDigitChars qn.natAbs) [] = ⟨qn, 0⟩ := by
      unfold numVal
      rw [if_pos rfl, eA]
      have e2 : -((qn.natAbs : Int)) = qn := by omega
      rw [e2]
      exact hc
    have ht : numText true (natToDigitChars qn.natAbs) [] = jnumToChars ⟨qn, 0⟩ := by
      rw [etext]
      unfold numText intToDigitChars
      rw [if_pos hneg]
      simp
    have hd := RVal.num false true (natToDigitChars qn.natAbs) [] hne hdig hlead
      (by simp) (fun _ => hv.symm ▸ hsafe)
    exact ⟨ht ▸ hv ▸ hd⟩
  · have hv : numVal false (natToDigitChars qn.natAbs) [] = ⟨qn, 0⟩ := by
      unfold numVal
      rw [if_neg (by decide), eA]
      have e2 : ((qn.natAbs : Int)) = qn := by omega
      rw [e2]
      exact hc
    have ht : numText false (natToDigitChars qn.natAbs) [] = jnumToChars ⟨qn, 0⟩ := by
      rw [etext]
      unfold numText intToDigitChars
      rw [if_neg hneg]
      simp
    have hd := RVal.num false false (natToDigitChars qn.natAbs) [] hne hdig hlead
      (by simp) (fun _ => hv.symm ▸ hsafe)
    exact ⟨ht ▸ hv ▸ hd⟩

mutual

/-- Every re-renderable value's rendering is a restricted JSON value text
denoting the same value. -/
theorem renderVal : ∀ (v : JsonValue), GoodVal v →
    Nonempty (RVal false v v.to_json_string)
  | JsonValue.null, _ => by
    have e : JsonValue.null.to_json_string = 'n' :: 'u' :: 'l' :: 'l' :: [] := by
      have e2 : JsonValue.null.to_json_string = "null".data := by
        simp [JsonValue.to_json_string]
      rw [e2]
    rw [e]
    exact ⟨RVal.null false⟩
  | JsonValue.boolean true, _ => by
    have e : (JsonValue.boolean true).to_json_string
        = 't' :: 'r' :: 'u' :: 'e' :: [] := by
      have e2 : (JsonValue.boolean true).to_json_string = "true".data := by
        simp [JsonValue.to_json_string]
      rw [e2]
    rw [e]
    exact ⟨RVal.btrue false⟩
  | JsonValue.boolean false, _ => by
    have e : (JsonValue.boolean false).to_json_string
        = 'f' :: 'a' :: 'l' :: 's' :: 'e' :: [] := by
      have e2 : (JsonValue.boolean false).to_json_string = "false".data := by
        simp [JsonValue.to_json_string]
      rw [e2]
    rw [e]
    exact ⟨RVal.bfalse false⟩
  | JsonValue.number q, hg => by
    obtain ⟨qn, qe⟩ := q
    have e : (JsonValue.number ⟨qn, qe⟩).to_json_string = jnumToChars ⟨qn, qe⟩ := by
      simp [JsonValue.to_json_string]
    rw [e]
    exact renderNum qn qe (by simpa [GoodVal] using hg)
  | JsonValue.string s, hg => by
    have e : (JsonValue.string s).to_json_string
        = '"' :: escape_string s ++ ['"'] := by
      simp [JsonValue.to_json_string]
    rw [e]
    exact ⟨RVal.str false s (escape_string s)
      (strBody_of_good s (by simpa [GoodVal] using hg))⟩
  | JsonValue.array [], _ => by
    have e : (JsonValue.array []).to_json_string = '[' :: [] ++ [']'] := by
      simp [JsonValue.to_json_string, jsonArrStrings, intercalate_nil_chars]
    rw [e]
    exact ⟨RVal.arrNil false [] (by simp [JWs])⟩
  | JsonValue.array (v :: vs'), hg => by
    obtain ⟨hgv, hgvs⟩ : GoodVal v ∧ GoodVals vs' := by
      simpa [GoodVal, GoodVals] using hg
    obtain ⟨d⟩ := renderElems [] (by simp [JWs]) v vs' hgv hgvs
    have e : (JsonValue.array (v :: vs')).to_json_string
        = '[' :: ([] ++ List.intercalate ", ".data (jsonArrStrings (v :: vs')))
          ++ [']'] := by
      simp [JsonValue.to_json_string]
    rw [e]
    exact ⟨RVal.arr false (v :: vs') _ d⟩
  | JsonValue.object [], _ => by
    have e : (JsonValue.object []).to_json_string = '\x7b' :: [] ++ ['\x7d'] := by
      simp [JsonValue.to_json_string, jsonObjStrings, intercalate_nil_chars]
    rw [e]
    exact ⟨RVal.objNil false [] (by simp [JWs])⟩
  | JsonValue.object ((k, v) :: ps'), hg => by
    obtain ⟨hgk, hgv, hgps⟩ :
        (∀ c ∈ k, GoodStrChar c) ∧ GoodVal v ∧ GoodPairs ps' := by
      simpa [GoodVal, GoodPairs] using hg
    obtain ⟨d⟩ := renderMembs [] (by simp [JWs]) k v ps' hgk hgv hgps
    have e : (JsonValue.object ((k, v) :: ps')).to_json_string
        = '\x7b' :: ([] ++ List.intercalate ", ".data
            (jsonObjStrings ((k, v) :: ps'))) ++ ['\x7d'] := by
      simp [JsonValue.to_json_string]
    rw [e]
    exact ⟨RVal.obj false ((k, v) :: ps') _ d⟩
termination_by v hg => sizeOf v
decreasing_by
  all_goals simp_wf
  all_goals try simp
  all_goals omega

/-- Rendered element lists are restricted element-list texts. -/
theorem renderElems : ∀ (w1 : List Char), JWs w1 →
    ∀ (v : JsonValue) (vs : List JsonValue), GoodVal v → GoodVals vs →
    Nonempty (RElems false (v :: vs)
      (w1 ++ List.intercalate ", ".data (jsonArrStrings (v :: vs))))
  | w1, hw1, v, [], hgv, _ => by
    obtain ⟨d⟩ := renderVal v hgv
    have delem : RElem false v (w1 ++ v.to_json_string ++ []) :=
      RElem.mk false v w1 v.to_json_string [] hw1 d (by simp [JWs])
    have e : w1 ++ v.to_json_string ++ []
        = w1 ++ List.intercalate ", ".data (jsonArrStrings [v]) := by
      rw [show jsonArrStrings [v] = [v.to_json_string] from by simp [jsonArrStrings],
        intercalate_single]
      simp
    exact ⟨e ▸ RElems.one false v _ delem⟩
  | w1, hw1, v, v' :: vs'', hgv, hgs => by
    obtain ⟨hgv', hgs'⟩ : GoodVal v' ∧ GoodVals vs'' := by
      simpa [GoodVals] using hgs
    obtain ⟨d⟩ := renderVal v hgv
    obtain ⟨ds⟩ := renderElems [' '] (by simp [JWs]) v' vs'' hgv' hgs'
    have delem : RElem false v (w1 ++ v.to_json_string ++ []) :=
      RElem.mk false v w1 v.to_json_string [] hw1 d (by simp [JWs])
    have dcons := RElems.cons false v (w1 ++ v.to_json_string ++ []) (v' :: vs'')
      ([' '] ++ List.intercalate ", ".data (jsonArrStrings (v' :: vs''))) delem ds
    have e : (w1 ++ v.to_json_string ++ []) ++ ',' ::
          ([' '] ++ List.intercalate ", ".data (jsonArrStrings (v' :: vs'')))
        = w1 ++ List.intercalate ", ".data (jsonArrStrings (v :: v' :: vs'')) := by
      rw [show jsonArrStrings (v :: v' :: vs'')
          = v.to_json_string :: v'.to_json_string :: jsonArrStrings vs'' from by
            simp [jsonArrStrings],
        intercalate_cons2,
        show jsonArrStrings (v' :: vs'')
          = v'.to_json_string :: jsonArrStrings vs'' from by simp [jsonArrStrings],
        show (", ".data : List Char) = [',', ' '] from rfl]
      simp
    exact ⟨e ▸ dcons⟩
termination_by w1 hw1 v vs hgv hgs => 1 + sizeOf v + sizeOf vs
decreasing_by
  all_goals simp_wf
  all_goals try simp
  all_goals omega

/-- Rendered member lists are restricted member-list texts. -/
theorem renderMembs : ∀ (w1 : List Char), JWs w1 →
    ∀ (k : List Char) (v : JsonValue) (ps : List (List Char × JsonValue)),
    (∀ c ∈ k, GoodStrChar c) → GoodVal v → GoodPairs ps →
    Nonempty (RMembs false ((k, v) :: ps)
      (w1 ++ List.intercalate ", ".data (jsonObjStrings ((k, v) :: ps))))
  | w1, hw1, k, v, [], hgk, hgv, _ => by
    obtain ⟨d⟩ := renderVal v hgv
    have delem : RElem false v ([' '] ++ v.to_json_string ++ []) :=
      RElem.mk false v [' '] v.to_json_string [] (by simp [JWs]) d (by simp [JWs])
    have dmemb : RMemb false k v
        (w1 ++ '"' :: escape_string k ++ '"' :: [] ++ ':' ::
          ([' '] ++ v.to_json_string ++ [])) :=
      RMemb.mk false k v w1 (escape_string k) []
        ([' '] ++ v.to_json_string ++ [])
        hw1 (strBody_of_good k hgk) (by simp [JWs]) delem
    have e : (w1 ++ '"' :: escape_string k ++ '"' :: [] ++ ':' ::
          ([' '] ++ v.to_json_string ++ []))
        = w1 ++ List.intercalate ", ".data (jsonObjStrings [(k, v)]) := by
      rw [show jsonObjStrings [(k, v)]
          = ['"' :: escape_string k ++ "\": ".data ++ v.to_json_string] from by
            simp [jsonObjStrings],
        intercalate_single,
        show ("\": ".data : List Char) = ['"', ':', ' '] from rfl]
      simp
    exact ⟨e ▸ RMembs.one false k v _ dmemb⟩
  | w1, hw1, k, v, (k', v') :: ps'', hgk, hgv, hgs => by
    obtain ⟨hgk', hgv', hgs'⟩ :
        (∀ c ∈ k', GoodStrChar c) ∧ GoodVal v' ∧ GoodPairs ps'' := by
      simpa [GoodPairs] using hgs
    obtain ⟨d⟩ := renderVal v hgv
    obtain ⟨ds⟩ := renderMembs [' '] (by simp [JWs]) k' v' ps'' hgk' hgv' hgs'
    have delem : RElem false v ([' '] ++ v.to_json_string ++ []) :=
      RElem.mk false v [' '] v.to_json_string [] (by simp [JWs]) d (by simp [JWs])
    have dmemb : RMemb false k v
        (w1 ++ '"' :: escape_string k ++ '"' :: [] ++ ':' ::
          ([' '] ++ v.to_json_string ++ [])) :=
      RMemb.mk false k v w1 (escape_string k) []
        ([' '] ++ v.to_json_string ++ [])
        hw1 (strBody_of_good k hgk) (by simp [JWs]) delem
    have dcons := RMembs.cons false k v
      (w1 ++ '"' :: escape_string k ++ '"' :: [] ++ ':' ::
        ([' '] ++ v.to_json_string ++ []))
      ((k', v') :: ps'')
      ([' '] ++ List.intercalate ", ".data (jsonObjStrings ((k', v') :: ps'')))
      dmemb ds
    have e : (w1 ++ '"' :: escape_string k ++ '"' :: [] ++ ':' ::
          ([' '] ++ v.to_json_string ++ [])) ++ ',' ::
          ([' '] ++ List.intercalate ", ".data (jsonObjStrings ((k', v') :: ps'')))
        = w1 ++ List.intercalate ", ".data
            (jsonObjStrings ((k, v) :: (k', v') :: ps'')) := by
      rw [show jsonObjStrings ((k, v) :: (k', v') :: ps'')
          = ('"' :: escape_string k ++ "\": ".data ++ v.to_json_string)
            :: ('"' :: escape_string k' ++ "\": ".data ++ v'.to_json_string)
            :: jsonObjStrings ps'' from by simp [jsonObjStrings],
        intercalate_cons2,
        show jsonObjStrings ((k', v') :: ps'')
          = ('"' :: escape_string k' ++ "\": ".data ++ v'.to_json_string)
            :: jsonObjStrings ps'' from by simp [jsonObjStrings],
        show ("\": ".data : List Char) = ['"', ':', ' '] from rfl,
        show (", ".data : List Char) = [',', ' '] from rfl]
      simp
    exact ⟨e ▸ dcons⟩
termination_by w1 hw1 k v ps hgk hgv hgs => 1 + sizeOf v + sizeOf ps
decreasing_by
  all_goals simp_wf
  all_goals try simp
  all_goals omega

end

/-- C2 (amended): for every valid JSON text in the restricted class — only
the escapes `\"`, `\\`, `\n`, `\r`, `\t`, no exponent notation, no `\uXXXX`
escapes, and number values that are integers of magnitude at most `2^53`
(the class on which `f64` is exact, so no rounding, overflow to infinity,
or shortest-representation printing can occur) — `parse_json` succeeds, and
re-parsing the serialization of the result returns a structurally equal
value tree. -/
theorem C2_round_trip_amended (s : List Char) (h : IsJsonTextR s) :
    ∃ v, parse_json s = Except.ok v ∧
      parse_json v.to_json_string = Except.ok v := by
  obtain ⟨v, ⟨d⟩⟩ := h
  refine ⟨v, parse_ok d, ?_⟩
  have hg : GoodVal v := derivGoodElem d
  obtain ⟨d2⟩ := renderVal v hg
  have d3 : RElem false v ([] ++ v.to_json_string ++ []) :=
    RElem.mk false v [] v.to_json_string [] (by simp [JWs]) d2 (by simp [JWs])
  have e : ([] : List Char) ++ v.to_json_string ++ [] = v.to_json_string := by simp
  exact parse_ok (e ▸ d3)

theorem C2_round_trip_amended_witness :
    IsJsonTextR ('1' :: []) ∧
    ∃ v, parse_json ('1' :: []) = Except.ok v ∧
      parse_json v.to_json_string = Except.ok v := by
  have dnum : RVal false (JsonValue.number (numVal false ['1'] []))
      (numText false ['1'] []) :=
    RVal.num false false ['1'] [] (by decide) (by decide) (by decide) (by decide)
      (fun _ => ⟨by decide, by decide, by decide⟩)
  have delem : RElem false (JsonValue.number (numVal false ['1'] []))
      ([] ++ numText false ['1'] [] ++ []) :=
    RElem.mk false _ [] (numText false ['1'] []) [] (by simp [JWs]) dnum
      (by simp [JWs])
  have hj : IsJsonTextR ('1' :: []) :=
    ⟨JsonValue.number (numVal false ['1'] []), ⟨delem⟩⟩
  exact ⟨hj, C2_round_trip_amended ('1' :: []) hj⟩
